import Mathlib

/-!
# xtime: a verification development

Shallow embedding of `xtime.go` (package `xtime`) together with the part of Go's
standard `time` package that the package calls (`time.Date`, the calendar
accessors of `time.Time`, `Time.Add`, `time.Unix`, zone lookup, the rendering and
parsing of the layout `2006-01-02 15:04:05`).

Conventions of the model:
* years and day counts are mathematical integers; the seconds of an instant are
  Go's 64-bit counters: `time.Date`, `time.Unix`, `Time.Add`, `Time.Unix`,
  `Time.Before` and the calendar accessors compute modulo 2^64 as Go does;
* strings are lists of characters;
* the package variable `local`, the host's `time.Local` and the host clock are
  the fields of `World`, which the package functions receive explicitly;
* the iteration order of the Go map in `Format` is an explicit argument.
-/

namespace XTime

/-! ## Calendar arithmetic of Go's `time` package -/

/-- Go `isLeap`: the proleptic Gregorian leap-year rule. -/
def isLeap (year : Int) : Bool :=
  year % 4 == 0 && (year % 100 != 0 || year % 400 == 0)

/-- Go `daysBefore`: `daysBefore[m]` is the number of days in a non-leap year
before month `m + 1`. -/
def daysBeforeTable : List Int :=
  [0, 31, 59, 90, 120, 151, 181, 212, 243, 273, 304, 334, 365]

/-- Go `daysBefore[m]`. -/
def daysBefore (m : Int) : Int := daysBeforeTable.getD m.toNat 365

/-- Go `daysIn(m, year)`: the length of month `m` (1..12) of `year`. -/
def daysIn (m : Int) (year : Int) : Int :=
  if m = 2 ∧ isLeap year = true then 29
  else daysBefore m - daysBefore (m - 1)

/-- Go `norm(hi, lo, base)`: carries `lo` into `hi` so that `0 ≤ lo < base`. -/
def norm (hi lo base : Int) : Int × Int :=
  let (hi, lo) :=
    if lo < 0 then
      let n := (-lo - 1) / base + 1
      (hi - n, lo + n * base)
    else (hi, lo)
  if lo ≥ base then
    let n := lo / base
    (hi + n, lo - n * base)
  else (hi, lo)

/-- Go `daysSinceEpoch(year)`, counted from 1 January of year 1: the number of
days before 1 January of `year`, by 400-, 100-, 4- and 1-year cycles. -/
def daysSinceEpoch (year : Int) : Int :=
  let y := year - 1
  let n := y / 400
  let y := y - 400 * n
  let d := 146097 * n
  let n := y / 100
  let y := y - 100 * n
  let d := d + 36524 * n
  let n := y / 4
  let y := y - 4 * n
  let d := d + 1461 * n
  d + 365 * y

/-- The civil date of a day count. -/
structure Civil where
  year : Int
  month : Int
  day : Int
  yday : Int
deriving DecidableEq, Repr

/-- Go `absDate`'s year part: the year and the zero-based day of the year of the
day `days` days after 1 January of year 1. -/
def absYear (days : Int) : Int × Int :=
  let d := days
  let n := d / 146097
  let y := 400 * n
  let d := d - 146097 * n
  let n := d / 36524
  let n := n - n / 4
  let y := y + 100 * n
  let d := d - 36524 * n
  let n := d / 1461
  let y := y + 4 * n
  let d := d - 1461 * n
  let n := d / 365
  let n := n - n / 4
  let y := y + n
  let d := d - 365 * n
  (y + 1, d)

/-- Go `absDate`'s month estimate: month and day of the month of the zero-based
day `day` of a non-leap year ("estimate month on assumption that every month has
31 days; the estimate may be too low by at most one month, so adjust"). -/
def monthDayOf (day : Int) : Int × Int :=
  let month := day / 31
  let e := daysBefore (month + 1)
  if day ≥ e then (month + 2, day - e + 1)
  else (month + 1, day - daysBefore month + 1)

/-- Go `absDate`'s month part: month and day of the month from the zero-based day
of the year; in a leap year the leap day is returned at once and the days after
it are shifted back by one. -/
def absMonthDay (year yday : Int) : Int × Int :=
  if isLeap year = true ∧ yday = 31 + 29 - 1 then (2, 29)
  else monthDayOf (if isLeap year = true ∧ yday > 31 + 29 - 1 then yday - 1 else yday)

/-- Go `absDate(abs, true)` over a day count from 1 January of year 1. -/
def absDate (days : Int) : Civil :=
  let (year, yday) := absYear days
  let (month, day) := absMonthDay year yday
  ⟨year, month, day, yday⟩

/-- Day count (from 1 January of year 1) of a civil date, as `time.Date` computes
it for a month already normalised to 1..12. -/
def civilDays (year month day : Int) : Int :=
  daysSinceEpoch year + daysBefore (month - 1)
    + (if isLeap year = true ∧ month ≥ 3 then 1 else 0) + (day - 1)

/-- Length of a year in days. -/
def yearLen (year : Int) : Int := if isLeap year = true then 366 else 365

/-- A civil date with month in 1..12 and day within the month. -/
def validDate (year month day : Int) : Prop :=
  1 ≤ month ∧ month ≤ 12 ∧ 1 ≤ day ∧ day ≤ daysIn month year

instance (y m d : Int) : Decidable (validDate y m d) := by
  unfold validDate; infer_instance

/-- Day of the year (zero-based) of a month and day. -/
def ydayOf (year month day : Int) : Int :=
  daysBefore (month - 1) + (if isLeap year = true ∧ month ≥ 3 then 1 else 0) + (day - 1)

/-! ## Locations and instants of Go's `time` package -/

/-- Go `alpha`, the start of time of a zone table. -/
def alpha : Int := -(2 ^ 63)

/-- Go `omega`, the end of time of a zone table. -/
def omega : Int := 2 ^ 63 - 1

/-- A `time.Location`: the offset (seconds east of UTC) in effect before the first
transition and the table of transitions `(when, offset)`, `when` a Unix second in
increasing order, `offset` the offset in effect from `when` on. A fixed zone
(`time.UTC`, `time.FixedZone`) has an empty table. -/
structure Location where
  offset : Int
  tx : List (Int × Int)
deriving DecidableEq, Repr

/-- Go `time.UTC`. -/
def UTC : Location := ⟨0, []⟩

/-- Go `time.FixedZone(_, offset)`. -/
def FixedZone (offset : Int) : Location := ⟨offset, []⟩

/-- The scan of `Location.lookup`: the zone in effect at `sec`, given the zone
`(off, start)` in effect before the remaining transitions. -/
def lookupFrom (off start : Int) : List (Int × Int) → Int → Int × Int × Int
  | [], _ => (off, start, omega)
  | (w, o) :: rest, sec =>
    if sec < w then (off, start, w) else lookupFrom o w rest sec

/-- Go `(*Location).lookup(sec)`: the offset in effect at Unix second `sec` and
the interval `[start, end)` of seconds in which that zone is in effect. -/
def Location.lookup (l : Location) (sec : Int) : Int × Int × Int :=
  lookupFrom l.offset alpha l.tx sec

/-- A `time.Time`: Unix seconds, nanoseconds within the second and the location
in which the instant is presented (Go's nil location is `UTC`). Go keeps the
seconds in the `int64` field `ext`, counted from 1 January of year 1; `sec` is that
counter less `unixToInternal` and is read modulo 2^64 by every function below. -/
structure Time where
  sec : Int
  nsec : Fin 1000000000
  loc : Location
deriving DecidableEq, Repr

/-- Seconds from 1 January of year 1, 00:00:00 UTC, to the Unix epoch
(Go `unixToInternal`). -/
def unixToInternal : Int := 62135596800

/-- Go `internalToAbsolute`: the seconds from the absolute zero of the `time`
package, 1 January of year -292277022399, to 1 January of year 1; a whole number
of 400-year cycles, 292277022400 years of 365.2425 days. -/
def internalToAbsolute : Int := 9223371966579724800

/-- Go `int64` arithmetic: the value of `x` wrapped into the 64-bit range. -/
def wrap64 (x : Int) : Int := (x + 2 ^ 63) % 2 ^ 64 - 2 ^ 63

/-- Go `Time.unixSec`: the Unix seconds of `t`, an `int64`. -/
def Time.unixSec (t : Time) : Int := wrap64 t.sec

/-- Go `Time.sec` for a value without monotonic clock reading: the field `ext`,
the seconds since 1 January of year 1 as an `int64`. -/
def Time.ext (t : Time) : Int := wrap64 (t.sec + unixToInternal)

/-- Go `Time.abs`: the seconds of the local (wall clock) reading of `t`. Go counts
them from the absolute zero in a `uint64`, `uint64(sec + offset + (unixToInternal +
internalToAbsolute))`; here that value is given less `internalToAbsolute`, counted
from 1 January of year 1 as the calendar functions above count. -/
def Time.abs (t : Time) : Int :=
  (t.unixSec + (t.loc.lookup t.unixSec).1 + (unixToInternal + internalToAbsolute)) % 2 ^ 64
    - internalToAbsolute

/-- Go `Time.date`: the civil date of `t` in its location. -/
def Time.date (t : Time) : Civil := absDate (t.abs / 86400)

/-- Go `Time.Year`. -/
def Time.Year (t : Time) : Int := t.date.year

/-- Go `Time.Month`. -/
def Time.Month (t : Time) : Int := t.date.month

/-- Go `Time.Day`. -/
def Time.Day (t : Time) : Int := t.date.day

/-- Go `Time.Hour`. -/
def Time.Hour (t : Time) : Int := t.abs % 86400 / 3600

/-- Go `Time.Minute`. -/
def Time.Minute (t : Time) : Int := t.abs % 3600 / 60

/-- Go `Time.Second`. -/
def Time.Second (t : Time) : Int := t.abs % 60

/-- Go `Time.Weekday` (`absWeekday`): 0 is Sunday; day zero of the count, 1 January
of year 1, is a Monday. -/
def Time.Weekday (t : Time) : Int := (t.abs + 86400) % 604800 / 86400

/-- Go `Time.Unix`. -/
def Time.Unix (t : Time) : Int := t.unixSec

/-- Go `Time.In`: the same instant presented in `loc`. -/
def Time.In (t : Time) (loc : Location) : Time := { t with loc := loc }

/-- Nanoseconds of a normalised count, as a `Time` field. -/
def mkNsec (n : Int) : Fin 1000000000 :=
  ⟨(n % 1000000000).toNat, by omega⟩

/-- Go `Time.addSec` on the field `ext`: the sum in `int64` arithmetic, and the
largest or smallest counter when the sum overflows ("check if the sum of t.ext and
d overflows and handle it properly"). -/
def addSec (ext d : Int) : Int :=
  let sum := wrap64 (ext + d)
  if decide (sum > ext) = decide (d > 0) then sum
  else if d > 0 then 2 ^ 63 - 1
  else -(2 ^ 63 - 1)

/-- Go `Time.Add`, `d` a `time.Duration` in nanoseconds. -/
def Time.Add (t : Time) (d : Int) : Time :=
  let dsec := Int.tdiv d 1000000000
  let nsec := (t.nsec.val : Int) + Int.tmod d 1000000000
  let (dsec, nsec) :=
    if nsec ≥ 1000000000 then (dsec + 1, nsec - 1000000000)
    else if nsec < 0 then (dsec - 1, nsec + 1000000000)
    else (dsec, nsec)
  ⟨wrap64 (addSec t.ext dsec - unixToInternal), mkNsec nsec, t.loc⟩

/-- Go `time.Hour`, a `time.Duration`. -/
def timeHour : Int := 3600 * 1000000000

/-- Go `Time.Before`, for values without monotonic clock reading: the comparison
of the fields `ext`, then of the nanoseconds. -/
def Time.Before (t u : Time) : Prop :=
  t.ext < u.ext ∨ (t.ext = u.ext ∧ t.nsec < u.nsec)

instance (t u : Time) : Decidable (t.Before u) := by
  unfold Time.Before; infer_instance

/-- The order of instants, `t ≤ u`: `u` is not before `t`. -/
def Time.le (t u : Time) : Prop := ¬ u.Before t

instance (t u : Time) : Decidable (t.le u) := by
  unfold Time.le; infer_instance

/-- Go `time.Date`. Go counts the days from the absolute zero in a `uint64` and
turns the seconds into Unix seconds in `int64` arithmetic; the day count from
1 January of year 1 differs from Go's by a multiple of 2^64 seconds less
`internalToAbsolute`, so that wrapping the seconds gives Go's `unix` (for the years
from -292277022399 on, the only ones that `Time.Year` returns). -/
def Date (year month day hour min sec nsec : Int) (loc : Location) : Time :=
  let m := month - 1
  let (year, m) := norm year m 12
  let month := m + 1
  let (sec, nsec) := norm sec nsec 1000000000
  let (min, sec) := norm min sec 60
  let (hour, min) := norm hour min 60
  let (day, hour) := norm day hour 24
  let d := civilDays year month day
  let abs := d * 86400 + (hour * 3600 + min * 60 + sec)
  let unix := wrap64 (abs - unixToInternal)
  let (offset, start, stop) := loc.lookup unix
  let unix :=
    if offset ≠ 0 then
      let utc := wrap64 (unix - offset)
      let offset :=
        if utc < start ∨ utc ≥ stop then (loc.lookup utc).1 else offset
      wrap64 (unix - offset)
    else unix
  ⟨unix, mkNsec nsec, loc⟩

/-- Go `time.Unix(sec, nsec)`: the instant in the host's `time.Local`; `sec` is an
`int64`, and so is the counter of the result. -/
def timeUnix (timeLocal : Location) (sec nsec : Int) : Time :=
  let (sec, nsec) := norm sec nsec 1000000000
  ⟨wrap64 sec, mkNsec nsec, timeLocal⟩

/-! ## Text rendering and parsing of Go's `time` package -/

/-- The decimal digit character of `n < 10`. -/
def digitChar (n : Nat) : Char := Char.ofNat (48 + n)

/-- The decimal digits of `u`, most significant first, as the loop of Go
`appendInt` produces them; `fuel` bounds the number of digits and is `u` itself. -/
def natDigits : Nat → Nat → List Char
  | 0, u => [digitChar (u % 10)]
  | fuel + 1, u =>
    if u < 10 then [digitChar u]
    else natDigits fuel (u / 10) ++ [digitChar (u % 10)]

/-- Go `appendInt(b, x, width)`: the decimal form of `x`, zero-padded to `width`
digits, after a minus sign when `x` is negative; 2- and 4-digit fields take Go's
fast path. -/
def appendInt (x : Int) (width : Nat) : List Char :=
  let u := x.natAbs
  let sign : List Char := if x < 0 then ['-'] else []
  if width = 2 ∧ u < 100 then
    sign ++ [digitChar (u / 10), digitChar (u % 10)]
  else if width = 4 ∧ u < 10000 then
    sign ++ [digitChar (u / 1000), digitChar (u / 100 % 10), digitChar (u / 10 % 10),
      digitChar (u % 10)]
  else
    sign ++ List.replicate (width - (natDigits u u).length) '0' ++ natDigits u u

/-- Go `LayoutYmdHis`. -/
def LayoutYmdHis : List Char := "2006-01-02 15:04:05".toList

/-- Go `LayoutYmd`. -/
def LayoutYmd : List Char := "2006-01-02".toList

/-- Go `t.Format("2006-01-02")`: year (at least four digits), month and day. -/
def Time.textYmd (t : Time) : List Char :=
  appendInt t.Year 4 ++ ['-'] ++ appendInt t.Month 2 ++ ['-'] ++ appendInt t.Day 2

/-- Go `t.Format("2006-01-02 15:04:05")`. -/
def Time.textYmdHis (t : Time) : List Char :=
  t.textYmd ++ [' '] ++ appendInt t.Hour 2 ++ [':'] ++ appendInt t.Minute 2 ++ [':']
    ++ appendInt t.Second 2

/-- Go `formatNano` for the layout element `.999999999`: nothing for a whole
second, else a period and the nine digits of the nanoseconds without their
trailing zeros. -/
def textFraction (nsec : Nat) : List Char :=
  if nsec = 0 then []
  else
    let ds := natDigits nsec nsec
    let nine := List.replicate (9 - ds.length) '0' ++ ds
    '.' :: (nine.reverse.dropWhile (fun c => c == '0')).reverse

/-- Go's rendering of the layout element `-0700`; it is also what the element `MST`
prints for a zone without an abbreviation, and the zones of this model have none. -/
def textZone (offset : Int) : List Char :=
  let zone := Int.tdiv offset 60
  (if zone < 0 then ['-'] else ['+'])
    ++ appendInt ((Int.natAbs zone : Int) / 60) 2 ++ appendInt ((Int.natAbs zone : Int) % 60) 2

/-- Go `Time.String`: `t.Format("2006-01-02 15:04:05.999999999 -0700 MST")`. The
monotonic clock reading that Go appends to a `time.Now()` value, after this text,
is not modelled. -/
def Time.String (t : Time) : List Char :=
  t.textYmdHis ++ textFraction t.nsec.val ++ [' '] ++ textZone (t.loc.lookup t.unixSec).1
    ++ [' '] ++ textZone (t.loc.lookup t.unixSec).1

/-- The part of Go's `Time.Format` that this development relies on: `format t
layout` is `t.Format(layout)`; its value is fixed for the two layouts of this
package, the rest of Go's layout rules is left open. -/
structure TimeFormat where
  format : Time → List Char → List Char
  format_YmdHis : ∀ t, format t LayoutYmdHis = t.textYmdHis
  format_Ymd : ∀ t, format t LayoutYmd = t.textYmd

/-- A `TimeFormat`: the two layouts of the package, and every other layout copied
as it stands (which is what Go does with a layout without layout elements). -/
def plainFormat : TimeFormat where
  format t layout :=
    if layout = LayoutYmdHis then t.textYmdHis
    else if layout = LayoutYmd then t.textYmd
    else layout
  format_YmdHis t := by simp
  format_Ymd t := by
    have h : LayoutYmd ≠ LayoutYmdHis := by decide
    simp [h]

/-- Go `isDigit(s, 0)`. -/
def isDigit (s : List Char) : Bool :=
  match s with
  | c :: _ => decide ('0' ≤ c ∧ c ≤ '9')
  | [] => false

/-- Go `int(c - '0')`. -/
def digitVal (c : Char) : Int := (c.toNat : Int) - 48

/-- Go `getnum(s, fixed)`: a one- or two-digit number at the head of `s`, two
digits being required when `fixed`. -/
def getnum (s : List Char) (fixed : Bool) : Option (Int × List Char) :=
  if !isDigit s then none
  else if !isDigit (s.drop 1) then
    if fixed then none
    else
      match s with
      | c :: rest => some (digitVal c, rest)
      | [] => none
  else
    match s with
    | c :: c' :: rest => some (digitVal c * 10 + digitVal c', rest)
    | _ => none

/-- Go `leadingInt` on a string that must be all digits (as `atoi` requires): the
number the digits denote. -/
def atoiDigits : List Char → Option Int
  | [] => none
  | s => if s.all (fun c => isDigit [c]) then
      some (s.foldl (fun acc c => acc * 10 + digitVal c) 0)
    else none

/-- Go `cutspace`. -/
def cutspace (s : List Char) : List Char := s.dropWhile (fun c => c == ' ')

/-- Go `skip(value, prefix)`: removes the literal text `prefix` from the head of
`value`; a run of spaces in `prefix` stands for a run of spaces in `value`. The
flag says that the spaces of `prefix` now read were already cut by `cutspace`. -/
def skipAux : Bool → List Char → List Char → Option (List Char)
  | _, value, [] => some value
  | cut, value, p :: pre =>
    if p = ' ' then
      if cut then skipAux true value pre
      else
        match value with
        | v :: _ => if v ≠ ' ' then none else skipAux true (cutspace value) pre
        | [] => skipAux true [] pre
    else
      match value with
      | v :: vs => if v = p then skipAux false vs pre else none
      | [] => none

/-- Go `skip(value, prefix)`. -/
def skip (value pre : List Char) : Option (List Char) := skipAux false value pre

/-- Go `parse`, layout element `2006`: exactly four digits. -/
def getYear (value : List Char) : Option (Int × List Char) :=
  if value.length < 4 ∨ !isDigit value then none
  else
    match atoiDigits (value.take 4) with
    | some y => some (y, value.drop 4)
    | none => none

/-- Go `parse`, after the seconds of a layout without a fraction: a fraction in
the input (`.` or `,` and digits) is read all the same. Returns the nanoseconds
(`parseNanoseconds`, at most nine digits count) and the rest of the input. -/
def getFraction (value : List Char) : Option (Int × List Char) :=
  match value with
  | c :: rest =>
    if (c = '.' ∨ c = ',') ∧ isDigit rest then
      let ds := rest.takeWhile (fun c => isDigit [c])
      let ds9 := ds.take 9
      match atoiDigits ds9 with
      | some ns => some (ns * 10 ^ (9 - ds9.length), rest.dropWhile (fun c => isDigit [c]))
      | none => none
    else some (0, value)
  | [] => some (0, value)

/-- Go `parse`, a two-digit layout element (`01`, `02`, `04`, `05`) or the element
`15`, followed by the range check of the element: the value must lie in
`lo .. hi`. -/
def getField (value : List Char) (fixed : Bool) (lo hi : Int) : Option (Int × List Char) :=
  match getnum value fixed with
  | some (n, rest) => if n < lo ∨ hi < n then none else some (n, rest)
  | none => none

/-- Go `parse` on the date part `2006-01-02` of the layout: year, month (1..12)
and day (any two digits; the day is checked against the month at the end). -/
def parseDatePart (value : List Char) : Option ((Int × Int × Int) × List Char) :=
  match getYear value with
  | none => none
  | some (year, value) =>
    match skip value ['-'] with
    | none => none
    | some value =>
      match getField value true 1 12 with
      | none => none
      | some (month, value) =>
        match skip value ['-'] with
        | none => none
        | some value =>
          match getnum value true with
          | none => none
          | some (day, value) => some ((year, month, day), value)

/-- Go `parse` on the clock part `15:04:05` of the layout: hour (one or two
digits, 0..23), minute and second (two digits, 0..59). -/
def parseClockPart (value : List Char) : Option ((Int × Int × Int) × List Char) :=
  match getField value false 0 23 with
  | none => none
  | some (hour, value) =>
    match skip value [':'] with
    | none => none
    | some value =>
      match getField value true 0 59 with
      | none => none
      | some (min, value) =>
        match skip value [':'] with
        | none => none
        | some value =>
          match getField value true 0 59 with
          | none => none
          | some (sec, value) => some ((hour, min, sec), value)

/-- Go `time.ParseInLocation("2006-01-02 15:04:05", value, loc)`; `none` is a
`*time.ParseError`. After the elements of the layout, a fraction of a second is
read if present, no text may remain, and the day must exist in its month. -/
def parseInLocationYmdHis (value : List Char) (loc : Location) : Option Time :=
  match parseDatePart value with
  | none => none
  | some ((year, month, day), value) =>
    match skip value [' '] with
    | none => none
    | some value =>
      match parseClockPart value with
      | none => none
      | some ((hour, min, sec), value) =>
        match getFraction value with
        | none => none
        | some (nsec, value) =>
          if value ≠ [] then none
          else if day < 1 ∨ day > daysIn month year then none
          else some (Date year month day hour min sec nsec loc)

/-- Go `regexp.Match("[YymdHis]+", s)`: some character of `s` is a token letter. -/
def matchTokens (s : List Char) : Bool :=
  s.any (fun c => c ∈ ['Y', 'y', 'm', 'd', 'H', 'i', 's'])

/-- Go `regexp.MustCompile(c+).ReplaceAllString(src, repl)` for a `repl` without
`$`: every maximal run of `c` in `src` becomes `repl`. The flag says that the
previous character belonged to a run already replaced. -/
def replaceRuns (c : Char) (repl : List Char) : Bool → List Char → List Char
  | _, [] => []
  | inRun, x :: xs =>
    if x = c then
      (if inRun then [] else repl) ++ replaceRuns c repl true xs
    else x :: replaceRuns c repl false xs

/-- Go `ReplaceAllString` of the expression `c+`. -/
def ReplaceAllString (c : Char) (src repl : List Char) : List Char :=
  replaceRuns c repl false src

/-- Go `s[i:j]`. -/
def slice (s : List Char) (i j : Nat) : List Char := (s.drop i).take (j - i)

/-! ## Package `xtime` -/

/-- What the package reads besides its arguments: the package variable `local`
(`none` is Go's nil), the host's `time.Local`, and the reading of the host clock
(Unix seconds and nanoseconds) that `time.Now` returns. -/
structure World where
  pkgLocal : Option Location
  timeLocal : Location
  clockSec : Int
  clockNsec : Fin 1000000000
deriving DecidableEq, Repr

/-- Go `SetLocation`: `local = loc`. -/
def SetLocation (w : World) (loc : Option Location) : World :=
  { w with pkgLocal := loc }

/-- Go `GetLocation`. -/
def GetLocation (w : World) : Location :=
  match w.pkgLocal with
  | some l => l
  | none => w.timeLocal

/-- Go `time.Now()`. -/
def timeNow (w : World) : Time := ⟨w.clockSec, w.clockNsec, w.timeLocal⟩

/-- Go `Now`. -/
def Now (w : World) : Time := (timeNow w).In (GetLocation w)

/-- Go `findOrNow`. -/
def findOrNow (w : World) (args : List Time) : Time :=
  match args with
  | t :: _ => t
  | [] => Now w

/-- Go `StartOfDay`. -/
def StartOfDay (w : World) (args : List Time) : Time :=
  let t := findOrNow w args
  Date t.Year t.Month t.Day 0 0 0 0 (GetLocation w)

/-- Go `EndOfDay`. -/
def EndOfDay (w : World) (args : List Time) : Time :=
  let t := findOrNow w args
  Date t.Year t.Month t.Day 23 59 59 0 (GetLocation w)

/-- Go `StartOfWeek`. -/
def StartOfWeek (w : World) (args : List Time) : Time :=
  let now := findOrNow w args
  let t := now.Add (-(now.Weekday - 1) * 24 * timeHour)
  Date t.Year t.Month t.Day 0 0 0 0 (GetLocation w)

/-- Go `EndOfWeek`. -/
def EndOfWeek (w : World) (args : List Time) : Time :=
  let now := findOrNow w args
  let t := now.Add ((7 - now.Weekday) * 24 * timeHour)
  Date t.Year t.Month t.Day 23 59 59 0 (GetLocation w)

/-- Go `StartOfMonth`. -/
def StartOfMonth (w : World) (args : List Time) : Time :=
  let now := findOrNow w args
  Date now.Year now.Month 1 0 0 0 0 (GetLocation w)

/-- Go `EndOfMonth`. -/
def EndOfMonth (w : World) (args : List Time) : Time :=
  let now := findOrNow w args
  let next := (StartOfMonth w [now]).Add (31 * 24 * timeHour)
  timeUnix w.timeLocal ((StartOfMonth w [next]).Unix - 1) 0

/-- Go `StartOfYear`. -/
def StartOfYear (w : World) (args : List Time) : Time :=
  let now := findOrNow w args
  Date now.Year 1 1 0 0 0 0 (GetLocation w)

/-- Go `EndOfYear`. -/
def EndOfYear (w : World) (args : List Time) : Time :=
  let now := findOrNow w args
  Date now.Year 12 31 23 59 59 0 (GetLocation w)

/-- Go `Today`. -/
def Today (w : World) : Time :=
  let t := (timeNow w).In (GetLocation w)
  Date t.Year t.Month t.Day 0 0 0 0 (GetLocation w)

/-- Go `Tomorrow`. -/
def Tomorrow (w : World) (args : List Time) : Time :=
  let t := (findOrNow w args).Add (24 * timeHour)
  Date t.Year t.Month t.Day 0 0 0 0 (GetLocation w)

/-- Go `Yesterday`. -/
def Yesterday (w : World) (args : List Time) : Time :=
  let t := (findOrNow w args).Add (-24 * timeHour)
  Date t.Year t.Month t.Day 0 0 0 0 (GetLocation w)

/-- Go `YmdHis`. -/
def YmdHis (tf : TimeFormat) (t : Time) : List Char := tf.format t LayoutYmdHis

/-- Go `Ymd`. -/
def Ymd (tf : TimeFormat) (t : Time) : List Char := tf.format t LayoutYmd

/-- The map `o` of Go `Format`, its keys `Y+`, `y+`, ... written as their letter. -/
def formatTable (timeStr : List Char) : List (Char × List Char) :=
  [('Y', slice timeStr 0 4),
   ('y', slice timeStr 2 4),
   ('m', slice timeStr 5 7),
   ('d', slice timeStr 8 10),
   ('H', slice timeStr 11 13),
   ('i', slice timeStr 14 16),
   ('s', slice timeStr 17 19)]

/-- Go `Format`. The order in which Go's `range` visits the map `o` is not
specified; `order` is the list of keys in the order of the visit. -/
def Format (tf : TimeFormat) (order : List Char) (t : Time) (fmtStr : List Char) : List Char :=
  if !matchTokens fmtStr then tf.format t fmtStr
  else
    let timeStr := t.String
    let o := formatTable timeStr
    order.foldl
      (fun fmtStr k =>
        match o.lookup k with
        | some v => ReplaceAllString k fmtStr v
        | none => fmtStr)
      fmtStr

/-- The orders in which `range` may visit the seven keys of the map of `Format`. -/
def visitOrder (order : List Char) : Prop :=
  order.Perm ['Y', 'y', 'm', 'd', 'H', 'i', 's']

/-- The dynamic values that Go `Parse` tells apart by type. -/
inductive Value where
  | null
  | time (t : Time)
  | string (s : List Char)
  | int (n : Int)
  | int64 (n : Int)
  | int32 (n : Int)
  | float64 (mantissa : Int) (exponent : Int)
  | other (typeName : String)
deriving DecidableEq, Repr

/-- The two errors of Go `Parse`. -/
inductive ParseErr where
  | parseError
  | typeNotSupport
deriving DecidableEq, Repr

/-- Go's zero `time.Time{}`: 1 January of year 1, 00:00:00 UTC. -/
def zeroTime : Time := ⟨-unixToInternal, 0, UTC⟩

/-- Go `Parse`. -/
def Parse (w : World) (t : Value) : Except ParseErr Time :=
  match t with
  | .null => .ok zeroTime
  | .time t => .ok t
  | .string s =>
    match parseInLocationYmdHis s (GetLocation w) with
    | some t => .ok t
    | none => .error .parseError
  | .int n => .ok (timeUnix w.timeLocal n 0)
  | .int64 n => .ok (timeUnix w.timeLocal n 0)
  | _ => .error .typeNotSupport

/-! ## The token substitution of `Format`, in the words of the specification -/

/-- The field value that the specification gives to a token letter: `Y` the
4-digit year, `y` the 2-digit year, `m`, `d`, `H`, `i`, `s` the 2-digit
zero-padded month, day, hour, minute and second; `none` for any other
character. -/
def tokenValue (t : Time) (c : Char) : Option (List Char) :=
  if c = 'Y' then some (appendInt t.Year 4)
  else if c = 'y' then some (appendInt (t.Year % 100) 2)
  else if c = 'm' then some (appendInt t.Month 2)
  else if c = 'd' then some (appendInt t.Day 2)
  else if c = 'H' then some (appendInt t.Hour 2)
  else if c = 'i' then some (appendInt t.Minute 2)
  else if c = 's' then some (appendInt t.Second 2)
  else none

/-- One pass over a pattern that replaces every maximal run of a character `c`
with `f c = some v` by `v` and leaves every other character as it is and in
place. `prev` is the token letter whose run is being read, if any. -/
def substRuns (f : Char → Option (List Char)) : Option Char → List Char → List Char
  | _, [] => []
  | prev, x :: xs =>
    match f x with
    | some v => (if prev = some x then [] else v) ++ substRuns f (some x) xs
    | none => x :: substRuns f none xs

/-- The pattern with every maximal run of a token letter replaced by the field of
`t` that the specification gives to the letter. -/
def formatSpec (t : Time) (pattern : List Char) : List Char :=
  substRuns (tokenValue t) none pattern

/-- The function `f` with the value `v` at the key `k`. -/
def withKey (f : Char → Option (List Char)) (k : Char) (v : List Char) :
    Char → Option (List Char) :=
  fun c => if c = k then some v else f c

/-- The map `o` of `Format` seen only at the keys `ks`. -/
def restrictTo (o : List (Char × List Char)) (ks : List Char) : Char → Option (List Char) :=
  fun c => if c ∈ ks then o.lookup c else none

/-- The value that the code of `Format` substitutes for a character: the slice of
`t.String()` that the map `o` holds under a token letter, `none` for any other
character. -/
def codeValue (t : Time) (c : Char) : Option (List Char) :=
  if c = 'Y' then some (slice t.String 0 4)
  else if c = 'y' then some (slice t.String 2 4)
  else if c = 'm' then some (slice t.String 5 7)
  else if c = 'd' then some (slice t.String 8 10)
  else if c = 'H' then some (slice t.String 11 13)
  else if c = 'i' then some (slice t.String 14 16)
  else if c = 's' then some (slice t.String 17 19)
  else none

/-- The token letters. -/
def tokenLetters : List Char := ['Y', 'y', 'm', 'd', 'H', 'i', 's']

/-- 10000-01-01 00:00:00 UTC, the first instant of the year 10000. -/
def tYear10000 : Time := ⟨253402300800, 0, UTC⟩

/-- The first instant of the year -1, two years before 1 January of year 1, in UTC. -/
def tYearMinus1 : Time := ⟨-62198755200, 0, UTC⟩

/-! ## The texts of `Parse`, in the words of the specification -/

deriving instance DecidableEq for Except

/-- A decimal digit. -/
def isDig (c : Char) : Prop := '0' ≤ c ∧ c ≤ '9'

instance (c : Char) : Decidable (isDig c) := by unfold isDig; infer_instance

/-- The number that one or two digits denote. -/
def numeral (ds : List Char) : Int := ds.foldl (fun acc c => acc * 10 + digitVal c) 0

/-- The strings that `Parse` accepts: a four-digit year, `-`, a two-digit month
(01 to 12), `-`, a two-digit day that exists in the month, one or more spaces, an
hour of one or two digits (0 to 23), `:`, a two-digit minute, `:`, a two-digit
second (00 to 59 each), then nothing or a fraction: `.` or `,` and one or more
digits. -/
def acceptedText (s : List Char) : Prop :=
  ∃ (y1 y2 y3 y4 m1 m2 d1 d2 : Char) (k : Nat) (H : List Char) (i1 i2 s1 s2 : Char)
    (F : List Char),
    s = y1 :: y2 :: y3 :: y4 :: '-' :: m1 :: m2 :: '-' :: d1 :: d2 :: ' ' ::
          (List.replicate k ' ' ++ (H ++ ':' :: i1 :: i2 :: ':' :: s1 :: s2 :: F))
    ∧ (isDig y1 ∧ isDig y2 ∧ isDig y3 ∧ isDig y4) ∧ (isDig m1 ∧ isDig m2)
    ∧ (isDig d1 ∧ isDig d2) ∧ (isDig i1 ∧ isDig i2) ∧ (isDig s1 ∧ isDig s2)
    ∧ ((∃ h1, H = [h1] ∧ isDig h1) ∨ (∃ h1 h2, H = [h1, h2] ∧ isDig h1 ∧ isDig h2))
    ∧ (F = [] ∨ ∃ c ds, F = c :: ds ∧ (c = '.' ∨ c = ',') ∧ ds ≠ [] ∧ ∀ x ∈ ds, isDig x)
    ∧ (1 ≤ numeral [m1, m2] ∧ numeral [m1, m2] ≤ 12)
    ∧ (1 ≤ numeral [d1, d2]
        ∧ numeral [d1, d2] ≤ daysIn (numeral [m1, m2]) (numeral [y1, y2, y3, y4]))
    ∧ numeral H ≤ 23 ∧ numeral [i1, i2] ≤ 59 ∧ numeral [s1, s2] ≤ 59

/-- The exact layout `YYYY-MM-DD HH:MM:SS`: four, two, two, two, two and two digits
with the separators `-`, `-`, one space, `:`, `:`, and nothing before or after. -/
def exactLayout (s : List Char) : Bool :=
  match s with
  | [y1, y2, y3, y4, '-', m1, m2, '-', d1, d2, ' ', h1, h2, ':', i1, i2, ':', s1, s2] =>
    [y1, y2, y3, y4, m1, m2, d1, d2, h1, h2, i1, i2, s1, s2].all (fun c => decide (isDig c))
  | _ => false

/-- The text `YYYY-MM-DD HH:MM:SS` of six calendar fields. -/
def canonicalText (y m d h mi s : Int) : List Char :=
  appendInt y 4 ++ ['-'] ++ appendInt m 2 ++ ['-'] ++ appendInt d 2 ++ [' ']
    ++ appendInt h 2 ++ [':'] ++ appendInt mi 2 ++ [':'] ++ appendInt s 2

/-- The nanoseconds that the text after the seconds denotes: nothing is 0, and of a
fraction (`.` or `,` and digits) the first nine digits count, as a number of nine
digits. -/
def fractionNanos (F : List Char) : Int :=
  match F with
  | [] => 0
  | _ :: ds => numeral (ds.take 9) * 10 ^ (9 - (ds.take 9).length)

/-- The text made of the characters of a year, a month, a day, `k + 1` spaces, an
hour `H`, a minute, a second and a rest `F`, with the separators of the layout. -/
def textLayout (y1 y2 y3 y4 m1 m2 d1 d2 : Char) (k : Nat) (H : List Char)
    (i1 i2 s1 s2 : Char) (F : List Char) : List Char :=
  y1 :: y2 :: y3 :: y4 :: '-' :: m1 :: m2 :: '-' :: d1 :: d2 :: ' ' ::
    (List.replicate k ' ' ++ (H ++ ':' :: i1 :: i2 :: ':' :: s1 :: s2 :: F))

/-- The conditions of `acceptedText` on the characters of a text: digits, an hour
of one or two digits, nothing or a fraction at the end, and fields within their
ranges, the day within its month. -/
def acceptedParts (y1 y2 y3 y4 m1 m2 d1 d2 : Char) (H : List Char)
    (i1 i2 s1 s2 : Char) (F : List Char) : Prop :=
  (isDig y1 ∧ isDig y2 ∧ isDig y3 ∧ isDig y4) ∧ (isDig m1 ∧ isDig m2)
    ∧ (isDig d1 ∧ isDig d2) ∧ (isDig i1 ∧ isDig i2) ∧ (isDig s1 ∧ isDig s2)
    ∧ ((∃ h1, H = [h1] ∧ isDig h1) ∨ (∃ h1 h2, H = [h1, h2] ∧ isDig h1 ∧ isDig h2))
    ∧ (F = [] ∨ ∃ c ds, F = c :: ds ∧ (c = '.' ∨ c = ',') ∧ ds ≠ [] ∧ ∀ x ∈ ds, isDig x)
    ∧ (1 ≤ numeral [m1, m2] ∧ numeral [m1, m2] ≤ 12)
    ∧ (1 ≤ numeral [d1, d2]
        ∧ numeral [d1, d2] ≤ daysIn (numeral [m1, m2]) (numeral [y1, y2, y3, y4]))
    ∧ numeral H ≤ 23 ∧ numeral [i1, i2] ≤ 59 ∧ numeral [s1, s2] ≤ 59

/-! ## Zones with transitions, clock readings, and the range of the counters -/

/-- The offset of `l` in effect at Unix second `u`. -/
def Location.offsetAt (l : Location) (u : Int) : Int := (l.lookup u).1

/-- The transitions of a zone table are at least four days apart. -/
def spaced : List (Int × Int) → Bool
  | a :: b :: rest => decide (a.1 + 345600 ≤ b.1) && spaced (b :: rest)
  | _ => true

/-- A zone table is regular when its offsets are at most 24 hours and its
transitions are at least four days apart. -/
def Location.regular (l : Location) : Prop :=
  (-86400 ≤ l.offset ∧ l.offset ≤ 86400)
  ∧ (∀ x ∈ l.tx, -86400 ≤ x.2 ∧ x.2 ≤ 86400)
  ∧ spaced l.tx = true

instance (l : Location) : Decidable l.regular :=
  inferInstanceAs (Decidable ((-86400 ≤ l.offset ∧ l.offset ≤ 86400)
    ∧ (∀ x ∈ l.tx, -86400 ≤ x.2 ∧ x.2 ≤ 86400)
    ∧ spaced l.tx = true))

/-- The seconds of a clock reading: the Unix second at which the clocks of UTC
show the date and time of day. -/
def wallSec (y m d h mi s : Int) : Int :=
  civilDays y m d * 86400 + (h * 3600 + mi * 60 + s) - unixToInternal

/-- At the Unix second `u`, an `int64`, the clocks of `l` show the reading `W`. -/
def Location.showsAt (l : Location) (u W : Int) : Prop :=
  -(2 ^ 63) ≤ u ∧ u < 2 ^ 63 ∧ u + l.offsetAt u = W

instance (l : Location) (u W : Int) : Decidable (l.showsAt u W) :=
  inferInstanceAs (Decidable (-(2 ^ 63) ≤ u ∧ u < 2 ^ 63 ∧ u + l.offsetAt u = W))

/-- The clocks of `l` show the reading `W` at some instant: `W` is not skipped by
a transition of `l`. -/
def Location.shows (l : Location) (W : Int) : Prop := ∃ u, l.showsAt u W

/-- The clocks of `l` show the reading `W` at exactly one instant: `W` is neither
skipped nor repeated by a transition of `l`. -/
def Location.showsOnce (l : Location) (W : Int) : Prop :=
  ∃ u, l.showsAt u W ∧ ∀ v, l.showsAt v W → v = u

/-- The second half of Go `time.Date`, from the seconds of the clock reading to the
Unix seconds: the offset in effect at `unix`, or the offset in effect at `utc`
when `utc` is outside the period of the first. -/
def zoneShift (l : Location) (unix : Int) : Int :=
  let z := l.lookup unix
  if z.1 ≠ 0 then
    let utc := wrap64 (unix - z.1)
    wrap64 (unix - (if utc < z.2.1 ∨ utc ≥ z.2.2 then (l.lookup utc).1 else z.1))
  else unix

/-- The first year all of whose seconds the counters of the `time` package hold:
the year after the absolute zero year. -/
def minYear : Int := -292277022398

/-- The last year all of whose seconds the counters of the `time` package hold:
the `int64` counter of seconds from year 1 ends in December of the year after. -/
def maxYear : Int := 292277024626

/-! ## Sample locations, worlds and instants -/

/-- A zone with one daylight-saving transition, as America/Asuncion had on
1 October 2017: UTC-4 until 2017-10-01 04:00:00 UTC, UTC-3 from then on, so that
the local clocks go from 2017-09-30 23:59:59 to 2017-10-01 01:00:00. -/
def zoneDST : Location := ⟨-14400, [(1506830400, -10800)]⟩

/-- The world in which `SetLocation(zoneDST)` was called on a host in UTC. -/
def worldDST : World := ⟨some zoneDST, UTC, 0, 0⟩

/-- The world of a host in UTC in which `SetLocation` was never called. -/
def worldUTC : World := ⟨none, UTC, 0, 0⟩

/-- The world in which `SetLocation(time.UTC)` was called on a host whose
`time.Local` is the fixed zone UTC+8. -/
def worldHostPlus8 : World := ⟨some UTC, FixedZone 28800, 0, 0⟩

/-- 2017-09-15 12:00:00 in `zoneDST`. -/
def tSep2017 : Time := ⟨1505491200, 0, zoneDST⟩

/-- 2017-10-01 12:00:00 in `zoneDST`. -/
def tOctFirst2017 : Time := ⟨1506870000, 0, zoneDST⟩

/-- 2016-01-15 12:00:00 UTC. -/
def tJan2016 : Time := ⟨1452859200, 0, UTC⟩

/-- 2020-02-18 04:26:40 UTC, in a leap-year February. -/
def tFeb2020 : Time := ⟨1582000000, 0, UTC⟩

/-- 1970-01-01 23:59:59.5 UTC. -/
def tHalfSecond : Time := ⟨86399, 500000000, UTC⟩

/-- 2020-01-02 00:30:00 in the fixed zone UTC+1, which is 2020-01-01 23:30:00 UTC. -/
def tPlus1 : Time := ⟨1577921400, 0, FixedZone 3600⟩

/-- 2020-01-05 12:00:00 UTC, a Sunday. -/
def tSunday : Time := ⟨1578225600, 0, UTC⟩

/-- Central European time in 2020, as Europe/Berlin had it: UTC+1 until
2020-03-29 01:00:00 UTC, UTC+2 until 2020-10-25 01:00:00 UTC, UTC+1 from then on;
25 October 2020 has 25 hours there. -/
def zoneBerlin : Location := ⟨3600, [(1585443600, 7200), (1603587600, 3600)]⟩

/-- The world of a host in `zoneBerlin` in which `SetLocation` was never called. -/
def worldBerlin : World := ⟨none, zoneBerlin, 0, 0⟩

/-- 2020-10-15 12:00:00 in `zoneBerlin`. -/
def tOct2020 : Time := ⟨1602756000, 0, zoneBerlin⟩

/-- 2020-10-25 00:30:00 in `zoneBerlin`, on the day of 25 hours. -/
def tOct25 : Time := ⟨1603578600, 0, zoneBerlin⟩

/-- A zone whose clocks are set back over midnight, as Asia/Amman had it on
29 October 2021: UTC+3 until 2021-10-28 22:00:00 UTC, UTC+2 from then on, so that
the local clocks go from 00:59:59 of 29 October back to 00:00:00. -/
def zoneAmman : Location := ⟨10800, [(1635458400, 7200)]⟩

/-- The world in which `SetLocation(zoneAmman)` was called on a host in UTC. -/
def worldAmman : World := ⟨some zoneAmman, UTC, 0, 0⟩

/-- 2021-10-29 00:30:00 in `zoneAmman`, before the clocks are set back. -/
def tAmman : Time := ⟨1635456600, 0, zoneAmman⟩

/-- Go `time.Unix(math.MaxInt64, 0).In(time.UTC)`. -/
def tMaxUnix : Time := ⟨2 ^ 63 - 1, 0, UTC⟩

/-- Go `time.Unix(math.MaxInt64 - 62135596800, 0).In(time.UTC)`, the instant whose
counter `ext` is the largest `int64`. -/
def tMaxExt : Time := ⟨2 ^ 63 - 1 - 62135596800, 0, UTC⟩

/-! ## Further definitions: pointers, run-time checks -/

/-- Go `GetLocation` at the level of pointers: `none` is the nil pointer, and
`time.Local` is the address of the host's local zone, which is not nil. -/
def GetLocationPtr (w : World) : Option Location :=
  match w.pkgLocal with
  | some l => some l
  | none => some w.timeLocal

/-- The world at the start of a process: the package variable `local` is nil. -/
def startWorld (timeLocal : Location) (clockSec : Int) (clockNsec : Fin 1000000000) : World :=
  ⟨none, timeLocal, clockSec, clockNsec⟩

/-- A sequence of calls of `SetLocation`, a nil argument being `none`. -/
def setLocations (w : World) (calls : List (Option Location)) : World :=
  calls.foldl SetLocation w

/-- 2017-09-30 23:30:00 in `zoneDST`, a Saturday, half an hour before the clocks
of the zone jump. -/
def tSepLast2017 : Time := ⟨1506828600, 0, zoneDST⟩

/-- 2020-02-28 22:00:00 UTC, a Friday. -/
def tFeb28 : Time := ⟨1582927200, 0, UTC⟩

/-- Go `s[i:j]` with its bounds check: `none` is the run-time panic "slice bounds
out of range". -/
def sliceChecked (s : List Char) (i j : Nat) : Option (List Char) :=
  if i ≤ j ∧ j ≤ s.length then some (slice s i j) else none

/-- The characters with a special meaning in Go's regular expressions; the first
is the backslash. -/
def regexpMeta : List Char :=
  [Char.ofNat 92, '.', '+', '*', '?', '(', ')', '|', '[', ']', '{', '}', '^', '$']

/-- Go `regexp.Compile` on the expressions of the shape `c+`, with `c` an ordinary
character: the compiled expression is given by `c`. `none` is the nil `*Regexp`
that `re, _ := regexp.Compile(k)` leaves in `re` when the expression does not
compile; expressions of another shape are not part of this development and are
given as `none` too. -/
def regexpCompile (expr : List Char) : Option Char :=
  match expr with
  | [c, '+'] => if c ∈ regexpMeta then none else some c
  | _ => none

/-- The map `o` of Go `Format` with the bounds check of every slice. -/
def formatTableChecked (timeStr : List Char) : Option (List (Char × List Char)) :=
  (sliceChecked timeStr 0 4).bind fun vY =>
  (sliceChecked timeStr 2 4).bind fun vy =>
  (sliceChecked timeStr 5 7).bind fun vm =>
  (sliceChecked timeStr 8 10).bind fun vd =>
  (sliceChecked timeStr 11 13).bind fun vH =>
  (sliceChecked timeStr 14 16).bind fun vi =>
  (sliceChecked timeStr 17 19).bind fun vs =>
  some [('Y', vY), ('y', vy), ('m', vm), ('d', vd), ('H', vH), ('i', vi), ('s', vs)]

/-- Go `Format` with its run-time checks: `none` when a slice of `t.String()` is
out of bounds, or when `ReplaceAllString` is called on the nil `*Regexp` of an
expression that did not compile. -/
def FormatChecked (tf : TimeFormat) (order : List Char) (t : Time) (fmtStr : List Char) :
    Option (List Char) :=
  if !matchTokens fmtStr then some (tf.format t fmtStr)
  else
    (formatTableChecked t.String).bind fun o =>
      order.foldlM
        (fun fmtStr k =>
          match o.lookup k with
          | some v => (regexpCompile [k, '+']).map fun c => ReplaceAllString c fmtStr v
          | none => some fmtStr)
        fmtStr

/-- Go `time.Date` with its check of the Location pointer: `none` is the panic
"time: missing Location in call to Date". -/
def DateChecked (year month day hour min sec nsec : Int) (loc : Option Location) :
    Option Time :=
  loc.map (Date year month day hour min sec nsec)

/-! ## Calendar lemmas -/

theorem norm_neg_aux (lo base : Int) (hb : 0 < base) :
    (-lo - 1) / base + 1 = -(lo / base) := by
  have h1 := Int.emod_add_ediv lo base
  have h2 := Int.emod_nonneg lo hb.ne'
  have h3 := Int.emod_lt_of_pos lo hb
  have key : (-lo - 1) / base = -(lo / base) - 1 := by
    have e : -lo - 1 = (base - 1 - lo % base) + base * (-(lo / base) - 1) := by
      have : base * (-(lo / base) - 1) = -(base * (lo / base)) - base := by ring
      rw [this]; omega
    rw [e, Int.add_mul_ediv_left _ _ hb.ne', Int.ediv_eq_zero_of_lt (by omega) (by omega)]
    simp
  omega

theorem norm_eq (hi lo base : Int) (hb : 0 < base) :
    norm hi lo base = (hi + lo / base, lo % base) := by
  have h1 := Int.emod_add_ediv lo base
  have h2 := Int.emod_nonneg lo hb.ne'
  have h3 := Int.emod_lt_of_pos lo hb
  have hm : lo / base * base = base * (lo / base) := by ring
  unfold norm
  by_cases hlo : lo < 0
  · have hn := norm_neg_aux lo base hb
    have e1 : lo + -(lo / base) * base = lo % base := by
      have : -(lo / base) * base = -(base * (lo / base)) := by ring
      rw [this]; omega
    simp only [hlo, if_true, hn, e1]
    rw [if_neg (by omega)]
    congr 1
    omega
  · simp only [hlo, if_false]
    by_cases hge : lo ≥ base
    · simp only [hge, if_true]
      congr 1
      omega
    · simp only [hge, if_false]
      have h0 : lo / base = 0 := Int.ediv_eq_zero_of_lt (by omega) (by omega)
      have h5 : lo % base = lo := Int.emod_eq_of_lt (by omega) (by omega)
      rw [h0, h5]; simp

theorem isLeap_iff (year : Int) :
    isLeap year = true ↔ (year % 4 = 0 ∧ (year % 100 ≠ 0 ∨ year % 400 = 0)) := by
  simp [isLeap]

theorem daysSinceEpoch_eq (year : Int) :
    daysSinceEpoch year
      = 365 * (year - 1) + (year - 1) / 4 - (year - 1) / 100 + (year - 1) / 400 := by
  simp only [daysSinceEpoch]
  omega

theorem daysSinceEpoch_succ (year : Int) :
    daysSinceEpoch (year + 1) = daysSinceEpoch year + yearLen year := by
  have hl := isLeap_iff year
  rw [daysSinceEpoch_eq, daysSinceEpoch_eq, yearLen]
  split_ifs with h
  · rw [hl] at h; omega
  · rw [hl] at h; omega

theorem daysSinceEpoch_mono_aux (y : Int) (k : Nat) :
    daysSinceEpoch y + 365 * k ≤ daysSinceEpoch (y + k) := by
  induction k with
  | zero => simp
  | succ n ih =>
    have h := daysSinceEpoch_succ (y + n)
    have hy : 365 ≤ yearLen (y + n) := by unfold yearLen; split_ifs <;> omega
    have e : y + ((n + 1 : Nat) : Int) = y + n + 1 := by push_cast; ring
    rw [e, h]
    push_cast
    omega

theorem daysSinceEpoch_lt (y y' : Int) (h : y < y') :
    daysSinceEpoch y + yearLen y ≤ daysSinceEpoch y' := by
  obtain ⟨k, hk⟩ : ∃ k : Nat, y' = y + 1 + k := ⟨(y' - y - 1).toNat, by omega⟩
  have := daysSinceEpoch_mono_aux (y + 1) k
  rw [hk, ← daysSinceEpoch_succ]
  omega

theorem absYear_split (days : Int) : ∃ a b c e r : Int,
    0 ≤ b ∧ b ≤ 3 ∧ 0 ≤ c ∧ c ≤ 24 ∧ 0 ≤ e ∧ e ≤ 3 ∧ 0 ≤ r ∧
    days = 146097 * a + 36524 * b + 1461 * c + 365 * e + r ∧
    (r < 365 ∨ (r = 365 ∧ e = 3 ∧ (c < 24 ∨ b = 3))) ∧
    absYear days = (400 * a + 100 * b + 4 * c + e + 1, r) := by
  obtain ⟨a, ha⟩ : ∃ a, a = days / 146097 := ⟨_, rfl⟩
  obtain ⟨r1, hr1⟩ : ∃ r1, r1 = days - 146097 * a := ⟨_, rfl⟩
  have g1 : 0 ≤ r1 ∧ r1 < 146097 := by omega
  obtain ⟨b0, hb0⟩ : ∃ b0, b0 = r1 / 36524 := ⟨_, rfl⟩
  obtain ⟨b, hb⟩ : ∃ b, b = b0 - b0 / 4 := ⟨_, rfl⟩
  have h1 : 0 ≤ b0 ∧ b0 ≤ 4 := by omega
  have h2 : 0 ≤ b ∧ b ≤ 3 := by omega
  obtain ⟨r2, hr2⟩ : ∃ r2, r2 = r1 - 36524 * b := ⟨_, rfl⟩
  have g2 : 0 ≤ r2 ∧ r2 ≤ 36524 ∧ (r2 = 36524 → b = 3) := by omega
  obtain ⟨c, hc⟩ : ∃ c, c = r2 / 1461 := ⟨_, rfl⟩
  have h3 : 0 ≤ c ∧ c ≤ 24 := by omega
  obtain ⟨r3, hr3⟩ : ∃ r3, r3 = r2 - 1461 * c := ⟨_, rfl⟩
  have g3 : 0 ≤ r3 ∧ r3 ≤ 1460 ∧ (c = 24 → r3 = 1460 → b = 3) := by omega
  obtain ⟨e0, he0⟩ : ∃ e0, e0 = r3 / 365 := ⟨_, rfl⟩
  obtain ⟨e, he⟩ : ∃ e, e = e0 - e0 / 4 := ⟨_, rfl⟩
  have h4 : 0 ≤ e0 ∧ e0 ≤ 4 := by omega
  have h5 : 0 ≤ e ∧ e ≤ 3 := by omega
  obtain ⟨r4, hr4⟩ : ∃ r4, r4 = r3 - 365 * e := ⟨_, rfl⟩
  have g4 : 0 ≤ r4 ∧ (r4 < 365 ∨ (r4 = 365 ∧ e = 3 ∧ r3 = 1460)) := by omega
  refine ⟨a, b, c, e, r4, h2.1, h2.2, h3.1, h3.2, h5.1, h5.2, g4.1, ?_, ?_, ?_⟩
  · omega
  · omega
  · simp only [absYear]
    rw [← ha, ← hr1, ← hb0, ← hb, ← hr2, ← hc, ← hr3, ← he0, ← he, ← hr4]

theorem year_split (a b c e : Int) (hb : 0 ≤ b ∧ b ≤ 3) (hc : 0 ≤ c ∧ c ≤ 24)
    (he : 0 ≤ e ∧ e ≤ 3) (y : Int) (hy : y = 400 * a + 100 * b + 4 * c + e) :
    y / 400 = a ∧ (y - 400 * a) / 100 = b ∧ (y - 400 * a - 100 * b) / 4 = c
    ∧ ((y + 1) % 4 = 0 ↔ e = 3) ∧ ((y + 1) % 100 = 0 ↔ (e = 3 ∧ c = 24))
    ∧ ((y + 1) % 400 = 0 ↔ (e = 3 ∧ c = 24 ∧ b = 3)) := by
  subst hy
  omega

/-- The year part of `absDate` inverts `daysSinceEpoch`: the day count is the
start of the year found plus the day of the year, which lies within that year. -/
theorem absYear_spec (days : Int) :
    daysSinceEpoch (absYear days).1 + (absYear days).2 = days
    ∧ 0 ≤ (absYear days).2 ∧ (absYear days).2 < yearLen (absYear days).1 := by
  obtain ⟨a, b, c, e, r, hb0, hb1, hc0, hc1, he0, he1, hr0, hd, hr, habs⟩ := absYear_split days
  rw [habs]
  have hs := year_split a b c e ⟨hb0, hb1⟩ ⟨hc0, hc1⟩ ⟨he0, he1⟩ _ rfl
  obtain ⟨s1, s2, s3, s4, s5, s6⟩ := hs
  have hl := isLeap_iff (400 * a + 100 * b + 4 * c + e + 1)
  refine ⟨?_, hr0, ?_⟩
  · simp only [daysSinceEpoch]
    have e1 : 400 * a + 100 * b + 4 * c + e + 1 - 1 = 400 * a + 100 * b + 4 * c + e := by ring
    rw [e1, s1, s2, s3]
    omega
  · simp only [yearLen]
    split_ifs with h
    · omega
    · rw [hl] at h
      omega

/-- The year of a day count is determined by the year interval it lies in. -/
theorem absYear_unique (y yd : Int) (h0 : 0 ≤ yd) (h1 : yd < yearLen y) :
    absYear (daysSinceEpoch y + yd) = (y, yd) := by
  obtain ⟨s1, s2, s3⟩ := absYear_spec (daysSinceEpoch y + yd)
  have hy : (absYear (daysSinceEpoch y + yd)).1 = y := by
    rcases lt_trichotomy (absYear (daysSinceEpoch y + yd)).1 y with h | h | h
    · have := daysSinceEpoch_lt _ _ h; omega
    · exact h
    · have := daysSinceEpoch_lt _ _ h; omega
  rw [hy] at s1
  exact Prod.ext hy (by simp only; omega)

/-- The table `daysBefore` in closed form, on its index range. -/
theorem daysBefore_formula (m : Int) (h0 : 0 ≤ m) (h1 : m ≤ 12) :
    daysBefore m = (367 * (m + 1) - 362) / 12 - 2 * ((m + 10) / 12) := by
  interval_cases m <;> rfl

theorem monthDayOf_spec (day : Int) (h0 : 0 ≤ day) (h1 : day < 365) :
    ∃ m, 1 ≤ m ∧ m ≤ 12 ∧ daysBefore (m - 1) ≤ day ∧ day < daysBefore m ∧
      monthDayOf day = (m, day - daysBefore (m - 1) + 1) := by
  unfold monthDayOf
  obtain ⟨q, hq⟩ : ∃ q, q = day / 31 := ⟨_, rfl⟩
  have hb : 0 ≤ q ∧ q ≤ 11 := by omega
  simp only [← hq]
  obtain ⟨hb0, hb1⟩ := hb
  have e2 : q + 2 - 1 = q + 1 := by ring
  have e1 : q + 1 - 1 = q := by ring
  have f0 := daysBefore_formula q hb0 (by omega)
  have f1 := daysBefore_formula (q + 1) (by omega) (by omega)
  by_cases hc : day ≥ daysBefore (q + 1)
  · refine ⟨q + 2, ?_, ?_, ?_, ?_, ?_⟩
    · omega
    · omega
    · rw [e2]; exact hc
    · have hq11 : q + 2 ≤ 12 := by omega
      have f2 := daysBefore_formula (q + 2) (by omega) hq11
      omega
    · rw [if_pos hc, e2]
  · refine ⟨q + 1, ?_, ?_, ?_, ?_, ?_⟩
    · omega
    · omega
    · rw [e1]; omega
    · simpa using hc
    · rw [if_neg hc, e1]

theorem daysBefore_le (a b : Int) (h0 : 0 ≤ a) (hab : a ≤ b) (hb : b ≤ 12) :
    daysBefore a ≤ daysBefore b := by
  have ha : a ≤ 12 := by omega
  interval_cases a <;> interval_cases b <;> decide

theorem daysBefore_month_unique (m m' day : Int) (hm : 1 ≤ m ∧ m ≤ 12) (hm' : 1 ≤ m' ∧ m' ≤ 12)
    (h1 : daysBefore (m - 1) ≤ day) (h2 : day < daysBefore m)
    (h1' : daysBefore (m' - 1) ≤ day) (h2' : day < daysBefore m') : m = m' := by
  rcases lt_trichotomy m m' with h | h | h
  · have := daysBefore_le m (m' - 1) (by omega) (by omega) (by omega); omega
  · exact h
  · have := daysBefore_le m' (m - 1) (by omega) (by omega) (by omega); omega

theorem daysBefore_vals :
    daysBefore 0 = 0 ∧ daysBefore 1 = 31 ∧ daysBefore 2 = 59 ∧ daysBefore 12 = 365 := by
  decide

theorem monthDayOf_unique (m d : Int) (h1 : 1 ≤ m) (h2 : m ≤ 12) (h3 : 1 ≤ d)
    (h4 : d ≤ daysBefore m - daysBefore (m - 1)) :
    monthDayOf (daysBefore (m - 1) + d - 1) = (m, d) := by
  have m0 := daysBefore_le 0 (m - 1) (by omega) (by omega) (by omega)
  have m12 := daysBefore_le m 12 (by omega) (by omega) (by omega)
  obtain ⟨v0, v1, v2, v12⟩ := daysBefore_vals
  obtain ⟨m', a1, a2, a3, a4, a5⟩ :=
    monthDayOf_spec (daysBefore (m - 1) + d - 1) (by omega) (by omega)
  have hm : m' = m :=
    daysBefore_month_unique m' m _ ⟨a1, a2⟩ ⟨h1, h2⟩ a3 a4 (by omega) (by omega)
  rw [a5, hm]
  congr 1
  omega

theorem absMonthDay_unique (y m d : Int) (h : validDate y m d) :
    absMonthDay y (ydayOf y m d) = (m, d) := by
  obtain ⟨h1, h2, h3, h4⟩ := h
  obtain ⟨v0, v1, v2, v12⟩ := daysBefore_vals
  have m0 := daysBefore_le 0 (m - 1) (by omega) (by omega) (by omega)
  unfold absMonthDay ydayOf
  unfold daysIn at h4
  cases hl : isLeap y
  · simp only [hl, Bool.false_eq_true, false_and, and_false, if_false] at h4 ⊢
    have := monthDayOf_unique m d h1 h2 h3 h4
    have e : daysBefore (m - 1) + 0 + (d - 1) = daysBefore (m - 1) + d - 1 := by ring
    rw [e]; exact this
  · simp only [hl, true_and, and_true] at h4 ⊢
    by_cases hm3 : m ≥ 3
    · have m2 := daysBefore_le 2 (m - 1) (by omega) (by omega) (by omega)
      rw [if_neg (by omega)] at h4
      have e : daysBefore (m - 1) + (if m ≥ 3 then 1 else 0) + (d - 1)
          = daysBefore (m - 1) + d := by rw [if_pos hm3]; ring
      rw [e, if_neg (by omega), if_pos (by omega)]
      exact monthDayOf_unique m d h1 h2 h3 h4
    · have e : daysBefore (m - 1) + (if m ≥ 3 then 1 else 0) + (d - 1)
          = daysBefore (m - 1) + d - 1 := by rw [if_neg hm3]; ring
      rw [e]
      by_cases hm2 : m = 2
      · subst hm2
        rw [if_pos rfl] at h4
        have e1 : daysBefore (2 - 1) = 31 := v1
        by_cases hd : d = 29
        · subst hd
          rw [if_pos (by rw [e1])]
        · rw [if_neg (by rw [e1]; omega), if_neg (by rw [e1]; omega)]
          exact monthDayOf_unique 2 d h1 h2 h3 (by rw [e1, v2]; omega)
      · have hm1 : m = 1 := by omega
        subst hm1
        rw [if_neg (by omega)] at h4
        have e1 : daysBefore (1 - 1) = 0 := v0
        rw [if_neg (by rw [e1]; omega), if_neg (by rw [e1]; omega)]
        exact monthDayOf_unique 1 d h1 h2 h3 h4

/-- Reading back the civil date of the day count of a valid date gives the date. -/
theorem absDate_civilDays (y m d : Int) (h : validDate y m d) :
    absDate (civilDays y m d) = ⟨y, m, d, ydayOf y m d⟩ := by
  have hb : 0 ≤ ydayOf y m d ∧ ydayOf y m d < yearLen y := by
    obtain ⟨h1, h2, h3, h4⟩ := h
    have m0 := daysBefore_le 0 (m - 1) (by omega) (by omega) (by omega)
    have m12 := daysBefore_le m 12 (by omega) (by omega) (by omega)
    obtain ⟨v0, v1, v2, v12⟩ := daysBefore_vals
    unfold daysIn at h4
    unfold ydayOf yearLen
    cases hl : isLeap y
    · simp only [hl, Bool.false_eq_true, false_and, and_false, if_false] at h4 ⊢
      omega
    · simp only [hl, true_and, and_true, if_true] at h4 ⊢
      by_cases hm3 : m ≥ 3
      · rw [if_neg (by omega)] at h4
        rw [if_pos hm3]; omega
      · have m1 := daysBefore_le (m - 1) 1 (by omega) (by omega) (by omega)
        rw [if_neg hm3]
        split_ifs at h4 <;> omega
  have e : civilDays y m d = daysSinceEpoch y + ydayOf y m d := by
    unfold civilDays ydayOf; ring
  unfold absDate
  rw [e, absYear_unique y _ hb.1 hb.2]
  simp only [absMonthDay_unique y m d h]

theorem absMonthDay_spec (y yd : Int) (h0 : 0 ≤ yd) (h1 : yd < yearLen y) :
    validDate y (absMonthDay y yd).1 (absMonthDay y yd).2
    ∧ ydayOf y (absMonthDay y yd).1 (absMonthDay y yd).2 = yd := by
  obtain ⟨v0, v1, v2, v12⟩ := daysBefore_vals
  have v1' : daysBefore (2 - 1) = 31 := v1
  unfold absMonthDay validDate ydayOf daysIn
  unfold yearLen at h1
  by_cases hleap : isLeap y = true ∧ yd = 31 + 29 - 1
  · rw [if_pos hleap]
    obtain ⟨hl, hy⟩ := hleap
    simp only [hl, v1', v2, and_true, if_true]
    omega
  · rw [if_neg hleap]
    obtain ⟨day, hday⟩ : ∃ day, day = (if isLeap y = true ∧ yd > 31 + 29 - 1 then yd - 1 else yd) :=
      ⟨_, rfl⟩
    rw [← hday]
    have hd : 0 ≤ day ∧ day < 365 := by
      rw [hday]
      cases hl : isLeap y <;> simp only [hl, if_true, Bool.false_eq_true, if_false, true_and,
        false_and] at h1 hleap ⊢
      · omega
      · split_ifs <;> omega
    obtain ⟨m, a1, a2, a3, a4, a5⟩ := monthDayOf_spec day hd.1 hd.2
    rw [a5]
    simp only
    have hm2 : (2 ≤ m - 1 ↔ 59 ≤ day) := by
      constructor
      · intro h
        have := daysBefore_le 2 (m - 1) (by omega) h (by omega)
        omega
      · intro h
        by_contra hc
        have := daysBefore_le m 2 (by omega) (by omega) (by omega)
        omega
    cases hl : isLeap y <;> simp only [hl, if_true, Bool.false_eq_true, if_false, true_and,
        false_and, and_true, and_false] at h1 hleap hday ⊢
    · subst hday
      omega
    · by_cases hgt : yd > 31 + 29 - 1
      · rw [if_pos hgt] at hday
        have hm3 : m ≥ 3 := by omega
        rw [if_neg (by omega), if_pos hm3]
        omega
      · rw [if_neg hgt] at hday
        have hm3 : ¬ m ≥ 3 := by omega
        rw [if_neg hm3]
        refine ⟨⟨a1, a2, by omega, ?_⟩, by omega⟩
        split_ifs with hm
        · subst hm; rw [v1']; omega
        · omega

/-- The day count of the civil date of a day count is that day count, and the
civil date is a valid one. -/
theorem civilDays_absDate (n : Int) :
    validDate (absDate n).year (absDate n).month (absDate n).day
    ∧ civilDays (absDate n).year (absDate n).month (absDate n).day = n := by
  obtain ⟨s1, s2, s3⟩ := absYear_spec n
  obtain ⟨t1, t2⟩ := absMonthDay_spec _ _ s2 s3
  unfold absDate
  simp only
  refine ⟨t1, ?_⟩
  have e : ∀ y m d, civilDays y m d = daysSinceEpoch y + ydayOf y m d := by
    intro y m d; unfold civilDays ydayOf; ring
  rw [e, t2, s1]

/-! ## Lemmas on the calendar accessors -/

theorem lookup_fixed (l : Location) (h : l.tx = []) (s : Int) :
    l.lookup s = (l.offset, alpha, omega) := by
  unfold Location.lookup
  rw [h]
  rfl

theorem civilDays_add (y m d k : Int) : civilDays y m (d + k) = civilDays y m d + k := by
  unfold civilDays; ring

theorem mkNsec_zero : mkNsec 0 = 0 := by decide

/-- The calendar fields of an instant whose wall clock reading is known. -/
theorem fields_of_abs (t : Time) (y m d tod : Int) (hv : validDate y m d)
    (h0 : 0 ≤ tod) (h1 : tod < 86400) (ha : t.abs = civilDays y m d * 86400 + tod) :
    t.Year = y ∧ t.Month = m ∧ t.Day = d ∧ t.Hour = tod / 3600
      ∧ t.Minute = tod % 3600 / 60 ∧ t.Second = tod % 60 := by
  have hd : t.abs / 86400 = civilDays y m d := by omega
  have hdate : t.date = ⟨y, m, d, ydayOf y m d⟩ := by
    unfold Time.date
    rw [hd, absDate_civilDays y m d hv]
  unfold Time.Year Time.Month Time.Day Time.Hour Time.Minute Time.Second
  rw [hdate]
  refine ⟨rfl, rfl, rfl, ?_, ?_, ?_⟩ <;> omega

/-- The civil date that an instant shows is a valid date, and its day count is
the day count of the instant's wall clock reading. -/
theorem date_valid (t : Time) :
    validDate t.Year t.Month t.Day ∧ civilDays t.Year t.Month t.Day = t.abs / 86400 :=
  civilDays_absDate (t.abs / 86400)

theorem daysIn_bounds (y m : Int) (h1 : 1 ≤ m) (h2 : m ≤ 12) :
    28 ≤ daysIn m y ∧ daysIn m y ≤ 31 := by
  unfold daysIn
  split_ifs
  · omega
  · interval_cases m <;> decide

/-- The first day of a month plus the length of the month is the first day of the
following month, December carrying into the next year. -/
theorem civilDays_next_month (y m : Int) (h1 : 1 ≤ m) (h2 : m ≤ 12) :
    civilDays y m 1 + daysIn m y = civilDays (y + m / 12) (m % 12 + 1) 1 := by
  obtain ⟨v0, v1, v2, v12⟩ := daysBefore_vals
  by_cases h12 : m = 12
  · subst h12
    have e1 : y + 12 / 12 = y + 1 := by norm_num
    have e2 : (12 : Int) % 12 + 1 = 1 := by norm_num
    have e3 : daysIn 12 y = 31 := by
      unfold daysIn
      rw [if_neg (by omega)]
      decide
    have e4 : daysBefore (12 - 1) = 334 := by decide
    have e5 : daysBefore (1 - 1) = 0 := v0
    rw [e1, e2, e3]
    unfold civilDays
    rw [daysSinceEpoch_succ, e4, e5]
    unfold yearLen
    cases hl : isLeap y <;> norm_num [hl] <;> ring
  · have e1 : y + m / 12 = y := by omega
    have e2 : m % 12 + 1 = m + 1 := by omega
    have e3 : m + 1 - 1 = m := by ring
    rw [e1, e2]
    unfold civilDays daysIn
    rw [e3]
    cases hl : isLeap y
    · simp only [Bool.false_eq_true, false_and, and_false, if_false]
      ring
    · simp only [true_and, and_true]
      by_cases hm2 : m = 2
      · subst hm2
        have e6 : daysBefore (2 - 1) = 31 := v1
        rw [e6, v2]
        norm_num
        ring
      · rw [if_neg hm2]
        by_cases hm3 : m ≥ 3
        · rw [if_pos hm3, if_pos (by omega)]; ring
        · rw [if_neg hm3, if_neg (by omega)]; ring

/-! ## C4: the boundaries of the week -/

set_option maxRecDepth 100000 in
/-- C4, the code at a Sunday. For 2020-01-05 12:00:00 UTC, a Sunday (weekday 0),
`StartOfWeek` is 2020-01-06 00:00:00, the Monday after it, so that `StartOfWeek(t)
≤ t` fails and the week that the two boundaries delimit, 6 to 12 January, does
not contain `t`. -/
theorem StartOfWeek_sunday :
    tSunday.Weekday = 0
    ∧ (tSunday.Year, tSunday.Month, tSunday.Day) = (2020, 1, 5)
    ∧ ((StartOfWeek worldUTC [tSunday]).Year, (StartOfWeek worldUTC [tSunday]).Month,
        (StartOfWeek worldUTC [tSunday]).Day) = (2020, 1, 6)
    ∧ (StartOfWeek worldUTC [tSunday]).Weekday = 1
    ∧ ¬ (StartOfWeek worldUTC [tSunday]).le tSunday
    ∧ ((EndOfWeek worldUTC [tSunday]).Year, (EndOfWeek worldUTC [tSunday]).Month,
        (EndOfWeek worldUTC [tSunday]).Day) = (2020, 1, 12) := by
  decide

/-! ## Lemmas on the substitution of `Format` -/

theorem substRuns_cons_none (f : Char → Option (List Char)) (prev : Option Char) (x : Char)
    (xs : List Char) (h : f x = none) :
    substRuns f prev (x :: xs) = x :: substRuns f none xs := by
  simp only [substRuns, h]

theorem substRuns_cons_some (f : Char → Option (List Char)) (prev : Option Char) (x : Char)
    (xs v : List Char) (h : f x = some v) :
    substRuns f prev (x :: xs)
      = (if prev = some x then [] else v) ++ substRuns f (some x) xs := by
  simp only [substRuns, h]

theorem replaceRuns_cons_eq (k : Char) (v : List Char) (inRun : Bool) (xs : List Char) :
    replaceRuns k v inRun (k :: xs)
      = (if inRun = true then [] else v) ++ replaceRuns k v true xs := by
  simp only [replaceRuns, if_true]

theorem replaceRuns_cons_ne (k : Char) (v : List Char) (inRun : Bool) (x : Char)
    (xs : List Char) (h : x ≠ k) :
    replaceRuns k v inRun (x :: xs) = x :: replaceRuns k v false xs := by
  simp only [replaceRuns, h, if_false]

theorem substRuns_plain_append (f : Char → Option (List Char)) (v rest : List Char)
    (hv : ∀ c ∈ v, f c = none) (c0 : Char) (h0 : f c0 = none) (prev : Option Char) :
    substRuns f prev (c0 :: v ++ rest) = c0 :: v ++ substRuns f none rest := by
  induction v generalizing c0 prev with
  | nil => simp [substRuns_cons_none f prev c0 _ h0]
  | cons c v ih =>
    have hc : f c = none := hv c (List.mem_cons_self _ _)
    have hv' : ∀ c' ∈ v, f c' = none := fun c' h => hv c' (List.mem_cons_of_mem _ h)
    have := ih hv' c hc none
    simp only [List.cons_append] at this ⊢
    rw [substRuns_cons_none f prev c0 _ h0, this]

/-- Replacing the runs of a letter `k` and then substituting the runs of other
letters is one pass that substitutes both, when the replacement of `k` is not
empty and holds none of the other letters. -/
theorem substRuns_replaceRuns (f : Char → Option (List Char)) (k : Char) (v : List Char)
    (hk : f k = none) (hne : v ≠ []) (hv : ∀ c ∈ v, f c = none) (p : List Char) :
    (∀ prev, prev ≠ some k →
      substRuns f prev (replaceRuns k v false p) = substRuns (withKey f k v) prev p)
    ∧ substRuns f none (replaceRuns k v true p) = substRuns (withKey f k v) (some k) p := by
  obtain ⟨c0, v0, rfl⟩ : ∃ c0 v0, v = c0 :: v0 := by
    cases v with
    | nil => exact absurd rfl hne
    | cons c0 v0 => exact ⟨c0, v0, rfl⟩
  have hc0 : f c0 = none := hv c0 (List.mem_cons_self _ _)
  have hv0 : ∀ c ∈ v0, f c = none := fun c h => hv c (List.mem_cons_of_mem _ h)
  induction p with
  | nil => simp [replaceRuns, substRuns]
  | cons x xs ih =>
    obtain ⟨iha, ihb⟩ := ih
    by_cases hx : x = k
    · subst hx
      have hw : withKey f x (c0 :: v0) x = some (c0 :: v0) := by simp [withKey]
      constructor
      · intro prev hprev
        rw [replaceRuns_cons_eq, if_neg (by simp), substRuns_cons_some _ _ _ _ _ hw,
          if_neg hprev, substRuns_plain_append f v0 _ hv0 c0 hc0 prev, ihb]
      · rw [replaceRuns_cons_eq, if_pos rfl, substRuns_cons_some _ _ _ _ _ hw, if_pos rfl]
        simpa using ihb
    · have hw : withKey f k (c0 :: v0) x = f x := by simp [withKey, hx]
      have hsx : (some x : Option Char) ≠ some k := by
        intro h; exact hx (Option.some.inj h)
      have h1 : ¬ ((none : Option Char) = some x) := by simp
      have h2 : ¬ ((some k : Option Char) = some x) := fun h => hx (Option.some.inj h).symm
      cases hfx : f x with
      | none =>
        have hw' : withKey f k (c0 :: v0) x = none := by rw [hw, hfx]
        constructor
        · intro prev _
          rw [replaceRuns_cons_ne _ _ _ _ _ hx, substRuns_cons_none _ _ _ _ hfx,
            substRuns_cons_none _ _ _ _ hw', iha none (by simp)]
        · rw [replaceRuns_cons_ne _ _ _ _ _ hx, substRuns_cons_none _ _ _ _ hfx,
            substRuns_cons_none _ _ _ _ hw', iha none (by simp)]
      | some u =>
        have hw' : withKey f k (c0 :: v0) x = some u := by rw [hw, hfx]
        constructor
        · intro prev _
          rw [replaceRuns_cons_ne _ _ _ _ _ hx, substRuns_cons_some _ _ _ _ _ hfx,
            substRuns_cons_some _ _ _ _ _ hw', iha (some x) hsx]
        · rw [replaceRuns_cons_ne _ _ _ _ _ hx, substRuns_cons_some _ _ _ _ _ hfx,
            substRuns_cons_some _ _ _ _ _ hw', iha (some x) hsx, if_neg h1, if_neg h2]

theorem substRuns_no_key (p : List Char) (prev : Option Char) :
    substRuns (fun _ => none) prev p = p := by
  induction p generalizing prev with
  | nil => rfl
  | cons x xs ih => rw [substRuns_cons_none _ _ _ _ rfl, ih]

/-- Replacing the runs of the keys of a map one key after the other, in any order
without repetition, is one pass that substitutes the runs of all these keys, when
every value of the map is non-empty and holds no key of the map. -/
theorem foldl_replace_eq_substRuns (o : List (Char × List Char))
    (hval : ∀ k v, o.lookup k = some v → v ≠ [] ∧ ∀ c ∈ v, o.lookup c = none)
    (ks : List Char) (hnd : ks.Nodup) (p : List Char) :
    ks.foldl
        (fun fmtStr k =>
          match o.lookup k with
          | some v => ReplaceAllString k fmtStr v
          | none => fmtStr) p
      = substRuns (restrictTo o ks) none p := by
  induction ks generalizing p with
  | nil =>
    have e : restrictTo o [] = fun _ => none := by
      funext c; simp [restrictTo]
    rw [e, substRuns_no_key]; rfl
  | cons k ks ih =>
    obtain ⟨hk, hnd'⟩ := List.nodup_cons.mp hnd
    rw [List.foldl_cons, ih hnd']
    cases hlk : o.lookup k with
    | none =>
      have e : restrictTo o (k :: ks) = restrictTo o ks := by
        funext c
        unfold restrictTo
        by_cases hc : c = k
        · subst hc; simp [hlk, hk]
        · simp [hc]
      rw [e]
    | some v =>
      obtain ⟨hne, hv⟩ := hval k v hlk
      have hfk : restrictTo o ks k = none := by simp [restrictTo, hk]
      have hfv : ∀ c ∈ v, restrictTo o ks c = none := by
        intro c hc
        unfold restrictTo
        split_ifs
        · exact hv c hc
        · rfl
      have e : withKey (restrictTo o ks) k v = restrictTo o (k :: ks) := by
        funext c
        unfold withKey restrictTo
        by_cases hc : c = k
        · subst hc; simp [hlk]
        · simp [hc]
      simp only [ReplaceAllString]
      rw [(substRuns_replaceRuns _ k v hfk hne hfv p).1 none (by simp), e]

theorem lookup_formatTable (t : Time) (c : Char) :
    (formatTable t.String).lookup c = codeValue t c := by
  unfold formatTable codeValue
  simp only [List.lookup]
  by_cases h1 : c = 'Y'
  · subst h1; rfl
  by_cases h2 : c = 'y'
  · subst h2; rfl
  by_cases h3 : c = 'm'
  · subst h3; rfl
  by_cases h4 : c = 'd'
  · subst h4; rfl
  by_cases h5 : c = 'H'
  · subst h5; rfl
  by_cases h6 : c = 'i'
  · subst h6; rfl
  by_cases h7 : c = 's'
  · subst h7; rfl
  have b1 : (c == 'Y') = false := by simpa using h1
  have b2 : (c == 'y') = false := by simpa using h2
  have b3 : (c == 'm') = false := by simpa using h3
  have b4 : (c == 'd') = false := by simpa using h4
  have b5 : (c == 'H') = false := by simpa using h5
  have b6 : (c == 'i') = false := by simpa using h6
  have b7 : (c == 's') = false := by simpa using h7
  simp only [b1, b2, b3, b4, b5, b6, b7, h1, h2, h3, h4, h5, h6, h7, if_false]

theorem digitChar_plain : ∀ d, d < 10 → digitChar d ∉ tokenLetters := by decide

theorem natDigits_plain (fuel u : Nat) : ∀ c ∈ natDigits fuel u, c ∉ tokenLetters := by
  induction fuel generalizing u with
  | zero =>
    intro c hc
    simp only [natDigits, List.mem_singleton] at hc
    rw [hc]
    exact digitChar_plain _ (Nat.mod_lt _ (by norm_num))
  | succ n ih =>
    intro c hc
    simp only [natDigits] at hc
    split_ifs at hc with h
    · simp only [List.mem_singleton] at hc
      rw [hc]
      exact digitChar_plain _ h
    · rcases List.mem_append.mp hc with h1 | h1
      · exact ih _ c h1
      · simp only [List.mem_singleton] at h1
        rw [h1]
        exact digitChar_plain _ (Nat.mod_lt _ (by norm_num))

/-- The text of a number holds no token letter. -/
theorem appendInt_plain (x : Int) (width : Nat) : ∀ c ∈ appendInt x width, c ∉ tokenLetters := by
  have hsign : ∀ c ∈ (if x < 0 then ['-'] else ([] : List Char)), c ∉ tokenLetters := by
    intro c hc
    split_ifs at hc
    · simp only [List.mem_singleton] at hc
      rw [hc]; decide
    · simp at hc
  have hzero : ('0' : Char) ∉ tokenLetters := by decide
  intro c hc
  unfold appendInt at hc
  simp only at hc
  generalize (if x < 0 then ['-'] else ([] : List Char)) = sign at hc hsign
  split_ifs at hc with h1 h2
  · rcases List.mem_append.mp hc with h | h
    · exact hsign c h
    · simp only [List.mem_cons, List.mem_singleton, List.not_mem_nil, or_false] at h
      rcases h with h | h <;> rw [h] <;> apply digitChar_plain <;> omega
  · rcases List.mem_append.mp hc with h | h
    · exact hsign c h
    · simp only [List.mem_cons, List.mem_singleton, List.not_mem_nil, or_false] at h
      rcases h with h | h | h | h <;> rw [h] <;> apply digitChar_plain <;> omega
  · rcases List.mem_append.mp hc with h | h
    · rcases List.mem_append.mp h with h | h
      · exact hsign c h
      · rw [List.eq_of_mem_replicate h]; exact hzero
    · exact natDigits_plain _ _ c h

theorem appendInt_length (x : Int) (width : Nat) : width ≤ (appendInt x width).length := by
  unfold appendInt
  simp only
  generalize (if x < 0 then ['-'] else ([] : List Char)) = sign
  split_ifs <;> simp only [List.length_append, List.length_cons, List.length_nil,
    List.length_replicate] <;> omega

/-- The text of `t` up to the seconds holds no token letter and has at least 19
characters. -/
theorem textYmdHis_plain (t : Time) :
    (∀ c ∈ t.textYmdHis, c ∉ tokenLetters) ∧ 19 ≤ t.textYmdHis.length := by
  have hsep : ('-' : Char) ∉ tokenLetters ∧ (' ' : Char) ∉ tokenLetters
      ∧ (':' : Char) ∉ tokenLetters := by decide
  constructor
  · intro c hc
    unfold Time.textYmdHis Time.textYmd at hc
    simp only [List.mem_append, List.mem_singleton] at hc
    rcases hc with ((((((((((h | h) | h) | h) | h) | h) | h) | h) | h) | h) | h)
    · exact appendInt_plain _ _ c h
    · rw [h]; exact hsep.1
    · exact appendInt_plain _ _ c h
    · rw [h]; exact hsep.1
    · exact appendInt_plain _ _ c h
    · rw [h]; exact hsep.2.1
    · exact appendInt_plain _ _ c h
    · rw [h]; exact hsep.2.2
    · exact appendInt_plain _ _ c h
    · rw [h]; exact hsep.2.2
    · exact appendInt_plain _ _ c h
  · unfold Time.textYmdHis Time.textYmd
    have l1 := appendInt_length t.Year 4
    have l2 := appendInt_length t.Month 2
    have l3 := appendInt_length t.Day 2
    have l4 := appendInt_length t.Hour 2
    have l5 := appendInt_length t.Minute 2
    have l6 := appendInt_length t.Second 2
    simp only [List.length_append, List.length_cons, List.length_nil]
    omega

/-- A slice of `t.String()` that ends at byte 19 or before is not empty and holds
no token letter. -/
theorem slice_String_plain (t : Time) (i j : Nat) (hij : i < j) (hj : j ≤ 19) :
    slice t.String i j ≠ [] ∧ ∀ c ∈ slice t.String i j, c ∉ tokenLetters := by
  obtain ⟨hp, hl⟩ := textYmdHis_plain t
  have hs : ∃ tail, t.String = t.textYmdHis ++ tail := by
    unfold Time.String
    exact ⟨textFraction t.nsec.val ++ ([' '] ++ (textZone (t.loc.lookup t.unixSec).1
      ++ ([' '] ++ textZone (t.loc.lookup t.unixSec).1))), by simp only [List.append_assoc]⟩
  obtain ⟨tail, hs⟩ := hs
  have e : slice t.String i j = slice t.textYmdHis i j := by
    unfold slice
    rw [hs, List.drop_append_of_le_length (by omega), List.take_append_of_le_length]
    rw [List.length_drop]; omega
  rw [e]
  constructor
  · intro h
    have hlen : (slice t.textYmdHis i j).length = j - i := by
      unfold slice
      rw [List.length_take, List.length_drop]; omega
    rw [h] at hlen
    simp at hlen
    omega
  · intro c hc
    unfold slice at hc
    exact hp c (List.mem_of_mem_drop (List.mem_of_mem_take hc))

theorem codeValue_none_iff (t : Time) (c : Char) :
    codeValue t c = none ↔ c ∉ tokenLetters := by
  unfold codeValue tokenLetters
  simp only [List.mem_cons, List.mem_singleton, List.not_mem_nil, or_false, not_or]
  constructor
  · intro h
    split_ifs at h with h1 h2 h3 h4 h5 h6 h7
    exact ⟨h1, h2, h3, h4, h5, h6, h7⟩
  · rintro ⟨h1, h2, h3, h4, h5, h6, h7⟩
    simp only [h1, h2, h3, h4, h5, h6, h7, if_false]

theorem codeValue_some (t : Time) (k : Char) (v : List Char) (h : codeValue t k = some v) :
    v ≠ [] ∧ ∀ c ∈ v, codeValue t c = none := by
  have key : ∀ i j, i < j → j ≤ 19 → v = slice t.String i j →
      v ≠ [] ∧ ∀ c ∈ v, codeValue t c = none := by
    intro i j hij hj hv
    obtain ⟨a, b⟩ := slice_String_plain t i j hij hj
    rw [hv]
    exact ⟨a, fun c hc => (codeValue_none_iff t c).mpr (b c hc)⟩
  unfold codeValue at h
  split_ifs at h
  · exact key 0 4 (by norm_num) (by norm_num) (Option.some.inj h).symm
  · exact key 2 4 (by norm_num) (by norm_num) (Option.some.inj h).symm
  · exact key 5 7 (by norm_num) (by norm_num) (Option.some.inj h).symm
  · exact key 8 10 (by norm_num) (by norm_num) (Option.some.inj h).symm
  · exact key 11 13 (by norm_num) (by norm_num) (Option.some.inj h).symm
  · exact key 14 16 (by norm_num) (by norm_num) (Option.some.inj h).symm
  · exact key 17 19 (by norm_num) (by norm_num) (Option.some.inj h).symm

/-- The loop of `Format` over the map, in any order of visit, is the single pass
that replaces every maximal run of a token letter by the slice of `t.String()`
kept under that letter. -/
theorem Format_eq_substRuns (tf : TimeFormat) (order : List Char) (t : Time) (p : List Char)
    (ho : visitOrder order) (hm : matchTokens p = true) :
    Format tf order t p = substRuns (codeValue t) none p := by
  have hnd : order.Nodup := (List.Perm.nodup_iff ho).mpr (by decide)
  have hmem : ∀ c, c ∈ order ↔ c ∈ tokenLetters := fun c => List.Perm.mem_iff ho
  have hval : ∀ k v, (formatTable t.String).lookup k = some v →
      v ≠ [] ∧ ∀ c ∈ v, (formatTable t.String).lookup c = none := by
    intro k v h
    rw [lookup_formatTable] at h
    obtain ⟨a, b⟩ := codeValue_some t k v h
    exact ⟨a, fun c hc => by rw [lookup_formatTable]; exact b c hc⟩
  have e : restrictTo (formatTable t.String) order = codeValue t := by
    funext c
    unfold restrictTo
    split_ifs with h
    · exact lookup_formatTable t c
    · exact ((codeValue_none_iff t c).mpr (fun hc => h ((hmem c).mpr hc))).symm
  unfold Format
  rw [hm]
  simp only [Bool.not_true, Bool.false_eq_true, if_false]
  rw [foldl_replace_eq_substRuns _ hval order hnd p, e]

theorem appendInt_two (x : Int) (h0 : 0 ≤ x) (h1 : x < 100) :
    appendInt x 2 = [digitChar (x.natAbs / 10), digitChar (x.natAbs % 10)] := by
  have hu : x.natAbs < 100 := by omega
  have hs : ¬ x < 0 := not_lt.mpr h0
  unfold appendInt
  simp [hu, hs]

theorem appendInt_four (x : Int) (h0 : 0 ≤ x) (h1 : x < 10000) :
    appendInt x 4 = [digitChar (x.natAbs / 1000), digitChar (x.natAbs / 100 % 10),
      digitChar (x.natAbs / 10 % 10), digitChar (x.natAbs % 10)] := by
  have hu : x.natAbs < 10000 := by omega
  have hs : ¬ x < 0 := not_lt.mpr h0
  unfold appendInt
  simp [hu, hs]

/-- The ranges of the calendar fields of an instant. -/
theorem field_ranges (t : Time) :
    (1 ≤ t.Month ∧ t.Month ≤ 12) ∧ (1 ≤ t.Day ∧ t.Day ≤ 31) ∧ (0 ≤ t.Hour ∧ t.Hour ≤ 23)
    ∧ (0 ≤ t.Minute ∧ t.Minute ≤ 59) ∧ (0 ≤ t.Second ∧ t.Second ≤ 59) := by
  obtain ⟨⟨h1, h2, h3, h4⟩, _⟩ := date_valid t
  obtain ⟨_, b2⟩ := daysIn_bounds t.Year t.Month h1 h2
  unfold Time.Hour Time.Minute Time.Second
  refine ⟨⟨h1, h2⟩, ⟨h3, by omega⟩, ?_, ?_, ?_⟩ <;> omega

/-- For a year of four digits, the slices that `Format` takes from `t.String()`
are the fields that the specification names. -/
theorem codeValue_eq_tokenValue (t : Time) (h0 : 0 ≤ t.Year) (h1 : t.Year ≤ 9999) :
    codeValue t = tokenValue t := by
  obtain ⟨⟨m1, m2⟩, ⟨d1, d2⟩, ⟨hh1, hh2⟩, ⟨i1, i2⟩, ⟨s1, s2⟩⟩ := field_ranges t
  have eY := appendInt_four t.Year h0 (by omega)
  have eM := appendInt_two t.Month (by omega) (by omega)
  have eD := appendInt_two t.Day (by omega) (by omega)
  have eH := appendInt_two t.Hour hh1 (by omega)
  have eI := appendInt_two t.Minute i1 (by omega)
  have eS := appendInt_two t.Second s1 (by omega)
  have ey : appendInt (t.Year % 100) 2
      = [digitChar (t.Year.natAbs / 10 % 10), digitChar (t.Year.natAbs % 10)] := by
    rw [appendInt_two _ (by omega) (by omega)]
    have a1 : (t.Year % 100).natAbs / 10 = t.Year.natAbs / 10 % 10 := by omega
    have a2 : (t.Year % 100).natAbs % 10 = t.Year.natAbs % 10 := by omega
    rw [a1, a2]
  have hS : ∃ tail, t.String = appendInt t.Year 4 ++ '-' :: (appendInt t.Month 2 ++ '-' ::
      (appendInt t.Day 2 ++ ' ' :: (appendInt t.Hour 2 ++ ':' :: (appendInt t.Minute 2 ++ ':' ::
      (appendInt t.Second 2 ++ tail))))) := by
    unfold Time.String Time.textYmdHis Time.textYmd
    exact ⟨textFraction t.nsec.val ++ ([' '] ++ (textZone (t.loc.lookup t.unixSec).1
      ++ ([' '] ++ textZone (t.loc.lookup t.unixSec).1))), by simp⟩
  obtain ⟨tail, hS⟩ := hS
  funext c
  unfold codeValue tokenValue
  rw [hS, ey, eY, eM, eD, eH, eI, eS]
  rfl

theorem matchTokens_iff (p : List Char) :
    matchTokens p = true ↔ ∃ c ∈ p, c ∈ tokenLetters := by
  unfold matchTokens tokenLetters
  simp only [List.any_eq_true, decide_eq_true_eq]

theorem substRuns_run_tail (f : Char → Option (List Char)) (c : Char) (v b : List Char)
    (hc : f c = some v) (n : Nat) :
    substRuns f (some c) (List.replicate n c ++ b) = substRuns f (some c) b := by
  induction n with
  | zero => rfl
  | succ n ih =>
    rw [List.replicate_succ, List.cons_append, substRuns_cons_some _ _ _ _ _ hc, if_pos rfl, ih]
    rfl

theorem substRuns_run (f : Char → Option (List Char)) (c : Char) (v b : List Char)
    (hc : f c = some v) (n : Nat) (hn : 0 < n) (prev : Option Char) :
    substRuns f prev (List.replicate n c ++ b)
      = (if prev = some c then [] else v) ++ substRuns f (some c) b := by
  obtain ⟨m, rfl⟩ : ∃ m, n = m + 1 := ⟨n - 1, by omega⟩
  rw [List.replicate_succ, List.cons_append, substRuns_cons_some _ _ _ _ _ hc,
    substRuns_run_tail f c v b hc m]

theorem substRuns_prefix (f : Char → Option (List Char)) (a r1 r2 : List Char)
    (h : ∀ prev, substRuns f prev r1 = substRuns f prev r2) (prev : Option Char) :
    substRuns f prev (a ++ r1) = substRuns f prev (a ++ r2) := by
  induction a generalizing prev with
  | nil => exact h prev
  | cons x xs ih =>
    simp only [List.cons_append]
    cases hfx : f x with
    | none => rw [substRuns_cons_none _ _ _ _ hfx, substRuns_cons_none _ _ _ _ hfx, ih]
    | some u => rw [substRuns_cons_some _ _ _ _ _ hfx, substRuns_cons_some _ _ _ _ _ hfx, ih]

/-! ## C5 to C8: `Format` -/

/-- C5 (as amended). For every instant `t` whose year has four digits (0 to 9999),
and every order in which the map of `Format` is visited, `Format(t, "Y-m-d H:i:s")`
equals `YmdHis(t)`, the fixed-layout text `YYYY-MM-DD HH:MM:SS` of `t`. -/
theorem Format_YmdHis (tf : TimeFormat) (order : List Char) (t : Time)
    (ho : visitOrder order) (h0 : 0 ≤ t.Year) (h1 : t.Year ≤ 9999) :
    Format tf order t "Y-m-d H:i:s".toList = YmdHis tf t
    ∧ YmdHis tf t = t.textYmdHis := by
  have hy : YmdHis tf t = t.textYmdHis := tf.format_YmdHis t
  refine ⟨?_, hy⟩
  rw [hy, Format_eq_substRuns tf order t _ ho (by decide), codeValue_eq_tokenValue t h0 h1]
  have e : "Y-m-d H:i:s".toList
      = ['Y', '-', 'm', '-', 'd', ' ', 'H', ':', 'i', ':', 's'] := rfl
  rw [e]
  simp [substRuns, tokenValue, Time.textYmdHis, Time.textYmd]

set_option maxRecDepth 100000 in
/-- C5, witness: 18 February 2020, the keys visited in the order of the source. -/
theorem Format_YmdHis_witness :
    visitOrder tokenLetters ∧ 0 ≤ tFeb2020.Year ∧ tFeb2020.Year ≤ 9999
    ∧ Format plainFormat tokenLetters tFeb2020 "Y-m-d H:i:s".toList
        = YmdHis plainFormat tFeb2020 :=
  ⟨List.Perm.refl _, by decide, by decide,
    (Format_YmdHis plainFormat tokenLetters tFeb2020 (List.Perm.refl _)
      (by decide) (by decide)).1⟩

set_option maxRecDepth 100000 in
/-- C5 fails as stated. For the first instant of the year 10000, `t.String()`
starts with `10000-01-01 00:00:00`, the fixed slices are `1000`, `-0`, `-0`, ` 0`,
`:0`, `:0`, and `Format(t, "Y-m-d H:i:s")` is `1000--0--0  0::0::0`, while
`YmdHis(t)` is `10000-01-01 00:00:00`. -/
theorem Format_YmdHis_counterexample :
    tYear10000.Year = 10000
    ∧ Format plainFormat tokenLetters tYear10000 "Y-m-d H:i:s".toList
        = "1000--0--0  0::0::0".toList
    ∧ YmdHis plainFormat tYear10000 = "10000-01-01 00:00:00".toList
    ∧ Format plainFormat tokenLetters tYear10000 "Y-m-d H:i:s".toList
        ≠ YmdHis plainFormat tYear10000 := by
  decide

/-- C6 (as amended). For every instant `t` whose year has four digits (0 to 9999),
every pattern `p` that holds at least one of the letters `Y y m d H i s`, and every
order of visit of the map, `Format(t, p)` is `p` with every maximal run of `Y`
replaced by the 4-digit year of `t`, of `y` by the 2-digit year, of `m`, `d`, `H`,
`i`, `s` by the 2-digit zero-padded month, day, hour, minute and second, every run
being replaced and every other character left unchanged and in place. -/
theorem Format_substitutes_runs (tf : TimeFormat) (order : List Char) (t : Time)
    (p : List Char) (ho : visitOrder order) (hp : ∃ c ∈ p, c ∈ tokenLetters)
    (h0 : 0 ≤ t.Year) (h1 : t.Year ≤ 9999) :
    Format tf order t p = formatSpec t p := by
  rw [Format_eq_substRuns tf order t p ho ((matchTokens_iff p).mpr hp),
    codeValue_eq_tokenValue t h0 h1]
  rfl

set_option maxRecDepth 100000 in
/-- C6, witness: a pattern with repeated runs and other text. -/
theorem Format_substitutes_runs_witness :
    visitOrder tokenLetters ∧ (∃ c ∈ "YY/m/m at H.i".toList, c ∈ tokenLetters)
    ∧ 0 ≤ tFeb2020.Year ∧ tFeb2020.Year ≤ 9999
    ∧ Format plainFormat tokenLetters tFeb2020 "YY/m/m at H.i".toList
        = formatSpec tFeb2020 "YY/m/m at H.i".toList
    ∧ formatSpec tFeb2020 "YY/m/m at H.i".toList = "2020/02/02 at 04.26".toList :=
  ⟨List.Perm.refl _, by decide, by decide, by decide,
    Format_substitutes_runs plainFormat tokenLetters tFeb2020 _ (List.Perm.refl _)
      (by decide) (by decide) (by decide),
    by decide⟩

set_option maxRecDepth 100000 in
/-- C6 fails as stated. For the first instant of the year -1, `t.String()` starts
with `-0001-01-01`, and `Format(t, "Y-m")` is `-000--0`: the run of `Y` is not
replaced by the year `-0001` nor the run of `m` by the month `01`. -/
theorem Format_substitutes_runs_counterexample :
    tYearMinus1.Year = -1 ∧ tYearMinus1.Month = 1
    ∧ Format plainFormat tokenLetters tYearMinus1 "Y-m".toList = "-000--0".toList
    ∧ formatSpec tYearMinus1 "Y-m".toList = "-0001-01".toList := by
  decide

/-- C7. For every instant `t` and every pattern `p` that holds none of the letters
`Y y m d H i s`, `Format(t, p)` is the native formatting `t.Format(p)` of `t` with
the layout `p`, whatever Go's layout rules make of `p`, and the map of token
values is not visited. -/
theorem Format_native_layout (tf : TimeFormat) (order : List Char) (t : Time)
    (p : List Char) (hp : ∀ c ∈ p, c ∉ tokenLetters) :
    Format tf order t p = tf.format t p := by
  have hm : matchTokens p = false := by
    cases h : matchTokens p
    · rfl
    · obtain ⟨c, hc, hc'⟩ := (matchTokens_iff p).mp h
      exact absurd hc' (hp c hc)
  unfold Format
  rw [hm]
  rfl

/-- C7, witness: the layout `2006-01-02`. -/
theorem Format_native_layout_witness :
    (∀ c ∈ "2006-01-02".toList, c ∉ tokenLetters)
    ∧ Format plainFormat tokenLetters tFeb2020 "2006-01-02".toList
        = plainFormat.format tFeb2020 "2006-01-02".toList :=
  ⟨by decide, Format_native_layout plainFormat tokenLetters tFeb2020 _ (by decide)⟩

/-- C8. The length of a run of a token letter does not matter: for every instant
`t`, token letter `c`, texts `a` and `b` and lengths `n, k ≥ 1`, the patterns `a ++
c^n ++ b` and `a ++ c^k ++ b` have the same `Format`, whatever the orders in which
the two calls visit the map; in particular `Format(t, "YYYY-mm-dd HH:ii:ss")` is
`Format(t, "Y-m-d H:i:s")`. -/
theorem Format_run_length (tf : TimeFormat) (o1 o2 : List Char) (t : Time)
    (ho1 : visitOrder o1) (ho2 : visitOrder o2) :
    (∀ (a b : List Char) (c : Char) (n k : Nat), c ∈ tokenLetters → 0 < n → 0 < k →
      Format tf o1 t (a ++ List.replicate n c ++ b)
        = Format tf o2 t (a ++ List.replicate k c ++ b))
    ∧ Format tf o1 t "YYYY-mm-dd HH:ii:ss".toList = Format tf o2 t "Y-m-d H:i:s".toList := by
  constructor
  · intro a b c n k hc hn hk
    have hm : ∀ j, 0 < j → matchTokens (a ++ List.replicate j c ++ b) = true := by
      intro j hj
      refine (matchTokens_iff _).mpr ⟨c, ?_, hc⟩
      have hr : c ∈ List.replicate j c := List.mem_replicate.mpr ⟨by omega, rfl⟩
      exact List.mem_append_left _ (List.mem_append_right _ hr)
    obtain ⟨v, hv⟩ : ∃ v, codeValue t c = some v := by
      cases h : codeValue t c with
      | none => exact absurd hc ((codeValue_none_iff t c).mp h)
      | some v => exact ⟨v, rfl⟩
    rw [Format_eq_substRuns tf o1 t _ ho1 (hm n hn), Format_eq_substRuns tf o2 t _ ho2 (hm k hk),
      List.append_assoc, List.append_assoc]
    apply substRuns_prefix
    intro prev
    rw [substRuns_run _ c v b hv n hn, substRuns_run _ c v b hv k hk]
  · rw [Format_eq_substRuns tf o1 t _ ho1 (by decide),
      Format_eq_substRuns tf o2 t _ ho2 (by decide)]
    have e1 : "YYYY-mm-dd HH:ii:ss".toList
        = ['Y', 'Y', 'Y', 'Y', '-', 'm', 'm', '-', 'd', 'd', ' ', 'H', 'H', ':', 'i', 'i',
            ':', 's', 's'] := rfl
    have e2 : "Y-m-d H:i:s".toList
        = ['Y', '-', 'm', '-', 'd', ' ', 'H', ':', 'i', ':', 's'] := rfl
    rw [e1, e2]
    simp [substRuns, codeValue]

set_option maxRecDepth 100000 in
/-- C8, witness: the run `mm` of `Y-mm` made a run of five, in the year 10000. -/
theorem Format_run_length_witness :
    visitOrder tokenLetters ∧ visitOrder tokenLetters.reverse
    ∧ Format plainFormat tokenLetters tYear10000
        ("Y-".toList ++ List.replicate 2 'm' ++ "/d".toList)
      = Format plainFormat tokenLetters.reverse tYear10000
        ("Y-".toList ++ List.replicate 5 'm' ++ "/d".toList) :=
  ⟨List.Perm.refl _, List.reverse_perm _,
    (Format_run_length plainFormat tokenLetters tokenLetters.reverse tYear10000
      (List.Perm.refl _) (List.reverse_perm _)).1 _ _ 'm' 2 5 (by decide) (by decide)
      (by decide)⟩

/-! ## Lemmas on `time.ParseInLocation` -/

theorem isDigit_cons (c : Char) (s : List Char) : isDigit (c :: s) = true ↔ isDig c := by
  simp [isDigit, isDig]

theorem isDigit_cons_false (c : Char) (s : List Char) : isDigit (c :: s) = false ↔ ¬ isDig c := by
  rw [← isDigit_cons c s]; simp

theorem getnum_two (a b : Char) (rest : List Char) (fixed : Bool) (ha : isDig a)
    (hb : isDig b) :
    getnum (a :: b :: rest) fixed = some (digitVal a * 10 + digitVal b, rest) := by
  have h1 := (isDigit_cons a (b :: rest)).mpr ha
  have h2 := (isDigit_cons b rest).mpr hb
  unfold getnum
  simp only [List.drop_succ_cons, List.drop_zero, h1, h2, Bool.not_true, Bool.false_eq_true,
    if_false]

theorem getnum_one (a : Char) (rest : List Char) (ha : isDig a) (hr : isDigit rest = false) :
    getnum (a :: rest) false = some (digitVal a, rest) := by
  have h1 := (isDigit_cons a rest).mpr ha
  unfold getnum
  simp only [List.drop_succ_cons, List.drop_zero, h1, hr, Bool.not_true, Bool.not_false,
    Bool.false_eq_true, if_false, if_true]

theorem getnum_inv (s rest : List Char) (fixed : Bool) (n : Int)
    (h : getnum s fixed = some (n, rest)) :
    (∃ a b, s = a :: b :: rest ∧ isDig a ∧ isDig b ∧ n = digitVal a * 10 + digitVal b)
    ∨ (fixed = false ∧ ∃ a, s = a :: rest ∧ isDig a ∧ isDigit rest = false ∧ n = digitVal a) := by
  unfold getnum at h
  cases h1 : isDigit s
  · simp [h1] at h
  · simp only [h1, Bool.not_true, Bool.false_eq_true, if_false] at h
    cases s with
    | nil => simp [isDigit] at h1
    | cons a s =>
      have ha := (isDigit_cons a s).mp h1
      simp only [List.drop_succ_cons, List.drop_zero] at h
      cases h2 : isDigit s
      · simp only [h2, Bool.not_false, if_true] at h
        cases fixed
        · simp only [Bool.false_eq_true, if_false, Option.some.injEq, Prod.mk.injEq] at h
          obtain ⟨rfl, rfl⟩ := h
          exact Or.inr ⟨rfl, a, rfl, ha, h2, rfl⟩
        · simp at h
      · simp only [h2, Bool.not_true, Bool.false_eq_true, if_false] at h
        cases s with
        | nil => simp [isDigit] at h2
        | cons b s =>
          have hb := (isDigit_cons b s).mp h2
          simp only [Option.some.injEq, Prod.mk.injEq] at h
          obtain ⟨rfl, rfl⟩ := h
          exact Or.inl ⟨a, b, rfl, ha, hb, rfl⟩

theorem getField_inv (s rest : List Char) (fixed : Bool) (lo hi n : Int)
    (h : getField s fixed lo hi = some (n, rest)) :
    getnum s fixed = some (n, rest) ∧ lo ≤ n ∧ n ≤ hi := by
  unfold getField at h
  cases hg : getnum s fixed with
  | none => simp [hg] at h
  | some r =>
    obtain ⟨n', rest'⟩ := r
    simp only [hg] at h
    split_ifs at h with hc
    simp only [Option.some.injEq, Prod.mk.injEq] at h
    obtain ⟨rfl, rfl⟩ := h
    exact ⟨rfl, by omega, by omega⟩

theorem getField_of (s rest : List Char) (fixed : Bool) (lo hi n : Int)
    (h : getnum s fixed = some (n, rest)) (h1 : lo ≤ n) (h2 : n ≤ hi) :
    getField s fixed lo hi = some (n, rest) := by
  unfold getField
  simp only [h]
  rw [if_neg (by omega)]

theorem skip_char (c : Char) (hc : c ≠ ' ') (v rest : List Char) :
    skip v [c] = some rest ↔ v = c :: rest := by
  unfold skip
  cases v with
  | nil => simp [skipAux, hc]
  | cons x xs =>
    simp only [skipAux, hc, if_false, List.cons.injEq]
    by_cases hx : x = c
    · simp [hx]
    · simp [hx]

theorem skip_space (v rest : List Char) :
    skip v [' '] = some rest ↔ (v = [] ∧ rest = []) ∨ (∃ v', v = ' ' :: v' ∧ rest = cutspace v') := by
  unfold skip
  cases v with
  | nil => simp [skipAux, eq_comm]
  | cons x xs =>
    simp only [skipAux, if_true, Bool.false_eq_true, if_false]
    by_cases hx : x = ' '
    · subst hx
      simp [cutspace, eq_comm]
    · simp [hx]

theorem atoiDigits_four (a b c d : Char) (ha : isDig a) (hb : isDig b) (hc : isDig c)
    (hd : isDig d) :
    atoiDigits [a, b, c, d]
      = some (((digitVal a * 10 + digitVal b) * 10 + digitVal c) * 10 + digitVal d) := by
  have h1 := (isDigit_cons a []).mpr ha
  have h2 := (isDigit_cons b []).mpr hb
  have h3 := (isDigit_cons c []).mpr hc
  have h4 := (isDigit_cons d []).mpr hd
  simp [atoiDigits, h1, h2, h3, h4]

theorem getYear_of (a b c d : Char) (rest : List Char) (ha : isDig a) (hb : isDig b)
    (hc : isDig c) (hd : isDig d) :
    getYear (a :: b :: c :: d :: rest)
      = some (((digitVal a * 10 + digitVal b) * 10 + digitVal c) * 10 + digitVal d, rest) := by
  have h1 := (isDigit_cons a (b :: c :: d :: rest)).mpr ha
  unfold getYear
  simp [h1, atoiDigits_four a b c d ha hb hc hd]

theorem getYear_inv (s rest : List Char) (y : Int) (h : getYear s = some (y, rest)) :
    ∃ a b c d, s = a :: b :: c :: d :: rest ∧ isDig a ∧ isDig b ∧ isDig c ∧ isDig d
      ∧ y = ((digitVal a * 10 + digitVal b) * 10 + digitVal c) * 10 + digitVal d := by
  unfold getYear at h
  split_ifs at h with hc
  match s, hc, h with
  | a :: b :: c :: d :: s', hc, h =>
    simp only [List.take_succ_cons, List.take_zero, List.drop_succ_cons, List.drop_zero] at h
    unfold atoiDigits at h
    simp only at h
    split_ifs at h with hall
    · simp only [List.all_cons, List.all_nil, Bool.and_true, Bool.and_eq_true, isDigit_cons] at hall
      obtain ⟨ha, hb, hc', hd⟩ := hall
      simp only [List.foldl_cons, List.foldl_nil, Option.some.injEq, Prod.mk.injEq] at h
      obtain ⟨rfl, rfl⟩ := h
      exact ⟨a, b, c, d, rfl, ha, hb, hc', hd, by ring⟩
  | [], hc, h => simp at hc
  | [_], hc, h => simp at hc
  | [_, _], hc, h => simp at hc
  | [_, _, _], hc, h => simp at hc

theorem digitVal_nonneg (c : Char) (h : isDig c) : 0 ≤ digitVal c ∧ digitVal c ≤ 9 := by
  unfold isDig at h
  unfold digitVal
  have h1 : (48 : Nat) ≤ c.toNat := h.1
  have h2 : c.toNat ≤ 57 := h.2
  omega

theorem parseDatePart_inv (s v : List Char) (y m d : Int)
    (h : parseDatePart s = some ((y, m, d), v)) :
    ∃ y1 y2 y3 y4 m1 m2 d1 d2,
      s = y1 :: y2 :: y3 :: y4 :: '-' :: m1 :: m2 :: '-' :: d1 :: d2 :: v
      ∧ (isDig y1 ∧ isDig y2 ∧ isDig y3 ∧ isDig y4) ∧ (isDig m1 ∧ isDig m2)
      ∧ (isDig d1 ∧ isDig d2)
      ∧ y = numeral [y1, y2, y3, y4] ∧ m = numeral [m1, m2] ∧ d = numeral [d1, d2]
      ∧ 1 ≤ m ∧ m ≤ 12 := by
  unfold parseDatePart at h
  cases h1 : getYear s with
  | none => simp [h1] at h
  | some r1 =>
    obtain ⟨y', v1⟩ := r1
    simp only [h1] at h
    cases h2 : skip v1 ['-'] with
    | none => simp [h2] at h
    | some v2 =>
      simp only [h2] at h
      cases h3 : getField v2 true 1 12 with
      | none => simp [h3] at h
      | some r3 =>
        obtain ⟨m', v3⟩ := r3
        simp only [h3] at h
        cases h4 : skip v3 ['-'] with
        | none => simp [h4] at h
        | some v4 =>
          simp only [h4] at h
          cases h5 : getnum v4 true with
          | none => simp [h5] at h
          | some r5 =>
            obtain ⟨d', v5⟩ := r5
            simp only [h5, Option.some.injEq, Prod.mk.injEq] at h
            obtain ⟨⟨rfl, rfl, rfl⟩, rfl⟩ := h
            obtain ⟨y1, y2, y3, y4, rfl, a1, a2, a3, a4, rfl⟩ := getYear_inv _ _ _ h1
            have e2 := (skip_char '-' (by decide) _ _).mp h2
            subst e2
            obtain ⟨g3, lo3, hi3⟩ := getField_inv _ _ _ _ _ _ h3
            rcases getnum_inv _ _ _ _ g3 with ⟨m1, m2, rfl, b1, b2, rfl⟩ | ⟨hf, _⟩
            · have e4 := (skip_char '-' (by decide) _ _).mp h4
              subst e4
              rcases getnum_inv _ _ _ _ h5 with ⟨d1, d2, rfl, c1, c2, rfl⟩ | ⟨hf, _⟩
              · exact ⟨y1, y2, y3, y4, m1, m2, d1, d2, rfl, ⟨a1, a2, a3, a4⟩, ⟨b1, b2⟩, ⟨c1, c2⟩,
                  by simp [numeral], by simp [numeral], by simp [numeral], lo3, hi3⟩
              · exact absurd hf (by decide)
            · exact absurd hf (by decide)

theorem parseDatePart_of (y1 y2 y3 y4 m1 m2 d1 d2 : Char) (v : List Char)
    (hy : isDig y1 ∧ isDig y2 ∧ isDig y3 ∧ isDig y4) (hm : isDig m1 ∧ isDig m2)
    (hd : isDig d1 ∧ isDig d2) (h1 : 1 ≤ numeral [m1, m2]) (h2 : numeral [m1, m2] ≤ 12) :
    parseDatePart (y1 :: y2 :: y3 :: y4 :: '-' :: m1 :: m2 :: '-' :: d1 :: d2 :: v)
      = some ((numeral [y1, y2, y3, y4], numeral [m1, m2], numeral [d1, d2]), v) := by
  have e1 := getYear_of y1 y2 y3 y4 ('-' :: m1 :: m2 :: '-' :: d1 :: d2 :: v)
    hy.1 hy.2.1 hy.2.2.1 hy.2.2.2
  have e2 := (skip_char '-' (by decide) ('-' :: m1 :: m2 :: '-' :: d1 :: d2 :: v) _).mpr rfl
  have n3 : numeral [m1, m2] = digitVal m1 * 10 + digitVal m2 := by simp [numeral]
  have e3 := getField_of _ _ true 1 12 _ (getnum_two m1 m2 ('-' :: d1 :: d2 :: v) true hm.1 hm.2)
    (by rw [← n3]; exact h1) (by rw [← n3]; exact h2)
  have e4 := (skip_char '-' (by decide) ('-' :: d1 :: d2 :: v) _).mpr rfl
  have e5 := getnum_two d1 d2 v true hd.1 hd.2
  unfold parseDatePart
  simp only [e1, e2, e3, e4, e5]
  simp [numeral]

theorem parseClockPart_inv (v v' : List Char) (h mi sec : Int)
    (hp : parseClockPart v = some ((h, mi, sec), v')) :
    ∃ H i1 i2 s1 s2,
      v = H ++ ':' :: i1 :: i2 :: ':' :: s1 :: s2 :: v'
      ∧ ((∃ h1, H = [h1] ∧ isDig h1) ∨ (∃ h1 h2, H = [h1, h2] ∧ isDig h1 ∧ isDig h2))
      ∧ (isDig i1 ∧ isDig i2) ∧ (isDig s1 ∧ isDig s2)
      ∧ h = numeral H ∧ mi = numeral [i1, i2] ∧ sec = numeral [s1, s2]
      ∧ h ≤ 23 ∧ mi ≤ 59 ∧ sec ≤ 59 := by
  unfold parseClockPart at hp
  cases h1 : getField v false 0 23 with
  | none => simp [h1] at hp
  | some r1 =>
    obtain ⟨h', v1⟩ := r1
    simp only [h1] at hp
    cases h2 : skip v1 [':'] with
    | none => simp [h2] at hp
    | some v2 =>
      simp only [h2] at hp
      cases h3 : getField v2 true 0 59 with
      | none => simp [h3] at hp
      | some r3 =>
        obtain ⟨mi', v3⟩ := r3
        simp only [h3] at hp
        cases h4 : skip v3 [':'] with
        | none => simp [h4] at hp
        | some v4 =>
          simp only [h4] at hp
          cases h5 : getField v4 true 0 59 with
          | none => simp [h5] at hp
          | some r5 =>
            obtain ⟨s', v5⟩ := r5
            simp only [h5, Option.some.injEq, Prod.mk.injEq] at hp
            obtain ⟨⟨rfl, rfl, rfl⟩, rfl⟩ := hp
            obtain ⟨g1, _, hi1⟩ := getField_inv _ _ _ _ _ _ h1
            obtain ⟨g3, _, hi3⟩ := getField_inv _ _ _ _ _ _ h3
            obtain ⟨g5, _, hi5⟩ := getField_inv _ _ _ _ _ _ h5
            have e2 := (skip_char ':' (by decide) _ _).mp h2
            have e4 := (skip_char ':' (by decide) _ _).mp h4
            subst e2 e4
            rcases getnum_inv _ _ _ _ g3 with ⟨i1, i2, rfl, b1, b2, rfl⟩ | ⟨hf, _⟩
            · rcases getnum_inv _ _ _ _ g5 with ⟨s1, s2, rfl, c1, c2, rfl⟩ | ⟨hf, _⟩
              · rcases getnum_inv _ _ _ _ g1 with ⟨a1, a2, rfl, d1, d2, rfl⟩
                    | ⟨_, a1, rfl, d1, _, rfl⟩
                · exact ⟨[a1, a2], i1, i2, s1, s2, rfl, Or.inr ⟨a1, a2, rfl, d1, d2⟩, ⟨b1, b2⟩,
                    ⟨c1, c2⟩, by simp [numeral], by simp [numeral], by simp [numeral],
                    hi1, hi3, hi5⟩
                · exact ⟨[a1], i1, i2, s1, s2, rfl, Or.inl ⟨a1, rfl, d1⟩, ⟨b1, b2⟩,
                    ⟨c1, c2⟩, by simp [numeral], by simp [numeral], by simp [numeral],
                    hi1, hi3, hi5⟩
              · exact absurd hf (by decide)
            · exact absurd hf (by decide)

theorem numeral_two (a b : Char) (ha : isDig a) (hb : isDig b) :
    numeral [a, b] = digitVal a * 10 + digitVal b ∧ 0 ≤ numeral [a, b] := by
  have h1 := digitVal_nonneg a ha
  have h2 := digitVal_nonneg b hb
  have e : numeral [a, b] = digitVal a * 10 + digitVal b := by simp [numeral]
  rw [e]
  exact ⟨rfl, by omega⟩

theorem parseClockPart_of (H : List Char) (i1 i2 s1 s2 : Char) (v : List Char)
    (hH : (∃ h1, H = [h1] ∧ isDig h1) ∨ (∃ h1 h2, H = [h1, h2] ∧ isDig h1 ∧ isDig h2))
    (hi : isDig i1 ∧ isDig i2) (hs : isDig s1 ∧ isDig s2)
    (r1 : numeral H ≤ 23) (r2 : numeral [i1, i2] ≤ 59) (r3 : numeral [s1, s2] ≤ 59) :
    parseClockPart (H ++ ':' :: i1 :: i2 :: ':' :: s1 :: s2 :: v)
      = some ((numeral H, numeral [i1, i2], numeral [s1, s2]), v) := by
  obtain ⟨ni, ni0⟩ := numeral_two i1 i2 hi.1 hi.2
  obtain ⟨ns, ns0⟩ := numeral_two s1 s2 hs.1 hs.2
  have hcolon : ∀ r, isDigit (':' :: r) = false :=
    fun r => (isDigit_cons_false ':' r).mpr (by decide)
  have e1 : getField (H ++ ':' :: i1 :: i2 :: ':' :: s1 :: s2 :: v) false 0 23
      = some (numeral H, ':' :: i1 :: i2 :: ':' :: s1 :: s2 :: v) := by
    rcases hH with ⟨h1, rfl, d1⟩ | ⟨h1, h2, rfl, d1, d2⟩
    · have hn : numeral [h1] = digitVal h1 := by simp [numeral]
      have hb := digitVal_nonneg h1 d1
      exact getField_of _ _ false 0 23 _
        (by rw [hn]; exact getnum_one h1 _ d1 (hcolon _)) (by rw [hn]; exact hb.1) r1
    · obtain ⟨hn, hn0⟩ := numeral_two h1 h2 d1 d2
      exact getField_of _ _ false 0 23 _
        (by rw [hn]; exact getnum_two h1 h2 _ false d1 d2) hn0 r1
  have e2 := (skip_char ':' (by decide) (':' :: i1 :: i2 :: ':' :: s1 :: s2 :: v) _).mpr rfl
  have e3 := getField_of _ _ true 0 59 _ (getnum_two i1 i2 (':' :: s1 :: s2 :: v) true hi.1 hi.2)
    (by rw [← ni]; exact ni0) (by rw [← ni]; exact r2)
  have e4 := (skip_char ':' (by decide) (':' :: s1 :: s2 :: v) _).mpr rfl
  have e5 := getField_of _ _ true 0 59 _ (getnum_two s1 s2 v true hs.1 hs.2)
    (by rw [← ns]; exact ns0) (by rw [← ns]; exact r3)
  unfold parseClockPart
  simp only [e1, e2, e3, e4, e5, ni, ns]

theorem atoiDigits_some (ds : List Char) (hne : ds ≠ []) (hd : ∀ x ∈ ds, isDig x) :
    ∃ n, atoiDigits ds = some n := by
  cases ds with
  | nil => exact absurd rfl hne
  | cons c cs =>
    have hall : (c :: cs).all (fun c => isDigit [c]) = true := by
      rw [List.all_eq_true]
      intro x hx
      exact (isDigit_cons x []).mpr (hd x hx)
    unfold atoiDigits
    simp only [hall, if_true]
    exact ⟨_, rfl⟩

/-- The rest of the input after the seconds is read to the end exactly when it is
empty or a fraction: `.` or `,` and one or more digits. -/
theorem getFraction_end_iff (F : List Char) :
    (∃ ns, getFraction F = some (ns, []))
      ↔ (F = [] ∨ ∃ c ds, F = c :: ds ∧ (c = '.' ∨ c = ',') ∧ ds ≠ [] ∧ ∀ x ∈ ds, isDig x) := by
  cases F with
  | nil => simp [getFraction]
  | cons c rest =>
    simp only [false_or, List.cons.injEq, reduceCtorEq]
    unfold getFraction
    simp only
    by_cases hc : (c = '.' ∨ c = ',') ∧ isDigit rest = true
    · rw [if_pos hc]
      have hne : rest ≠ [] := by
        intro h; rw [h] at hc; simp [isDigit] at hc
      constructor
      · rintro ⟨ns, h⟩
        cases ha : atoiDigits (List.take 9 (List.takeWhile (fun c => isDigit [c]) rest)) with
        | none => simp [ha] at h
        | some n =>
          simp only [ha, Option.some.injEq, Prod.mk.injEq] at h
          have hall : ∀ x ∈ rest, isDig x := by
            intro x hx
            have := List.dropWhile_eq_nil_iff.mp h.2 x hx
            exact (isDigit_cons x []).mp this
          exact ⟨c, rest, ⟨rfl, rfl⟩, hc.1, hne, hall⟩
      · rintro ⟨c', ds, ⟨rfl, rfl⟩, _, _, hall⟩
        have htw : List.takeWhile (fun c => isDigit [c]) rest = rest := by
          rw [List.takeWhile_eq_self_iff]
          intro x hx
          exact (isDigit_cons x []).mpr (hall x hx)
        have hdw : List.dropWhile (fun c => isDigit [c]) rest = [] := by
          rw [List.dropWhile_eq_nil_iff]
          intro x hx
          exact (isDigit_cons x []).mpr (hall x hx)
        have hne9 : List.take 9 rest ≠ [] := by
          cases rest with
          | nil => exact absurd rfl hne
          | cons a as => simp
        obtain ⟨n, hn⟩ := atoiDigits_some (List.take 9 rest) hne9
          (fun x hx => hall x (List.mem_of_mem_take hx))
        rw [htw, hdw, hn]
        exact ⟨_, rfl⟩
    · rw [if_neg hc]
      constructor
      · rintro ⟨ns, h⟩
        simp at h
      · rintro ⟨c', ds, ⟨rfl, rfl⟩, hcc, hne, hall⟩
        exfalso
        apply hc
        refine ⟨hcc, ?_⟩
        cases rest with
        | nil => exact absurd rfl hne
        | cons a as => exact (isDigit_cons a as).mpr (hall a (List.mem_cons_self _ _))

theorem cutspace_replicate (k : Nat) (c : Char) (r : List Char) (hc : c ≠ ' ') :
    cutspace (List.replicate k ' ' ++ c :: r) = c :: r := by
  induction k with
  | zero =>
    have hb : (c == ' ') = false := by simpa using hc
    simp [cutspace, List.dropWhile, hb]
  | succ k ih =>
    rw [List.replicate_succ, List.cons_append]
    unfold cutspace at ih ⊢
    rw [List.dropWhile_cons]
    simpa using ih

theorem cutspace_split (v : List Char) :
    ∃ k, v = List.replicate k ' ' ++ cutspace v := by
  induction v with
  | nil => exact ⟨0, rfl⟩
  | cons x xs ih =>
    by_cases hx : x = ' '
    · obtain ⟨k, hk⟩ := ih
      refine ⟨k + 1, ?_⟩
      subst hx
      have : cutspace (' ' :: xs) = cutspace xs := by simp [cutspace]
      rw [this, List.replicate_succ, List.cons_append, ← hk]
    · refine ⟨0, ?_⟩
      simp [cutspace, hx]

theorem isDig_ne_space (c : Char) (h : isDig c) : c ≠ ' ' := by
  intro hc
  rw [hc] at h
  exact absurd h (by decide)

/-- The parser on a text of the accepted form: the instant it returns. -/
theorem parse_of_parts (y1 y2 y3 y4 m1 m2 d1 d2 : Char) (k : Nat) (H : List Char)
    (i1 i2 s1 s2 : Char) (F : List Char) (L : Location) (ns : Int)
    (hy : isDig y1 ∧ isDig y2 ∧ isDig y3 ∧ isDig y4) (hm : isDig m1 ∧ isDig m2)
    (hd : isDig d1 ∧ isDig d2) (hi : isDig i1 ∧ isDig i2) (hs : isDig s1 ∧ isDig s2)
    (hH : (∃ h1, H = [h1] ∧ isDig h1) ∨ (∃ h1 h2, H = [h1, h2] ∧ isDig h1 ∧ isDig h2))
    (hF : getFraction F = some (ns, []))
    (rm : 1 ≤ numeral [m1, m2] ∧ numeral [m1, m2] ≤ 12)
    (rd : 1 ≤ numeral [d1, d2]
        ∧ numeral [d1, d2] ≤ daysIn (numeral [m1, m2]) (numeral [y1, y2, y3, y4]))
    (rh : numeral H ≤ 23) (ri : numeral [i1, i2] ≤ 59) (rs : numeral [s1, s2] ≤ 59) :
    parseInLocationYmdHis
        (y1 :: y2 :: y3 :: y4 :: '-' :: m1 :: m2 :: '-' :: d1 :: d2 :: ' ' ::
          (List.replicate k ' ' ++ (H ++ ':' :: i1 :: i2 :: ':' :: s1 :: s2 :: F))) L
      = some (Date (numeral [y1, y2, y3, y4]) (numeral [m1, m2]) (numeral [d1, d2])
          (numeral H) (numeral [i1, i2]) (numeral [s1, s2]) ns L) := by
  have e1 := parseDatePart_of y1 y2 y3 y4 m1 m2 d1 d2
    (' ' :: (List.replicate k ' ' ++ (H ++ ':' :: i1 :: i2 :: ':' :: s1 :: s2 :: F)))
    hy hm hd rm.1 rm.2
  obtain ⟨h1, Hr, hHh, hh1⟩ : ∃ h1 Hr, H = h1 :: Hr ∧ isDig h1 := by
    rcases hH with ⟨h1, rfl, d⟩ | ⟨h1, h2, rfl, d, _⟩
    · exact ⟨h1, [], rfl, d⟩
    · exact ⟨h1, [h2], rfl, d⟩
  have ecut : cutspace (List.replicate k ' ' ++ (H ++ ':' :: i1 :: i2 :: ':' :: s1 :: s2 :: F))
      = H ++ ':' :: i1 :: i2 :: ':' :: s1 :: s2 :: F := by
    rw [hHh, List.cons_append]
    exact cutspace_replicate k h1 _ (isDig_ne_space h1 hh1)
  have e2 : skip (' ' :: (List.replicate k ' ' ++ (H ++ ':' :: i1 :: i2 :: ':' :: s1 :: s2 :: F)))
      [' '] = some (H ++ ':' :: i1 :: i2 :: ':' :: s1 :: s2 :: F) :=
    (skip_space _ _).mpr (Or.inr ⟨_, rfl, ecut.symm⟩)
  have e3 := parseClockPart_of H i1 i2 s1 s2 F hH hi hs rh ri rs
  unfold parseInLocationYmdHis
  simp only [e1, e2, e3, hF]
  rw [if_neg (by simp), if_neg (by omega)]

/-- `time.ParseInLocation` with the layout of the package succeeds exactly on the
accepted texts. -/
theorem parse_some_iff (s : List Char) (L : Location) :
    (∃ t, parseInLocationYmdHis s L = some t) ↔ acceptedText s := by
  constructor
  · rintro ⟨t, h⟩
    unfold parseInLocationYmdHis at h
    cases h1 : parseDatePart s with
    | none => simp [h1] at h
    | some r1 =>
      obtain ⟨⟨y, m, d⟩, v1⟩ := r1
      simp only [h1] at h
      cases h2 : skip v1 [' '] with
      | none => simp [h2] at h
      | some v2 =>
        simp only [h2] at h
        cases h3 : parseClockPart v2 with
        | none => simp [h3] at h
        | some r3 =>
          obtain ⟨⟨hh, mi, sec⟩, v3⟩ := r3
          simp only [h3] at h
          cases h4 : getFraction v3 with
          | none => simp [h4] at h
          | some r4 =>
            obtain ⟨ns, v4⟩ := r4
            simp only [h4] at h
            split_ifs at h with c1 c2
            have hv4 : v4 = [] := by simpa using c1
            subst hv4
            obtain ⟨y1, y2, y3, y4, m1, m2, d1, d2, rfl, dy, dm, dd, rfl, rfl, rfl, lo, hi⟩ :=
              parseDatePart_inv _ _ _ _ _ h1
            obtain ⟨H, i1, i2, s1, s2, rfl, hH, di, ds, rfl, rfl, rfl, rh, ri, rs⟩ :=
              parseClockPart_inv _ _ _ _ _ h3
            have hF := (getFraction_end_iff v3).mp ⟨ns, h4⟩
            rcases (skip_space _ _).mp h2 with ⟨_, hnil⟩ | ⟨v', rfl, hcut⟩
            · exfalso
              rcases hH with ⟨_, rfl, _⟩ | ⟨_, _, rfl, _, _⟩ <;> simp at hnil
            · obtain ⟨k, hk⟩ := cutspace_split v'
              rw [← hcut] at hk
              refine ⟨y1, y2, y3, y4, m1, m2, d1, d2, k, H, i1, i2, s1, s2, v3, ?_, dy, dm, dd,
                di, ds, hH, hF, ⟨lo, hi⟩, ⟨by omega, by omega⟩, rh, ri, rs⟩
              rw [hk]
  · rintro ⟨y1, y2, y3, y4, m1, m2, d1, d2, k, H, i1, i2, s1, s2, F, rfl, dy, dm, dd, di, ds,
      hH, hF, rm, rd, rh, ri, rs⟩
    obtain ⟨ns, hns⟩ := (getFraction_end_iff F).mpr hF
    exact ⟨_, parse_of_parts y1 y2 y3 y4 m1 m2 d1 d2 k H i1 i2 s1 s2 F L ns dy dm dd di ds hH
      hns rm rd rh ri rs⟩

theorem Date_loc (y m d h mi s ns : Int) (L : Location) : (Date y m d h mi s ns L).loc = L := rfl

theorem parse_loc (s : List Char) (L : Location) (t : Time)
    (h : parseInLocationYmdHis s L = some t) :
    ∃ y m d hh mi sec ns, t = Date y m d hh mi sec ns L := by
  unfold parseInLocationYmdHis at h
  cases h1 : parseDatePart s with
  | none => simp [h1] at h
  | some r1 =>
    obtain ⟨⟨y, m, d⟩, v1⟩ := r1
    simp only [h1] at h
    cases h2 : skip v1 [' '] with
    | none => simp [h2] at h
    | some v2 =>
      simp only [h2] at h
      cases h3 : parseClockPart v2 with
      | none => simp [h3] at h
      | some r3 =>
        obtain ⟨⟨hh, mi, sec⟩, v3⟩ := r3
        simp only [h3] at h
        cases h4 : getFraction v3 with
        | none => simp [h4] at h
        | some r4 =>
          obtain ⟨ns, v4⟩ := r4
          simp only [h4] at h
          split_ifs at h
          exact ⟨y, m, d, hh, mi, sec, ns, (Option.some.inj h).symm⟩

theorem digitChar_digit : ∀ k, k < 10 →
    isDig (digitChar k) ∧ digitVal (digitChar k) = (k : Int) := by decide

/-! ## Lemmas on `Parse` of a string -/

theorem numeral_digits2 (x : Int) (h0 : 0 ≤ x) (h1 : x < 100) :
    (isDig (digitChar (x.natAbs / 10)) ∧ isDig (digitChar (x.natAbs % 10)))
    ∧ numeral [digitChar (x.natAbs / 10), digitChar (x.natAbs % 10)] = x := by
  obtain ⟨a1, a2⟩ := digitChar_digit (x.natAbs / 10) (by omega)
  obtain ⟨b1, b2⟩ := digitChar_digit (x.natAbs % 10) (by omega)
  refine ⟨⟨a1, b1⟩, ?_⟩
  simp only [numeral, List.foldl_cons, List.foldl_nil, a2, b2]
  omega

theorem numeral_digits4 (x : Int) (h0 : 0 ≤ x) (h1 : x < 10000) :
    (isDig (digitChar (x.natAbs / 1000)) ∧ isDig (digitChar (x.natAbs / 100 % 10))
      ∧ isDig (digitChar (x.natAbs / 10 % 10)) ∧ isDig (digitChar (x.natAbs % 10)))
    ∧ numeral [digitChar (x.natAbs / 1000), digitChar (x.natAbs / 100 % 10),
        digitChar (x.natAbs / 10 % 10), digitChar (x.natAbs % 10)] = x := by
  obtain ⟨a1, a2⟩ := digitChar_digit (x.natAbs / 1000) (by omega)
  obtain ⟨b1, b2⟩ := digitChar_digit (x.natAbs / 100 % 10) (by omega)
  obtain ⟨c1, c2⟩ := digitChar_digit (x.natAbs / 10 % 10) (by omega)
  obtain ⟨d1, d2⟩ := digitChar_digit (x.natAbs % 10) (by omega)
  refine ⟨⟨a1, b1, c1, d1⟩, ?_⟩
  simp only [numeral, List.foldl_cons, List.foldl_nil, a2, b2, c2, d2]
  omega

/-- `time.ParseInLocation` on the text `YYYY-MM-DD HH:MM:SS` of valid fields. -/
theorem parse_canonicalText (y m d h mi s : Int) (L : Location)
    (hy0 : 0 ≤ y) (hy1 : y ≤ 9999) (hv : validDate y m d)
    (hh : 0 ≤ h ∧ h ≤ 23) (hmi : 0 ≤ mi ∧ mi ≤ 59) (hs : 0 ≤ s ∧ s ≤ 59) :
    parseInLocationYmdHis (canonicalText y m d h mi s) L = some (Date y m d h mi s 0 L) := by
  obtain ⟨v1, v2, v3, v4⟩ := hv
  obtain ⟨_, b2⟩ := daysIn_bounds y m v1 v2
  obtain ⟨dy, ny⟩ := numeral_digits4 y hy0 (by omega)
  obtain ⟨dm, nm⟩ := numeral_digits2 m (by omega) (by omega)
  obtain ⟨dd, nd⟩ := numeral_digits2 d (by omega) (by omega)
  obtain ⟨dh, nh⟩ := numeral_digits2 h hh.1 (by omega)
  obtain ⟨di, ni⟩ := numeral_digits2 mi hmi.1 (by omega)
  obtain ⟨ds, nsec⟩ := numeral_digits2 s hs.1 (by omega)
  have hp := parse_of_parts _ _ _ _ _ _ _ _ 0 [digitChar (h.natAbs / 10), digitChar (h.natAbs % 10)]
    _ _ _ _ [] L 0 dy dm dd di ds (Or.inr ⟨_, _, rfl, dh.1, dh.2⟩) rfl
    (by rw [nm]; exact ⟨v1, v2⟩) (by rw [nd, nm, ny]; exact ⟨v3, v4⟩)
    (by rw [nh]; exact hh.2) (by rw [ni]; exact hmi.2) (by rw [nsec]; exact hs.2)
  rw [ny, nm, nd, nh, ni, nsec] at hp
  rw [← hp]
  unfold canonicalText
  rw [appendInt_four y hy0 (by omega), appendInt_two m (by omega) (by omega),
    appendInt_two d (by omega) (by omega), appendInt_two h hh.1 (by omega),
    appendInt_two mi hmi.1 (by omega), appendInt_two s hs.1 (by omega)]
  rfl

theorem Parse_string (w : World) (s : List Char) :
    Parse w (.string s)
      = match parseInLocationYmdHis s (GetLocation w) with
        | some t => .ok t
        | none => .error .parseError := rfl

/-! ## C11, C13: `Parse` of the other variants -/

set_option maxRecDepth 100000 in
/-- C11. `Parse` is decided by the type alone on the variants that are not parsed:
`Parse(nil)` is the zero `time.Time{}` (1 January of year 1, 00:00:00 UTC) without
error, `Parse(t)` of a `time.Time` is `t` itself without error, and a value of any
other type that is neither a string nor an `int` or `int64`, such as the float
3.14, gives the error "type not support". -/
theorem Parse_by_type (w : World) :
    Parse w .null = .ok zeroTime
    ∧ (zeroTime.Year = 1 ∧ zeroTime.Month = 1 ∧ zeroTime.Day = 1 ∧ zeroTime.Hour = 0
        ∧ zeroTime.Minute = 0 ∧ zeroTime.Second = 0 ∧ zeroTime.nsec = 0 ∧ zeroTime.loc = UTC)
    ∧ (∀ t : Time, Parse w (.time t) = .ok t)
    ∧ (∀ m e : Int, Parse w (.float64 m e) = .error .typeNotSupport)
    ∧ Parse w (.float64 314 (-2)) = .error .typeNotSupport
    ∧ (∀ typeName : String, Parse w (.other typeName) = .error .typeNotSupport) :=
  ⟨rfl, by decide, fun _ => rfl, fun _ _ => rfl, rfl, fun _ => rfl⟩

set_option maxRecDepth 100000 in
/-- C13, the code on a host whose `time.Local` is UTC+8 after `SetLocation(time.UTC)`.
`Parse(0)` returns `time.Unix(0, 0)`, which is presented in `time.Local`: its
location is UTC+8 and not the active Location UTC, and its `YmdHis` text is
`1970-01-01 08:00:00`, while epoch second 0 in the active Location is `1970-01-01
00:00:00`. The string branch of `Parse` does use the active Location. -/
theorem Parse_integer_location :
    GetLocation worldHostPlus8 = UTC
    ∧ Parse worldHostPlus8 (.int 0) = .ok ⟨0, 0, FixedZone 28800⟩
    ∧ Parse worldHostPlus8 (.int64 0) = .ok ⟨0, 0, FixedZone 28800⟩
    ∧ (⟨0, 0, FixedZone 28800⟩ : Time).loc ≠ GetLocation worldHostPlus8
    ∧ YmdHis plainFormat ⟨0, 0, FixedZone 28800⟩ = "1970-01-01 08:00:00".toList
    ∧ YmdHis plainFormat ⟨0, 0, GetLocation worldHostPlus8⟩ = "1970-01-01 00:00:00".toList
    ∧ Parse worldHostPlus8 (.string "1970-01-01 00:00:00".toList) = .ok ⟨0, 0, UTC⟩ := by
  decide

/-! ## C15: the active Location -/

theorem setLocations_pkgLocal (w : World) (calls : List (Option Location)) :
    (setLocations w calls).pkgLocal = (calls.getLast?).getD w.pkgLocal
    ∧ (setLocations w calls).timeLocal = w.timeLocal := by
  unfold setLocations
  induction calls generalizing w with
  | nil => exact ⟨rfl, rfl⟩
  | cons c cs ih =>
    obtain ⟨h1, h2⟩ := ih (SetLocation w c)
    rw [List.foldl_cons, h1, h2]
    refine ⟨?_, rfl⟩
    cases cs with
    | nil => rfl
    | cons c' cs' =>
      rw [List.getLast?_cons_cons]
      obtain ⟨x, hx⟩ : ∃ x, (c' :: cs').getLast? = some x :=
        ⟨_, List.getLast?_eq_getLast _ (by simp)⟩
      rw [hx]
      rfl

/-- C15. After any sequence of `SetLocation` calls from the start of the process,
the empty sequence and calls with a nil location included, `GetLocation` returns a
location and never the nil pointer: the last location set when the last call set
a non-nil one, and the host's `time.Local` otherwise. -/
theorem GetLocation_after_calls (timeLocal : Location) (clockSec : Int)
    (clockNsec : Fin 1000000000) (calls : List (Option Location)) :
    GetLocationPtr (setLocations (startWorld timeLocal clockSec clockNsec) calls)
        = some (GetLocation (setLocations (startWorld timeLocal clockSec clockNsec) calls))
    ∧ GetLocationPtr (setLocations (startWorld timeLocal clockSec clockNsec) calls) ≠ none
    ∧ GetLocation (setLocations (startWorld timeLocal clockSec clockNsec) calls)
        = (match calls.getLast? with
          | some (some l) => l
          | _ => timeLocal)
    ∧ GetLocation (startWorld timeLocal clockSec clockNsec) = timeLocal := by
  obtain ⟨h1, h2⟩ := setLocations_pkgLocal (startWorld timeLocal clockSec clockNsec) calls
  have hp : GetLocationPtr (setLocations (startWorld timeLocal clockSec clockNsec) calls)
      = some (GetLocation (setLocations (startWorld timeLocal clockSec clockNsec) calls)) := by
    unfold GetLocationPtr GetLocation
    cases (setLocations (startWorld timeLocal clockSec clockNsec) calls).pkgLocal <;> rfl
  refine ⟨hp, by rw [hp]; simp, ?_, rfl⟩
  unfold GetLocation
  rw [h1, h2]
  cases hl : calls.getLast? with
  | none => rfl
  | some c => cases c <;> rfl

/-! ## C16: no run-time failure -/

theorem String_length (t : Time) : 19 ≤ t.String.length := by
  have h := (textYmdHis_plain t).2
  unfold Time.String
  simp only [List.length_append]
  omega

theorem sliceChecked_some (s : List Char) (i j : Nat) (hij : i ≤ j) (hj : j ≤ s.length) :
    sliceChecked s i j = some (slice s i j) := by
  unfold sliceChecked
  rw [if_pos ⟨hij, hj⟩]

theorem formatTableChecked_some (s : List Char) (h : 19 ≤ s.length) :
    formatTableChecked s = some (formatTable s) := by
  unfold formatTableChecked formatTable
  rw [sliceChecked_some s 0 4 (by omega) (by omega),
    sliceChecked_some s 2 4 (by omega) (by omega),
    sliceChecked_some s 5 7 (by omega) (by omega),
    sliceChecked_some s 8 10 (by omega) (by omega),
    sliceChecked_some s 11 13 (by omega) (by omega),
    sliceChecked_some s 14 16 (by omega) (by omega),
    sliceChecked_some s 17 19 (by omega) (by omega)]
  rfl

theorem regexpCompile_token (c : Char) (h : c ∈ tokenLetters) :
    regexpCompile [c, '+'] = some c := by
  have hall : ∀ x ∈ tokenLetters, regexpCompile [x, '+'] = some x := by decide
  exact hall c h

theorem foldlM_checked (t : Time) (order : List Char) (p : List Char) :
    order.foldlM
        (fun fmtStr k =>
          match (formatTable t.String).lookup k with
          | some v => (regexpCompile [k, '+']).map fun c => ReplaceAllString c fmtStr v
          | none => some fmtStr)
        p
      = some (order.foldl
        (fun fmtStr k =>
          match (formatTable t.String).lookup k with
          | some v => ReplaceAllString k fmtStr v
          | none => fmtStr)
        p) := by
  induction order generalizing p with
  | nil => rfl
  | cons k ks ih =>
    rw [List.foldlM_cons, List.foldl_cons]
    cases hk : (formatTable t.String).lookup k with
    | none =>
      simp only [Option.some_bind]
      exact ih p
    | some v =>
      have hmem : k ∈ tokenLetters := by
        by_contra hc
        have := (codeValue_none_iff t k).mpr hc
        rw [← lookup_formatTable, hk] at this
        exact Option.noConfusion this
      simp only [regexpCompile_token k hmem, Option.map_some', Option.some_bind]
      exact ih _

/-- C16. `Format` never fails: for every instant `t` (of any year), every pattern
`p` (the empty one included) and every order of visit of the map, the text
`t.String()` has at least 19 characters, so that each of the seven slices is within
bounds, each of the seven expressions `Y+`, ..., `s+` compiles, and `Format` with
its run-time checks returns the string that `Format` computes. The boundary
functions have no error result; the one primitive of theirs that can fail is
`time.Date`, on a nil Location, and it is always called with `GetLocation()`, which
is never nil. -/
theorem Format_total (tf : TimeFormat) (order : List Char) (t : Time) (p : List Char)
    (w : World) :
    19 ≤ t.String.length
    ∧ formatTableChecked t.String = some (formatTable t.String)
    ∧ tokenLetters.map (fun c => regexpCompile [c, '+']) = tokenLetters.map some
    ∧ FormatChecked tf order t p = some (Format tf order t p)
    ∧ FormatChecked tf order t [] = some (tf.format t [])
    ∧ (∀ y m d h mi s : Int,
        DateChecked y m d h mi s 0 (GetLocationPtr w)
          = some (Date y m d h mi s 0 (GetLocation w))) := by
  have hl := String_length t
  have hT := formatTableChecked_some t.String hl
  refine ⟨hl, hT, by decide, ?_, rfl, ?_⟩
  · unfold FormatChecked Format
    by_cases hm : matchTokens p = true
    · rw [hm, hT]
      simp only [Bool.not_true, Bool.false_eq_true, if_false, Option.some_bind]
      exact foldlM_checked t order p
    · rw [Bool.not_eq_true] at hm
      rw [hm]
      simp
  · intro y m d h mi s
    unfold DateChecked GetLocationPtr GetLocation
    cases w.pkgLocal <;> rfl

/-! ## C18: the order of the substitutions -/

/-- C18. The result of `Format` does not depend on the order in which the seven
keys of the map are visited: for every instant `t`, every pattern `p` and every two
orders of visit, the two results are the same string. -/
theorem Format_order_independent (tf : TimeFormat) (o1 o2 : List Char) (t : Time)
    (p : List Char) (h1 : visitOrder o1) (h2 : visitOrder o2) :
    Format tf o1 t p = Format tf o2 t p := by
  by_cases hm : matchTokens p = true
  · rw [Format_eq_substRuns tf o1 t p h1 hm, Format_eq_substRuns tf o2 t p h2 hm]
  · rw [Bool.not_eq_true] at hm
    unfold Format
    rw [hm]
    rfl

set_option maxRecDepth 100000 in
/-- C18, witness: the keys visited in the order of the source text, and in the
opposite order. -/
theorem Format_order_independent_witness :
    visitOrder tokenLetters ∧ visitOrder tokenLetters.reverse
    ∧ Format plainFormat tokenLetters tFeb2020 "YY/m/d H.i.s yy".toList
      = Format plainFormat tokenLetters.reverse tFeb2020 "YY/m/d H.i.s yy".toList :=
  ⟨List.Perm.refl _, List.reverse_perm _,
    Format_order_independent plainFormat tokenLetters tokenLetters.reverse tFeb2020 _
      (List.Perm.refl _) (List.reverse_perm _)⟩

/-! ## Lemmas on the dates of a year -/

/-- The day counts of the dates that bound the year, the month and the day of a
valid date. -/
theorem civilDays_nest (y m d : Int) (hv : validDate y m d) :
    civilDays y 1 1 ≤ civilDays y m 1 ∧ civilDays y m 1 ≤ civilDays y m d
    ∧ civilDays y m d ≤ civilDays y m (daysIn m y)
    ∧ civilDays y m (daysIn m y) ≤ civilDays y 12 31 := by
  obtain ⟨h1, h2, h3, h4⟩ := hv
  obtain ⟨v0, _, _, _⟩ := daysBefore_vals
  have hadj : ∀ k : Int, 0 ≤ (if isLeap y = true ∧ k ≥ 3 then (1 : Int) else 0)
      ∧ (if isLeap y = true ∧ k ≥ 3 then (1 : Int) else 0) ≤ 1 := by
    intro k; split_ifs <;> omega
  have hadj1 : (if isLeap y = true ∧ (1 : Int) ≥ 3 then (1 : Int) else 0) = 0 := by
    rw [if_neg (by omega)]
  have l1 := daysBefore_le 0 (m - 1) (by omega) (by omega) (by omega)
  have e0 : daysBefore (1 - 1) = 0 := v0
  have c1 : civilDays y 1 1 ≤ civilDays y m 1 := by
    unfold civilDays
    rw [e0, hadj1]
    have := hadj m
    omega
  have c2 : civilDays y m 1 ≤ civilDays y m d := by
    unfold civilDays; omega
  have c3 : civilDays y m d ≤ civilDays y m (daysIn m y) := by
    unfold civilDays; omega
  refine ⟨c1, c2, c3, ?_⟩
  by_cases h12 : m = 12
  · subst h12
    have e3 : daysIn 12 y = 31 := by
      unfold daysIn
      rw [if_neg (by omega)]
      decide
    rw [e3]
  · have hn := civilDays_next_month y m h1 h2
    have e1 : y + m / 12 = y := by omega
    have e2 : m % 12 + 1 = m + 1 := by omega
    rw [e1, e2] at hn
    have hadd := civilDays_add y m 1 (daysIn m y - 1)
    have e : (1 : Int) + (daysIn m y - 1) = daysIn m y := by ring
    rw [e] at hadd
    have l4 := daysBefore_le m 11 (by omega) (by omega) (by omega)
    have hb : civilDays y (m + 1) 1 ≤ civilDays y 12 31 := by
      unfold civilDays
      have e5 : m + 1 - 1 = m := by ring
      have e6 : (12 : Int) - 1 = 11 := by norm_num
      rw [e5, e6]
      have a1 := hadj (m + 1)
      have a2 := hadj 12
      omega
    omega

/-! ## Lemmas on the 64-bit counters -/

theorem wrap64_of_range (x : Int) (h0 : -(2 ^ 63) ≤ x) (h1 : x < 2 ^ 63) : wrap64 x = x := by
  unfold wrap64
  norm_num at h0 h1 ⊢
  omega

theorem wrap64_range (x : Int) : -(2 ^ 63) ≤ wrap64 x ∧ wrap64 x < 2 ^ 63 := by
  unfold wrap64
  norm_num
  omega

/-- Every offset that a lookup returns is an offset of the table. -/
theorem lookupFrom_offset (off start : Int) (tx : List (Int × Int)) (v : Int) (B : Int)
    (h0 : -B ≤ off ∧ off ≤ B) (h : ∀ x ∈ tx, -B ≤ x.2 ∧ x.2 ≤ B) :
    -B ≤ (lookupFrom off start tx v).1 ∧ (lookupFrom off start tx v).1 ≤ B := by
  induction tx generalizing off start with
  | nil => exact h0
  | cons x rest ih =>
    obtain ⟨w, o⟩ := x
    unfold lookupFrom
    by_cases hv : v < w
    · rw [if_pos hv]; exact h0
    · rw [if_neg hv]
      exact ih o w (h (w, o) (List.mem_cons_self _ _))
        (fun y hy => h y (List.mem_cons_of_mem _ hy))

theorem offsetAt_bound (l : Location) (hr : l.regular) (v : Int) :
    -86400 ≤ l.offsetAt v ∧ l.offsetAt v ≤ 86400 :=
  lookupFrom_offset l.offset alpha l.tx v 86400 hr.1 hr.2.1

theorem spaced_cons (a b : Int × Int) (rest : List (Int × Int))
    (h : spaced (a :: b :: rest) = true) : a.1 + 345600 ≤ b.1 ∧ spaced (b :: rest) = true := by
  unfold spaced at h
  simpa using h

theorem spaced_tail (a : Int × Int) (rest : List (Int × Int)) (h : spaced (a :: rest) = true) :
    spaced rest = true := by
  cases rest with
  | nil => rfl
  | cons b rest => exact (spaced_cons a b rest h).2

/-- In a table whose transitions are more than `2 * R` apart, the seconds from
`c - R` to `c + R` see at most one transition. -/
theorem lookup_window (tx : List (Int × Int)) (off start c R : Int)
    (hc : spaced tx = true) (hG : 2 * R < 345600)
    (hs : start ≤ c - R) (ho : c + R < omega) :
    (∃ o s e, s ≤ c - R ∧ c + R < e
      ∧ ∀ v, c - R ≤ v → v ≤ c + R → lookupFrom off start tx v = (o, s, e))
    ∨ (∃ p q s e τ, c - R < τ ∧ τ ≤ c + R ∧ s ≤ c - R ∧ c + R < e
      ∧ (∀ v, c - R ≤ v → v < τ → lookupFrom off start tx v = (p, s, τ))
      ∧ (∀ v, τ ≤ v → v ≤ c + R → lookupFrom off start tx v = (q, τ, e))) := by
  induction tx generalizing off start with
  | nil =>
    left
    exact ⟨off, start, omega, hs, ho, fun v _ _ => rfl⟩
  | cons x rest ih =>
    obtain ⟨w, o⟩ := x
    by_cases h1 : c + R < w
    · left
      refine ⟨off, start, w, hs, h1, fun v _ hv => ?_⟩
      unfold lookupFrom
      rw [if_pos (by omega)]
    · by_cases h2 : w ≤ c - R
      · rcases ih o w (spaced_tail _ _ hc) h2 with ⟨o', s, e, a1, a2, a3⟩ | ⟨p, q, s, e, τ, a1, a2, a3, a4, a5, a6⟩
        · left
          refine ⟨o', s, e, a1, a2, fun v hv1 hv2 => ?_⟩
          have := a3 v hv1 hv2
          rw [← this]
          conv_lhs => unfold lookupFrom
          rw [if_neg (by omega)]
        · right
          refine ⟨p, q, s, e, τ, a1, a2, a3, a4, fun v hv1 hv2 => ?_, fun v hv1 hv2 => ?_⟩
          · rw [← a5 v hv1 hv2]
            conv_lhs => unfold lookupFrom
            rw [if_neg (by omega)]
          · rw [← a6 v hv1 hv2]
            conv_lhs => unfold lookupFrom
            rw [if_neg (by omega)]
      · right
        cases rest with
        | nil =>
          refine ⟨off, o, start, omega, w, by omega, by omega, hs, ho,
            fun v _ hv => ?_, fun v hv _ => ?_⟩
          · unfold lookupFrom
            rw [if_pos hv]
          · unfold lookupFrom
            rw [if_neg (by omega)]
            rfl
        | cons x2 rest2 =>
          obtain ⟨w2, o2⟩ := x2
          have hw : w + 345600 ≤ w2 := (spaced_cons _ _ _ hc).1
          refine ⟨off, o, start, w2, w, by omega, by omega, hs, by omega,
            fun v _ hv => ?_, fun v hv hv2 => ?_⟩
          · unfold lookupFrom
            rw [if_pos hv]
          · unfold lookupFrom
            rw [if_neg (by omega)]
            unfold lookupFrom
            rw [if_pos (by omega)]

theorem lookup_eq (l : Location) (v : Int) : l.lookup v = lookupFrom l.offset alpha l.tx v := rfl

theorem zoneShift_of (l : Location) (W b s e b2 : Int) (hW : l.lookup W = (b, s, e))
    (hb : -86400 ≤ b ∧ b ≤ 86400) (hb2 : -86400 ≤ b2 ∧ b2 ≤ 86400)
    (h0 : -(2 ^ 63) + 172800 ≤ W) (h1 : W ≤ 2 ^ 63 - 1 - 172800)
    (h2 : (s ≤ W - b ∧ W - b < e ∧ b2 = b) ∨ ((W - b < s ∨ e ≤ W - b) ∧ (l.lookup (W - b)).1 = b2)) :
    zoneShift l W = W - b2 := by
  have e1 : wrap64 (W - b) = W - b := wrap64_of_range _ (by omega) (by omega)
  have e2 : wrap64 (W - b2) = W - b2 := wrap64_of_range _ (by omega) (by omega)
  unfold zoneShift
  simp only [hW, e1]
  by_cases hz : b = 0
  · rw [if_neg (by simpa using hz)]
    rcases h2 with ⟨_, _, h⟩ | ⟨_, h⟩
    · omega
    · subst hz
      rw [sub_zero, hW] at h
      simp only at h
      omega
  · rw [if_pos hz]
    rcases h2 with ⟨ha, hb', hc⟩ | ⟨ha, hc⟩
    · rw [if_neg (by omega), e1, hc]
    · rw [if_pos (by omega), hc, e2]

/-- In a regular zone, `time.Date` finds an instant at which the clocks show the
reading asked for, whenever there is one. -/
theorem zoneShift_shows (l : Location) (hr : l.regular) (W : Int)
    (h0 : -(2 ^ 63) + 172800 ≤ W) (h1 : W ≤ 2 ^ 63 - 1 - 172800) (hex : l.shows W) :
    l.showsAt (zoneShift l W) W := by
  obtain ⟨u, hu0, hu1, hu⟩ := hex
  have hbd := offsetAt_bound l hr
  have hbu := hbd u
  have hom : W + 86400 < omega := by unfold omega; omega
  have hal : alpha ≤ W - 86400 := by unfold alpha; omega
  unfold Location.offsetAt at hbd hbu hu
  rw [lookup_eq] at hbu hu
  rcases lookup_window l.tx l.offset alpha W 86400 hr.2.2 (by norm_num) hal hom with
    ⟨o, s, e, a1, a2, a3⟩ | ⟨p, q, s, e, τ, a1, a2, a3, a4, a5, a6⟩
  · have hW := a3 W (by omega) (by omega)
    rw [← lookup_eq] at hW
    have ho := hbd W
    rw [hW] at ho
    simp only at ho
    have hz := zoneShift_of l W o s e o hW ho ho h0 h1 (Or.inl ⟨by omega, by omega, rfl⟩)
    have hr' := a3 (W - o) (by omega) (by omega)
    rw [← lookup_eq] at hr'
    unfold Location.showsAt Location.offsetAt
    rw [hz, hr']
    exact ⟨by omega, by omega, by simp⟩
  · have hp : -86400 ≤ p ∧ p ≤ 86400 := by
      have := hbd (W - 86400)
      rw [lookup_eq, a5 _ (by omega) (by omega)] at this
      exact this
    have hq : -86400 ≤ q ∧ q ≤ 86400 := by
      have := hbd (W + 86400)
      rw [lookup_eq, a6 _ (by omega) (by omega)] at this
      exact this
    have hup : u < τ → u = W - p := by
      intro h
      have hb' := hbu
      rw [a5 u (by omega) h] at hu hb'
      simp only at hu hb'
      omega
    have huq : τ ≤ u → u = W - q := by
      intro h
      have hb' := hbu
      rw [a6 u h (by omega)] at hu hb'
      simp only at hu hb'
      omega
    unfold Location.showsAt Location.offsetAt
    by_cases hWτ : W < τ
    · have hW := a5 W (by omega) hWτ
      rw [← lookup_eq] at hW
      by_cases h3 : W - p < τ
      · have hz := zoneShift_of l W p s τ p hW hp hp h0 h1 (Or.inl ⟨by omega, h3, rfl⟩)
        rw [hz, lookup_eq, a5 _ (by omega) h3]
        exact ⟨by omega, by omega, by simp⟩
      · have hl : (l.lookup (W - p)).1 = q := by
          rw [lookup_eq, a6 _ (by omega) (by omega)]
        have hz := zoneShift_of l W p s τ q hW hp hq h0 h1 (Or.inr ⟨Or.inr (by omega), hl⟩)
        have hge : τ ≤ W - q := by
          by_cases hul : u < τ
          · have := hup hul
            omega
          · have := huq (by omega)
            omega
        rw [hz, lookup_eq, a6 _ hge (by omega)]
        exact ⟨by omega, by omega, by simp⟩
    · have hW := a6 W (by omega) (by omega)
      rw [← lookup_eq] at hW
      by_cases h3 : τ ≤ W - q
      · have hz := zoneShift_of l W q τ e q hW hq hq h0 h1 (Or.inl ⟨h3, by omega, rfl⟩)
        rw [hz, lookup_eq, a6 _ h3 (by omega)]
        exact ⟨by omega, by omega, by simp⟩
      · have hl : (l.lookup (W - q)).1 = p := by
          rw [lookup_eq, a5 _ (by omega) (by omega)]
        have hz := zoneShift_of l W q τ e p hW hq hp h0 h1 (Or.inr ⟨Or.inl (by omega), hl⟩)
        have hlt : W - p < τ := by
          by_cases hul : u < τ
          · have := hup hul
            omega
          · have := huq (by omega)
            omega
        rw [hz, lookup_eq, a5 _ (by omega) hlt]
        exact ⟨by omega, by omega, by simp⟩

theorem regular_fixed (l : Location) (h : l.tx = []) (h0 : -86400 ≤ l.offset)
    (h1 : l.offset ≤ 86400) : l.regular := by
  unfold Location.regular
  rw [h]
  exact ⟨⟨h0, h1⟩, fun x hx => absurd hx (List.not_mem_nil _), rfl⟩

theorem offsetAt_fixed (l : Location) (h : l.tx = []) (u : Int) : l.offsetAt u = l.offset := by
  unfold Location.offsetAt
  rw [lookup_fixed l h]

/-- The clocks of a fixed zone show every reading, once. -/
theorem showsOnce_fixed (l : Location) (h : l.tx = []) (W : Int)
    (h0 : -(2 ^ 63) ≤ W - l.offset) (h1 : W - l.offset < 2 ^ 63) : l.showsOnce W := by
  refine ⟨W - l.offset, ⟨h0, h1, ?_⟩, ?_⟩
  · rw [offsetAt_fixed l h]; ring
  · rintro v ⟨_, _, hv⟩
    rw [offsetAt_fixed l h] at hv
    omega

theorem shows_of_once (l : Location) (W : Int) (h : l.showsOnce W) : l.shows W := by
  obtain ⟨u, hu, _⟩ := h
  exact ⟨u, hu⟩

/-- Go `time.Date` on a month, hour, minute and second within their ranges. -/
theorem Date_normal (y m d h mi s : Int) (L : Location) (hm : 1 ≤ m ∧ m ≤ 12)
    (hh : 0 ≤ h ∧ h < 24) (hmi : 0 ≤ mi ∧ mi < 60) (hs : 0 ≤ s ∧ s < 60) :
    Date y m d h mi s 0 L = ⟨zoneShift L (wrap64 (wallSec y m d h mi s)), 0, L⟩ := by
  have e1 : (m - 1) / 12 = 0 := by omega
  have e2 : (m - 1) % 12 = m - 1 := by omega
  have e3 : s / 60 = 0 := by omega
  have e4 : s % 60 = s := by omega
  have e5 : mi / 60 = 0 := by omega
  have e6 : mi % 60 = mi := by omega
  have e7 : h / 24 = 0 := by omega
  have e8 : h % 24 = h := by omega
  unfold Date zoneShift wallSec
  simp only [norm_eq _ _ 12 (by norm_num), norm_eq _ _ 1000000000 (by norm_num),
    norm_eq _ _ 60 (by norm_num), norm_eq _ _ 24 (by norm_num), e1, e2, e3, e4, e5, e6, e7, e8,
    Int.zero_ediv, Int.zero_emod, add_zero, sub_add_cancel, mkNsec_zero]

/-- The seconds of the wall clock reading of an instant whose reading lies in the
range of the counters. -/
theorem abs_exact (t : Time) (h0 : -86400 ≤ (t.loc.lookup t.unixSec).1)
    (h1 : (t.loc.lookup t.unixSec).1 ≤ 86400)
    (hs : -internalToAbsolute ≤ t.abs ∧ t.abs ≤ 2 ^ 63 - 1 - 172800) :
    t.abs = t.unixSec + (t.loc.lookup t.unixSec).1 + unixToInternal
    ∧ t.ext = t.unixSec + unixToInternal := by
  have hr := wrap64_range t.sec
  unfold Time.ext
  unfold Time.abs at hs ⊢
  unfold Time.unixSec at *
  generalize (t.loc.lookup (wrap64 t.sec)).1 = o at *
  unfold wrap64 internalToAbsolute unixToInternal at *
  norm_num at *
  omega

/-- The instant that `time.Date` returns in a regular zone for a reading that the
clocks of the zone show and that lies in the range of the counters: the clocks
show the reading at that instant. -/
theorem Date_reading (y m d h mi s : Int) (L : Location) (hr : L.regular)
    (hm : 1 ≤ m ∧ m ≤ 12) (hh : 0 ≤ h ∧ h < 24) (hmi : 0 ≤ mi ∧ mi < 60) (hs : 0 ≤ s ∧ s < 60)
    (h0 : -internalToAbsolute + 345600 ≤ civilDays y m d * 86400 + (h * 3600 + mi * 60 + s))
    (h1 : civilDays y m d * 86400 + (h * 3600 + mi * 60 + s) ≤ 2 ^ 63 - 1 - 345600)
    (hex : L.shows (wallSec y m d h mi s)) :
    L.showsAt (Date y m d h mi s 0 L).sec (wallSec y m d h mi s)
    ∧ (Date y m d h mi s 0 L).unixSec = (Date y m d h mi s 0 L).sec
    ∧ (Date y m d h mi s 0 L).ext = (Date y m d h mi s 0 L).sec + unixToInternal
    ∧ (Date y m d h mi s 0 L).abs = civilDays y m d * 86400 + (h * 3600 + mi * 60 + s)
    ∧ (Date y m d h mi s 0 L).nsec = 0 ∧ (Date y m d h mi s 0 L).loc = L := by
  have hW : wallSec y m d h mi s
      = civilDays y m d * 86400 + (h * 3600 + mi * 60 + s) - unixToInternal := rfl
  have hA : internalToAbsolute = 9223371966579724800 := rfl
  have hU : unixToInternal = 62135596800 := rfl
  have hw0 : -(2 ^ 63) + 172800 ≤ wallSec y m d h mi s := by
    rw [hW]; norm_num; omega
  have hw1 : wallSec y m d h mi s ≤ 2 ^ 63 - 1 - 172800 := by
    rw [hW]; norm_num at h1 ⊢; omega
  have e : wrap64 (wallSec y m d h mi s) = wallSec y m d h mi s :=
    wrap64_of_range _ (by omega) (by omega)
  have hsh := zoneShift_shows L hr _ hw0 hw1 hex
  rw [Date_normal y m d h mi s L hm hh hmi hs, e]
  obtain ⟨s0, s1, s2⟩ := hsh
  have hb := offsetAt_bound L hr (zoneShift L (wallSec y m d h mi s))
  have eu : wrap64 (zoneShift L (wallSec y m d h mi s)) = zoneShift L (wallSec y m d h mi s) :=
    wrap64_of_range _ s0 s1
  unfold Location.offsetAt at s2 hb
  refine ⟨⟨s0, s1, s2⟩, eu, ?_, ?_, rfl, rfl⟩
  · unfold Time.ext
    simp only
    rw [wrap64_of_range]
    · rw [hU]; norm_num; omega
    · rw [hU]; norm_num at h1 hw1 ⊢; omega
  · unfold Time.abs Time.unixSec
    simp only
    rw [eu]
    norm_num at h1 ⊢
    omega

theorem daysSinceEpoch_mono (y y' : Int) (h : y ≤ y') : daysSinceEpoch y ≤ daysSinceEpoch y' := by
  rcases lt_or_eq_of_le h with h | h
  · have := daysSinceEpoch_lt y y' h
    have hy : 365 ≤ yearLen y := by unfold yearLen; split_ifs <;> omega
    omega
  · rw [h]

/-- The seconds of every reading of the years `minYear` to `maxYear` lie well
within the range of the counters. -/
theorem year_safe (y m d tod : Int) (hy0 : minYear ≤ y) (hy1 : y ≤ maxYear)
    (hv : validDate y m d) (ht0 : 0 ≤ tod) (ht1 : tod < 86400) :
    -internalToAbsolute + 345600 ≤ civilDays y m d * 86400 + tod
    ∧ civilDays y m d * 86400 + tod ≤ 2 ^ 63 - 1 - 345600 := by
  obtain ⟨n1, n2, n3, n4⟩ := civilDays_nest y m d hv
  have m0 := daysSinceEpoch_mono _ _ hy0
  have m1 := daysSinceEpoch_mono _ _ hy1
  have c0 : daysSinceEpoch minYear = -106751990353567 := by
    rw [daysSinceEpoch_eq]; unfold minYear; norm_num
  have c1 : daysSinceEpoch maxYear = 106751991166596 := by
    rw [daysSinceEpoch_eq]; unfold maxYear; norm_num
  have hA : internalToAbsolute = 9223371966579724800 := rfl
  have e1 : civilDays y 1 1 = daysSinceEpoch y := by
    unfold civilDays
    rw [if_neg (by omega)]
    have : daysBefore (1 - 1) = 0 := by decide
    rw [this]; ring
  have e2 : civilDays y 12 31 ≤ daysSinceEpoch y + 365 := by
    unfold civilDays
    have : daysBefore (12 - 1) = 334 := by decide
    rw [this]
    split_ifs <;> omega
  rw [hA]
  norm_num
  omega

/-- In a regular zone, the one instant of a reading `W0` is not after an instant
whose reading is `W0` or up to a day later. -/
theorem shows_le_of_once (l : Location) (hr : l.regular) (W0 Wt u0 ut : Int)
    (h0 : l.showsAt u0 W0) (ht : l.showsAt ut Wt) (hun : ∀ v, l.showsAt v W0 → v = u0)
    (h1 : W0 ≤ Wt) (h2 : Wt ≤ W0 + 86399)
    (r0 : -(2 ^ 63) + 345600 ≤ W0) (r1 : W0 ≤ 2 ^ 63 - 1 - 345600) : u0 ≤ ut := by
  obtain ⟨a0, a1, a2⟩ := h0
  obtain ⟨b0, b1, b2⟩ := ht
  have hbd := offsetAt_bound l hr
  have hb0 := hbd u0
  have hbt := hbd ut
  unfold Location.offsetAt at hbd hb0 hbt a2 b2
  rw [lookup_eq] at hb0 hbt a2 b2
  have hom : (W0 + 43200) + 129600 < omega := by unfold omega; omega
  have hal : alpha ≤ (W0 + 43200) - 129600 := by unfold alpha; omega
  by_contra hc
  rw [not_le] at hc
  rcases lookup_window l.tx l.offset alpha (W0 + 43200) 129600 hr.2.2 (by norm_num)
    hal hom with ⟨o, s, e, c1, c2, c3⟩ | ⟨p, q, s, e, τ, c1, c2, c3, c4, c5, c6⟩
  · have e0 := c3 u0 (by omega) (by omega)
    rw [e0] at a2 hb0
    have e1 := c3 ut (by omega) (by omega)
    rw [e1] at b2 hbt
    simp only at a2 b2 hb0 hbt
    omega
  · have hlt : ut < τ := by
      by_contra h
      rw [not_lt] at h
      have e2 := c6 ut h (by omega)
      rw [e2] at b2 hbt
      have e3 := c6 u0 (by omega) (by omega)
      rw [e3] at a2 hb0
      simp only at a2 b2 hb0 hbt
      omega
    have hge : τ ≤ u0 := by
      by_contra h
      rw [not_le] at h
      have e4 := c5 ut (by omega) hlt
      rw [e4] at b2 hbt
      have e5 := c5 u0 (by omega) h
      rw [e5] at a2 hb0
      simp only at a2 b2 hb0 hbt
      omega
    have e6 := c5 ut (by omega) hlt
    rw [e6] at b2 hbt
    simp only at b2 hbt
    have hv : l.showsAt (W0 - p) W0 := by
      refine ⟨by omega, by omega, ?_⟩
      unfold Location.offsetAt
      rw [lookup_eq, c5 (W0 - p) (by omega) (by omega)]
      simp
    have := hun _ hv
    omega

/-- In a regular zone, the one instant of a reading `W1` is not before an instant
whose reading is `W1` or up to a day earlier. -/
theorem shows_ge_of_once (l : Location) (hr : l.regular) (W1 Wt u1 ut : Int)
    (h0 : l.showsAt u1 W1) (ht : l.showsAt ut Wt) (hun : ∀ v, l.showsAt v W1 → v = u1)
    (h1 : Wt ≤ W1) (h2 : W1 ≤ Wt + 86399)
    (r0 : -(2 ^ 63) + 345600 ≤ W1) (r1 : W1 ≤ 2 ^ 63 - 1 - 345600) : ut ≤ u1 := by
  obtain ⟨a0, a1, a2⟩ := h0
  obtain ⟨b0, b1, b2⟩ := ht
  have hbd := offsetAt_bound l hr
  have hb0 := hbd u1
  have hbt := hbd ut
  unfold Location.offsetAt at hbd hb0 hbt a2 b2
  rw [lookup_eq] at hb0 hbt a2 b2
  have hom : (W1 - 43200) + 129600 < omega := by unfold omega; omega
  have hal : alpha ≤ (W1 - 43200) - 129600 := by unfold alpha; omega
  by_contra hc
  rw [not_le] at hc
  rcases lookup_window l.tx l.offset alpha (W1 - 43200) 129600 hr.2.2 (by norm_num)
    hal hom with ⟨o, s, e, c1, c2, c3⟩ | ⟨p, q, s, e, τ, c1, c2, c3, c4, c5, c6⟩
  · have e0 := c3 u1 (by omega) (by omega)
    rw [e0] at a2 hb0
    have e7 := c3 ut (by omega) (by omega)
    rw [e7] at b2 hbt
    simp only at a2 b2 hb0 hbt
    omega
  · have hlt : u1 < τ := by
      by_contra h
      rw [not_lt] at h
      have e8 := c6 u1 h (by omega)
      rw [e8] at a2 hb0
      have e9 := c6 ut (by omega) (by omega)
      rw [e9] at b2 hbt
      simp only at a2 b2 hb0 hbt
      omega
    have hge : τ ≤ ut := by
      by_contra h
      rw [not_le] at h
      have e10 := c5 u1 (by omega) hlt
      rw [e10] at a2 hb0
      have e11 := c5 ut (by omega) h
      rw [e11] at b2 hbt
      simp only at a2 b2 hb0 hbt
      omega
    have e12 := c6 ut hge (by omega)
    rw [e12] at b2 hbt
    simp only at b2 hbt
    have hv : l.showsAt (W1 - q) W1 := by
      refine ⟨by omega, by omega, ?_⟩
      unfold Location.offsetAt
      rw [lookup_eq, c6 (W1 - q) (by omega) (by omega)]
      simp
    have := hun _ hv
    omega

/-! ## C3: the boundaries of the day -/

theorem Time_le_of_ext (a b : Time) (h : a.ext ≤ b.ext) (hn : a.nsec = 0) : a.le b := by
  unfold Time.le Time.Before
  rw [hn]
  intro hc
  rcases hc with hc | ⟨_, hc⟩
  · omega
  · exact absurd hc (Fin.not_lt_zero _)

/-- The reading of an instant of the years `minYear` to `maxYear`, presented in a
regular zone, and its counters. -/
theorem reading_of_year (t : Time) (hr : t.loc.regular) (hy0 : minYear ≤ t.Year)
    (hy1 : t.Year ≤ maxYear) :
    t.loc.showsAt t.unixSec (t.abs - unixToInternal)
    ∧ t.ext = t.unixSec + unixToInternal
    ∧ t.abs = civilDays t.Year t.Month t.Day * 86400 + t.abs % 86400
    ∧ 0 ≤ t.abs % 86400 ∧ t.abs % 86400 < 86400 := by
  obtain ⟨hv, hd⟩ := date_valid t
  have hm0 : 0 ≤ t.abs % 86400 := by omega
  have hm1 : t.abs % 86400 < 86400 := by omega
  have hs := year_safe t.Year t.Month t.Day (t.abs % 86400) hy0 hy1 hv hm0 hm1
  have hab : t.abs = civilDays t.Year t.Month t.Day * 86400 + t.abs % 86400 := by omega
  rw [← hab] at hs
  have hb := offsetAt_bound t.loc hr t.unixSec
  unfold Location.offsetAt at hb
  obtain ⟨e1, e2⟩ := abs_exact t hb.1 hb.2 ⟨by omega, by omega⟩
  have hrg := wrap64_range t.sec
  refine ⟨⟨hrg.1, hrg.2, ?_⟩, e2, hab, hm0, hm1⟩
  unfold Location.offsetAt
  rw [e1]
  ring

/-- C3 (as amended). For every instant `t` of the years `minYear` to `maxYear` and
every regular active Location (offsets of at most 24 hours, transitions at least
four days apart): when the clocks of the active Location show 00:00:00 of the
calendar date of `t` at some instant, `StartOfDay(t)` is 00:00:00 of that date,
and when they show its 23:59:59, `EndOfDay(t)` is 23:59:59 of that date, both
without a fraction of a second. When moreover `t` is presented in the active
Location and the clocks show 00:00:00 of the date exactly once, `StartOfDay(t) ≤
t`; when they show 23:59:59 exactly once, `t ≤ EndOfDay(t)` holds to the second:
the Unix second of `t` is at most that of `EndOfDay(t)`. -/
theorem day_boundaries_shown (w : World) (t : Time) (hr : (GetLocation w).regular)
    (hy0 : minYear ≤ t.Year) (hy1 : t.Year ≤ maxYear) :
    ((GetLocation w).shows (wallSec t.Year t.Month t.Day 0 0 0) →
      (StartOfDay w [t]).Year = t.Year ∧ (StartOfDay w [t]).Month = t.Month
      ∧ (StartOfDay w [t]).Day = t.Day ∧ (StartOfDay w [t]).Hour = 0
      ∧ (StartOfDay w [t]).Minute = 0 ∧ (StartOfDay w [t]).Second = 0
      ∧ (StartOfDay w [t]).nsec = 0)
    ∧ ((GetLocation w).shows (wallSec t.Year t.Month t.Day 23 59 59) →
      (EndOfDay w [t]).Year = t.Year ∧ (EndOfDay w [t]).Month = t.Month
      ∧ (EndOfDay w [t]).Day = t.Day ∧ (EndOfDay w [t]).Hour = 23
      ∧ (EndOfDay w [t]).Minute = 59 ∧ (EndOfDay w [t]).Second = 59
      ∧ (EndOfDay w [t]).nsec = 0)
    ∧ (t.loc = GetLocation w →
        (GetLocation w).showsOnce (wallSec t.Year t.Month t.Day 0 0 0) →
        (StartOfDay w [t]).le t ∧ (StartOfDay w [t]).Unix ≤ t.Unix)
    ∧ (t.loc = GetLocation w →
        (GetLocation w).showsOnce (wallSec t.Year t.Month t.Day 23 59 59) →
        t.Unix ≤ (EndOfDay w [t]).Unix) := by
  obtain ⟨hv, hc⟩ := date_valid t
  have hm := hv.1
  have hm' := hv.2.1
  have hS : StartOfDay w [t] = Date t.Year t.Month t.Day 0 0 0 0 (GetLocation w) := rfl
  have hE : EndOfDay w [t] = Date t.Year t.Month t.Day 23 59 59 0 (GetLocation w) := rfl
  have s0 := year_safe t.Year t.Month t.Day (0 * 3600 + 0 * 60 + 0) hy0 hy1 hv (by norm_num)
    (by norm_num)
  have s1 := year_safe t.Year t.Month t.Day (23 * 3600 + 59 * 60 + 59) hy0 hy1 hv (by norm_num)
    (by norm_num)
  have hA : internalToAbsolute = 9223371966579724800 := rfl
  have hU : unixToInternal = 62135596800 := rfl
  have hW0 : wallSec t.Year t.Month t.Day 0 0 0
      = civilDays t.Year t.Month t.Day * 86400 - unixToInternal := by
    unfold wallSec; ring
  have hW1 : wallSec t.Year t.Month t.Day 23 59 59
      = civilDays t.Year t.Month t.Day * 86400 + 86399 - unixToInternal := by
    unfold wallSec; ring
  have dS := Date_reading t.Year t.Month t.Day 0 0 0 (GetLocation w) hr ⟨hm, hm'⟩
    (by norm_num) (by norm_num) (by norm_num) s0.1 s0.2
  have dE := Date_reading t.Year t.Month t.Day 23 59 59 (GetLocation w) hr ⟨hm, hm'⟩
    (by norm_num) (by norm_num) (by norm_num) s1.1 s1.2
  rw [hS, hE]
  refine ⟨fun h0 => ?_, fun h1 => ?_, fun hloc h0 => ?_, fun hloc h1 => ?_⟩
  · obtain ⟨_, _, _, a4, a5, _⟩ := dS h0
    obtain ⟨f1, f2, f3, f4, f5, f6⟩ :=
      fields_of_abs _ _ _ _ (0 * 3600 + 0 * 60 + 0) hv (by norm_num) (by norm_num) a4
    exact ⟨f1, f2, f3, by rw [f4]; norm_num, by rw [f5]; norm_num, by rw [f6]; norm_num, a5⟩
  · obtain ⟨_, _, _, a4, a5, _⟩ := dE h1
    obtain ⟨f1, f2, f3, f4, f5, f6⟩ :=
      fields_of_abs _ _ _ _ (23 * 3600 + 59 * 60 + 59) hv (by norm_num) (by norm_num) a4
    exact ⟨f1, f2, f3, by rw [f4]; norm_num, by rw [f5]; norm_num, by rw [f6]; norm_num, a5⟩
  · obtain ⟨a1, a2, a3, _, a5, _⟩ := dS (shows_of_once _ _ h0)
    obtain ⟨b1, b2, b3, b4, b5⟩ := reading_of_year t (by rw [hloc]; exact hr) hy0 hy1
    rw [hloc] at b1
    obtain ⟨u, hu, hun⟩ := h0
    have hu' := hun _ a1
    have hle := shows_le_of_once (GetLocation w) hr _ _ _ _ a1 b1
      (fun v hv' => by rw [hu']; exact hun v hv') (by rw [hW0]; omega) (by rw [hW0]; omega)
      (by rw [hW0, hU]; norm_num; omega) (by rw [hW0, hU]; norm_num; omega)
    refine ⟨Time_le_of_ext _ _ (by rw [a3, b2]; omega) a5, ?_⟩
    unfold Time.Unix
    rw [a2]
    exact hle
  · obtain ⟨a1, a2, a3, _, a5, _⟩ := dE (shows_of_once _ _ h1)
    obtain ⟨b1, b2, b3, b4, b5⟩ := reading_of_year t (by rw [hloc]; exact hr) hy0 hy1
    rw [hloc] at b1
    obtain ⟨u, hu, hun⟩ := h1
    have hu' := hun _ a1
    have hle := shows_ge_of_once (GetLocation w) hr _ _ _ _ a1 b1
      (fun v hv' => by rw [hu']; exact hun v hv') (by rw [hW1]; omega) (by rw [hW1]; omega)
      (by rw [hW1, hU]; norm_num; omega) (by rw [hW1, hU]; norm_num at s1 ⊢; omega)
    unfold Time.Unix
    rw [a2]
    exact hle

/-- The clocks of `zoneDST` show every reading earlier than 19:00:00 of
30 September 2017 exactly once. -/
theorem zoneDST_once (W : Int) (h0 : -(2 ^ 63) ≤ W + 14400) (h1 : W < 1506798000) :
    zoneDST.showsOnce W := by
  have hoff : ∀ v, zoneDST.offsetAt v = if v < 1506830400 then -14400 else -10800 := by
    intro v
    unfold Location.offsetAt Location.lookup zoneDST lookupFrom
    simp only
    split_ifs <;> rfl
  refine ⟨W + 14400, ⟨h0, by norm_num; omega, ?_⟩, ?_⟩
  · rw [hoff, if_pos (by omega)]; ring
  · rintro v ⟨_, _, hv⟩
    rw [hoff] at hv
    split_ifs at hv <;> omega

set_option maxRecDepth 100000 in
/-- C3, witness: 15 September 2017, 12:00:00, in `zoneDST`, a zone with a
transition, as active Location. -/
theorem day_boundaries_shown_witness :
    (GetLocation worldDST).regular ∧ minYear ≤ tSep2017.Year ∧ tSep2017.Year ≤ maxYear
    ∧ tSep2017.loc = GetLocation worldDST
    ∧ ((StartOfDay worldDST [tSep2017]).Day = tSep2017.Day
      ∧ (StartOfDay worldDST [tSep2017]).Hour = 0)
    ∧ (StartOfDay worldDST [tSep2017]).le tSep2017
    ∧ tSep2017.Unix ≤ (EndOfDay worldDST [tSep2017]).Unix :=
  have e0 : wallSec tSep2017.Year tSep2017.Month tSep2017.Day 0 0 0 = 1505433600 := by decide
  have e1 : wallSec tSep2017.Year tSep2017.Month tSep2017.Day 23 59 59 = 1505519999 := by
    decide
  have h0 : (GetLocation worldDST).showsOnce
      (wallSec tSep2017.Year tSep2017.Month tSep2017.Day 0 0 0) := by
    rw [e0]; exact zoneDST_once _ (by norm_num) (by norm_num)
  have h1 : (GetLocation worldDST).showsOnce
      (wallSec tSep2017.Year tSep2017.Month tSep2017.Day 23 59 59) := by
    rw [e1]; exact zoneDST_once _ (by norm_num) (by norm_num)
  ⟨by decide, by decide, by decide, by decide,
    ⟨((day_boundaries_shown worldDST tSep2017 (by decide) (by decide) (by decide)).1
        (shows_of_once _ _ h0)).2.2.1,
      ((day_boundaries_shown worldDST tSep2017 (by decide) (by decide) (by decide)).1
        (shows_of_once _ _ h0)).2.2.2.1⟩,
    ((day_boundaries_shown worldDST tSep2017 (by decide) (by decide) (by decide)).2.2.1
      (by decide) h0).1,
    (day_boundaries_shown worldDST tSep2017 (by decide) (by decide) (by decide)).2.2.2
      (by decide) h1⟩

set_option maxRecDepth 100000 in
/-- C3 fails as stated, in five ways. The instant 23:59:59.5 is after `EndOfDay`
of its day, which has no fraction of a second. An instant presented in UTC+1 at
00:30:00 of 2 January, with UTC as active Location, is before its `StartOfDay`,
2 January 00:00:00 UTC. In `zoneDST`, whose clocks skip 00:00:00 of 1 October
2017, `StartOfDay` of an instant of 1 October is 23:00:00 on 30 September. In
`zoneAmman`, whose clocks show 00:00:00 of 29 October 2021 twice, `StartOfDay` of
00:30:00 before the clocks are set back is the second 00:00:00, half an hour after
`t`. And for `time.Unix(math.MaxInt64, 0)`, in the year 292277026596, the seconds
of `EndOfDay` wrap: its Unix second is negative, below that of `t`. -/
theorem day_boundaries_counterexample :
    ¬ tHalfSecond.le (EndOfDay worldUTC [tHalfSecond])
    ∧ ¬ (StartOfDay worldUTC [tPlus1]).le tPlus1
    ∧ (tOctFirst2017.Day = 1
      ∧ (StartOfDay worldDST [tOctFirst2017]).Day = 30
      ∧ (StartOfDay worldDST [tOctFirst2017]).Hour = 23)
    ∧ ((tAmman.Day, tAmman.Hour, tAmman.Minute) = (29, 0, 30)
      ∧ ((StartOfDay worldAmman [tAmman]).Day, (StartOfDay worldAmman [tAmman]).Hour) = (29, 0)
      ∧ (StartOfDay worldAmman [tAmman]).Unix = tAmman.Unix + 1800
      ∧ ¬ (StartOfDay worldAmman [tAmman]).le tAmman)
    ∧ (tMaxUnix.Year = 292277026596
      ∧ tMaxUnix.Unix = 9223372036854775807
      ∧ (EndOfDay worldUTC [tMaxUnix]).Unix = -9223372036854745217
      ∧ ¬ tMaxUnix.Unix ≤ (EndOfDay worldUTC [tMaxUnix]).Unix) := by
  decide

/-! ## C20: the boundaries nest -/

theorem timeUnix_zero (loc : Location) (x : Int) : timeUnix loc x 0 = ⟨wrap64 x, 0, loc⟩ := by
  unfold timeUnix
  rw [norm_eq _ _ _ (by norm_num)]
  simp [mkNsec_zero]

/-- Go `Time.Add` of a whole number of days, when the counter `ext` does not
overflow. -/
theorem Add_days (t : Time) (k : Int) (he : t.ext = t.sec + unixToInternal)
    (h0 : -(2 ^ 63) ≤ t.sec + k * 86400)
    (h1 : t.sec + k * 86400 + unixToInternal < 2 ^ 63) :
    t.Add (k * 24 * timeHour) = ⟨t.sec + k * 86400, t.nsec, t.loc⟩ := by
  have e : k * 24 * timeHour = 1000000000 * (k * 86400) := by unfold timeHour; ring
  have hU : unixToInternal = 62135596800 := rfl
  have hsum : wrap64 (t.sec + unixToInternal + k * 86400) = t.sec + unixToInternal + k * 86400 :=
    wrap64_of_range _ (by rw [hU]; omega) (by omega)
  have hadd : addSec (t.sec + unixToInternal) (k * 86400)
      = t.sec + unixToInternal + k * 86400 := by
    unfold addSec
    simp only [hsum]
    rw [if_pos]
    by_cases hk : k * 86400 > 0
    · simp [hk]
    · simp only [hk, decide_False, decide_eq_false_iff_not, not_lt]
      omega
  unfold Time.Add
  rw [e, Int.mul_tdiv_cancel_left _ (by norm_num), Int.mul_tmod_right]
  have hn := t.nsec.isLt
  simp only [add_zero]
  rw [if_neg (by omega), if_neg (by omega)]
  simp only [he, hadd]
  have hw : wrap64 (t.sec + unixToInternal + k * 86400 - unixToInternal) = t.sec + k * 86400 := by
    have : t.sec + unixToInternal + k * 86400 - unixToInternal = t.sec + k * 86400 := by ring
    rw [this]
    exact wrap64_of_range _ h0 (by rw [hU] at h1; omega)
  rw [hw]
  congr 1
  unfold mkNsec
  apply Fin.ext
  simp only
  omega

/-- The seconds of the wall clock reading of an instant from its counter, when
they lie in the range of the counters. -/
theorem abs_of_sec (t : Time) (h0 : -(2 ^ 63) ≤ t.sec) (h1 : t.sec < 2 ^ 63)
    (h2 : -internalToAbsolute ≤ t.sec + (t.loc.lookup t.sec).1 + unixToInternal)
    (h3 : t.sec + (t.loc.lookup t.sec).1 + unixToInternal < 2 ^ 63) :
    t.abs = t.sec + (t.loc.lookup t.sec).1 + unixToInternal := by
  unfold Time.abs Time.unixSec
  rw [wrap64_of_range _ h0 h1]
  generalize (t.loc.lookup t.sec).1 = o at *
  unfold internalToAbsolute unixToInternal at *
  norm_num at *
  omega

theorem epoch_days :
    daysSinceEpoch minYear = -106751990353567 ∧ daysSinceEpoch maxYear = 106751991166596 := by
  constructor
  · rw [daysSinceEpoch_eq]; unfold minYear; norm_num
  · rw [daysSinceEpoch_eq]; unfold maxYear; norm_num

/-- The seconds of a reading whose day count lies between the first day of
`minYear` and the first days of the year after `maxYear` lie within the range of
the counters. -/
theorem days_safe (n tod : Int) (h0 : daysSinceEpoch minYear ≤ n)
    (h1 : n ≤ daysSinceEpoch maxYear + 366) (ht0 : 0 ≤ tod) (ht1 : tod < 86400) :
    -internalToAbsolute + 345600 ≤ n * 86400 + tod
    ∧ n * 86400 + tod ≤ 2 ^ 63 - 1 - 345600 := by
  obtain ⟨c0, c1⟩ := epoch_days
  have hA : internalToAbsolute = 9223371966579724800 := rfl
  rw [hA]
  norm_num
  omega

/-- The day counts of a valid date of the years `minYear` to `maxYear`. -/
theorem days_of_year (y m d : Int) (hy0 : minYear ≤ y) (hy1 : y ≤ maxYear)
    (hv : validDate y m d) :
    daysSinceEpoch minYear ≤ civilDays y m d
    ∧ civilDays y m (daysIn m y) ≤ daysSinceEpoch maxYear + 365
    ∧ civilDays y 12 31 ≤ daysSinceEpoch maxYear + 365
    ∧ daysSinceEpoch minYear ≤ civilDays y 1 1 := by
  obtain ⟨n1, n2, n3, n4⟩ := civilDays_nest y m d hv
  have m0 := daysSinceEpoch_mono _ _ hy0
  have m1 := daysSinceEpoch_mono _ _ hy1
  have e1 : civilDays y 1 1 = daysSinceEpoch y := by
    unfold civilDays
    rw [if_neg (by omega)]
    have : daysBefore (1 - 1) = 0 := by decide
    rw [this]; ring
  have e2 : civilDays y 12 31 ≤ daysSinceEpoch y + 365 := by
    unfold civilDays
    have : daysBefore (12 - 1) = 334 := by decide
    rw [this]
    split_ifs <;> omega
  refine ⟨by omega, by omega, by omega, by omega⟩

/-- The instant that `time.Date` returns in a fixed zone with an offset of at most
24 hours, for a reading within the range of the counters. -/
theorem Date_fixed (y m d h mi s : Int) (L : Location) (hL : L.tx = [])
    (ho : -86400 ≤ L.offset ∧ L.offset ≤ 86400)
    (hm : 1 ≤ m ∧ m ≤ 12) (hh : 0 ≤ h ∧ h < 24) (hmi : 0 ≤ mi ∧ mi < 60) (hs : 0 ≤ s ∧ s < 60)
    (h0 : -internalToAbsolute + 345600 ≤ civilDays y m d * 86400 + (h * 3600 + mi * 60 + s))
    (h1 : civilDays y m d * 86400 + (h * 3600 + mi * 60 + s) ≤ 2 ^ 63 - 1 - 345600) :
    (Date y m d h mi s 0 L).sec
        = civilDays y m d * 86400 + (h * 3600 + mi * 60 + s) - unixToInternal - L.offset
    ∧ (Date y m d h mi s 0 L).unixSec = (Date y m d h mi s 0 L).sec
    ∧ (Date y m d h mi s 0 L).ext = (Date y m d h mi s 0 L).sec + unixToInternal
    ∧ (Date y m d h mi s 0 L).abs = civilDays y m d * 86400 + (h * 3600 + mi * 60 + s)
    ∧ (Date y m d h mi s 0 L).nsec = 0 ∧ (Date y m d h mi s 0 L).loc = L := by
  have hU : unixToInternal = 62135596800 := rfl
  have hA : internalToAbsolute = 9223371966579724800 := rfl
  have hr := regular_fixed L hL ho.1 ho.2
  have hW : wallSec y m d h mi s
      = civilDays y m d * 86400 + (h * 3600 + mi * 60 + s) - unixToInternal := rfl
  have hsh : L.shows (wallSec y m d h mi s) :=
    shows_of_once _ _ (showsOnce_fixed L hL _ (by rw [hW, hU]; norm_num; omega)
      (by rw [hW, hU]; norm_num at h1 ⊢; omega))
  obtain ⟨⟨_, _, a1⟩, a2, a3, a4, a5, a6⟩ := Date_reading y m d h mi s L hr hm hh hmi hs h0 h1 hsh
  rw [offsetAt_fixed L hL, hW] at a1
  exact ⟨by omega, a2, a3, a4, a5, a6⟩

/-- The instant that `EndOfMonth` returns when the active Location is a fixed
zone and `t` is of the years `minYear` to `maxYear`: the last second of the month
of `t` in that zone. -/
theorem EndOfMonth_sec (w : World) (t : Time) (hL : (GetLocation w).tx = [])
    (ho : -86400 ≤ (GetLocation w).offset ∧ (GetLocation w).offset ≤ 86400)
    (hy0 : minYear ≤ t.Year) (hy1 : t.Year ≤ maxYear) :
    (EndOfMonth w [t]).sec
        = civilDays t.Year t.Month (daysIn t.Month t.Year) * 86400 + 86399
          - unixToInternal - (GetLocation w).offset
    ∧ (EndOfMonth w [t]).unixSec = (EndOfMonth w [t]).sec
    ∧ (EndOfMonth w [t]).ext = (EndOfMonth w [t]).sec + unixToInternal
    ∧ (EndOfMonth w [t]).nsec = 0 ∧ (EndOfMonth w [t]).loc = w.timeLocal := by
  obtain ⟨hv, _⟩ := date_valid t
  obtain ⟨h1, h2, _, _⟩ := hv
  have hU : unixToInternal = 62135596800 := rfl
  have hA : internalToAbsolute = 9223371966579724800 := rfl
  obtain ⟨b1, b2⟩ := daysIn_bounds t.Year t.Month h1 h2
  have hv1 : validDate t.Year t.Month 1 := ⟨h1, h2, le_refl _, by omega⟩
  obtain ⟨q1, q2, q3, q4⟩ := days_of_year t.Year t.Month 1 hy0 hy1 hv1
  obtain ⟨c0, c1⟩ := epoch_days
  have hn := civilDays_next_month t.Year t.Month h1 h2
  have hadd := civilDays_add t.Year t.Month 1 (daysIn t.Month t.Year - 1)
  have e : (1 : Int) + (daysIn t.Month t.Year - 1) = daysIn t.Month t.Year := by ring
  rw [e] at hadd
  have s0 := days_safe (civilDays t.Year t.Month 1) (0 * 3600 + 0 * 60 + 0) q1 (by omega)
    (by norm_num) (by norm_num)
  obtain ⟨a1, a2, a3, a4, a5, a6⟩ := Date_fixed t.Year t.Month 1 0 0 0 (GetLocation w) hL ho
    ⟨h1, h2⟩ (by norm_num) (by norm_num) (by norm_num) s0.1 s0.2
  have hnext : (Date t.Year t.Month 1 0 0 0 0 (GetLocation w)).Add (31 * 24 * timeHour)
      = ⟨(Date t.Year t.Month 1 0 0 0 0 (GetLocation w)).sec + 31 * 86400, 0, GetLocation w⟩ := by
    rw [Add_days _ 31 a3 (by rw [a1, hU]; norm_num; omega)
      (by rw [a1, hU]; norm_num at s0 ⊢; omega), a5, a6]
  have hnabs : (⟨(Date t.Year t.Month 1 0 0 0 0 (GetLocation w)).sec + 31 * 86400, 0,
      GetLocation w⟩ : Time).abs
      = civilDays (t.Year + t.Month / 12) (t.Month % 12 + 1) (1 + (31 - daysIn t.Month t.Year))
          * 86400 + 0 := by
    have hadd2 := civilDays_add (t.Year + t.Month / 12) (t.Month % 12 + 1) 1
      (31 - daysIn t.Month t.Year)
    rw [abs_of_sec _ (by simp only; rw [a1, hU]; norm_num; omega)
      (by simp only; rw [a1, hU]; norm_num at s0 ⊢; omega)
      (by simp only; rw [lookup_fixed _ hL, a1, hA]; norm_num at s0 ⊢; omega)
      (by simp only; rw [lookup_fixed _ hL, a1]; norm_num at s0 ⊢; omega)]
    simp only [lookup_fixed _ hL, a1]
    rw [hadd2]
    omega
  obtain ⟨c1, c2⟩ := daysIn_bounds (t.Year + t.Month / 12) (t.Month % 12 + 1) (by omega)
    (by omega)
  have hvn : validDate (t.Year + t.Month / 12) (t.Month % 12 + 1)
      (1 + (31 - daysIn t.Month t.Year)) := ⟨by omega, by omega, by omega, by omega⟩
  obtain ⟨f1, f2, _⟩ := fields_of_abs _ _ _ _ 0 hvn (by norm_num) (by norm_num) hnabs
  have s1 := days_safe (civilDays (t.Year + t.Month / 12) (t.Month % 12 + 1) 1)
    (0 * 3600 + 0 * 60 + 0) (by omega) (by omega) (by norm_num) (by norm_num)
  obtain ⟨d1, d2, _, _, _, _⟩ := Date_fixed (t.Year + t.Month / 12) (t.Month % 12 + 1) 1 0 0 0
    (GetLocation w) hL ho ⟨by omega, by omega⟩ (by norm_num) (by norm_num) (by norm_num)
    s1.1 s1.2
  have hE : EndOfMonth w [t]
      = ⟨wrap64 ((Date (t.Year + t.Month / 12) (t.Month % 12 + 1) 1 0 0 0 0
          (GetLocation w)).sec - 1), 0, w.timeLocal⟩ := by
    unfold EndOfMonth StartOfMonth findOrNow Time.Unix
    simp only [hnext, f1, f2, timeUnix_zero, d2]
  have hw : wrap64 ((Date (t.Year + t.Month / 12) (t.Month % 12 + 1) 1 0 0 0 0
      (GetLocation w)).sec - 1)
      = civilDays t.Year t.Month (daysIn t.Month t.Year) * 86400 + 86399
          - unixToInternal - (GetLocation w).offset := by
    rw [wrap64_of_range _ (by rw [d1, hU]; norm_num; omega)
      (by rw [d1, hU]; norm_num at s1 ⊢; omega), d1]
    omega
  rw [hE, hw]
  refine ⟨rfl, ?_, ?_, rfl, rfl⟩
  · unfold Time.unixSec
    simp only
    exact wrap64_of_range _ (by rw [hU]; norm_num; omega)
      (by rw [hU]; norm_num at s1 ⊢; omega)
  · unfold Time.ext
    simp only
    exact wrap64_of_range _ (by rw [hU]; norm_num; omega)
      (by rw [hU]; norm_num at s1 ⊢; omega)

/-- C20 (as amended). When the active Location is a fixed zone with an offset of
at most 24 hours, the boundaries nest for every instant `t` of the years `minYear`
to `maxYear`: `StartOfYear(t) ≤ StartOfMonth(t) ≤ StartOfDay(t) ≤ EndOfDay(t) ≤
EndOfMonth(t) ≤ EndOfYear(t)`, in the order of `Time.Before` and in the order of
the Unix seconds, where `StartOfYear(t)` reads 1 January 00:00:00 and
`EndOfYear(t)` reads 31 December 23:59:59 of the year of `t`. -/
theorem boundaries_nest (w : World) (t : Time) (hL : (GetLocation w).tx = [])
    (ho : -86400 ≤ (GetLocation w).offset ∧ (GetLocation w).offset ≤ 86400)
    (hy0 : minYear ≤ t.Year) (hy1 : t.Year ≤ maxYear) :
    ((StartOfYear w [t]).le (StartOfMonth w [t])
      ∧ (StartOfMonth w [t]).le (StartOfDay w [t])
      ∧ (StartOfDay w [t]).le (EndOfDay w [t])
      ∧ (EndOfDay w [t]).le (EndOfMonth w [t])
      ∧ (EndOfMonth w [t]).le (EndOfYear w [t]))
    ∧ ((StartOfYear w [t]).Unix ≤ (StartOfMonth w [t]).Unix
      ∧ (StartOfMonth w [t]).Unix ≤ (StartOfDay w [t]).Unix
      ∧ (StartOfDay w [t]).Unix ≤ (EndOfDay w [t]).Unix
      ∧ (EndOfDay w [t]).Unix ≤ (EndOfMonth w [t]).Unix
      ∧ (EndOfMonth w [t]).Unix ≤ (EndOfYear w [t]).Unix)
    ∧ ((StartOfYear w [t]).Year = t.Year ∧ (StartOfYear w [t]).Month = 1
      ∧ (StartOfYear w [t]).Day = 1 ∧ (StartOfYear w [t]).Hour = 0
      ∧ (StartOfYear w [t]).Minute = 0 ∧ (StartOfYear w [t]).Second = 0
      ∧ (StartOfYear w [t]).nsec = 0)
    ∧ ((EndOfYear w [t]).Year = t.Year ∧ (EndOfYear w [t]).Month = 12
      ∧ (EndOfYear w [t]).Day = 31 ∧ (EndOfYear w [t]).Hour = 23
      ∧ (EndOfYear w [t]).Minute = 59 ∧ (EndOfYear w [t]).Second = 59
      ∧ (EndOfYear w [t]).nsec = 0) := by
  obtain ⟨hv, _⟩ := date_valid t
  obtain ⟨n1, n2, n3, n4⟩ := civilDays_nest t.Year t.Month t.Day hv
  obtain ⟨h1, h2, h3, h4⟩ := hv
  have hv : validDate t.Year t.Month t.Day := ⟨h1, h2, h3, h4⟩
  have v1 : validDate t.Year 1 1 := by
    refine ⟨by norm_num, by norm_num, by norm_num, ?_⟩
    have := (daysIn_bounds t.Year 1 (by norm_num) (by norm_num)).1
    omega
  have v2 : validDate t.Year 12 31 := by
    refine ⟨by norm_num, by norm_num, by norm_num, ?_⟩
    have e3 : daysIn 12 t.Year = 31 := by
      unfold daysIn
      rw [if_neg (by omega)]
      decide
    omega
  have vm : validDate t.Year t.Month 1 := ⟨h1, h2, le_refl _, by omega⟩
  have sy := year_safe t.Year 1 1 (0 * 3600 + 0 * 60 + 0) hy0 hy1 v1 (by norm_num) (by norm_num)
  have sm := year_safe t.Year t.Month 1 (0 * 3600 + 0 * 60 + 0) hy0 hy1 vm (by norm_num)
    (by norm_num)
  have sd := year_safe t.Year t.Month t.Day (0 * 3600 + 0 * 60 + 0) hy0 hy1 hv (by norm_num)
    (by norm_num)
  have ed := year_safe t.Year t.Month t.Day (23 * 3600 + 59 * 60 + 59) hy0 hy1 hv (by norm_num)
    (by norm_num)
  have ey := year_safe t.Year 12 31 (23 * 3600 + 59 * 60 + 59) hy0 hy1 v2 (by norm_num)
    (by norm_num)
  obtain ⟨sy1, sy2, sy3, sy4, sy5, _⟩ := Date_fixed t.Year 1 1 0 0 0 (GetLocation w) hL ho
    (by norm_num) (by norm_num) (by norm_num) (by norm_num) sy.1 sy.2
  obtain ⟨sm1, sm2, sm3, _, sm5, _⟩ := Date_fixed t.Year t.Month 1 0 0 0 (GetLocation w) hL ho
    ⟨h1, h2⟩ (by norm_num) (by norm_num) (by norm_num) sm.1 sm.2
  obtain ⟨sd1, sd2, sd3, _, sd5, _⟩ := Date_fixed t.Year t.Month t.Day 0 0 0 (GetLocation w)
    hL ho ⟨h1, h2⟩ (by norm_num) (by norm_num) (by norm_num) sd.1 sd.2
  obtain ⟨ed1, ed2, ed3, _, ed5, _⟩ := Date_fixed t.Year t.Month t.Day 23 59 59
    (GetLocation w) hL ho ⟨h1, h2⟩ (by norm_num) (by norm_num) (by norm_num) ed.1 ed.2
  obtain ⟨ey1, ey2, ey3, ey4, ey5, _⟩ := Date_fixed t.Year 12 31 23 59 59 (GetLocation w) hL ho
    (by norm_num) (by norm_num) (by norm_num) (by norm_num) ey.1 ey.2
  obtain ⟨em1, em2, em3, em5, _⟩ := EndOfMonth_sec w t hL ho hy0 hy1
  have hSY : StartOfYear w [t] = Date t.Year 1 1 0 0 0 0 (GetLocation w) := rfl
  have hSM : StartOfMonth w [t] = Date t.Year t.Month 1 0 0 0 0 (GetLocation w) := rfl
  have hSD : StartOfDay w [t] = Date t.Year t.Month t.Day 0 0 0 0 (GetLocation w) := rfl
  have hED : EndOfDay w [t] = Date t.Year t.Month t.Day 23 59 59 0 (GetLocation w) := rfl
  have hEY : EndOfYear w [t] = Date t.Year 12 31 23 59 59 0 (GetLocation w) := rfl
  obtain ⟨f1, f2, f3, f4, f5, f6⟩ :=
    fields_of_abs _ _ _ _ (0 * 3600 + 0 * 60 + 0) v1 (by norm_num) (by norm_num) sy4
  obtain ⟨g1, g2, g3, g4, g5, g6⟩ :=
    fields_of_abs _ _ _ _ (23 * 3600 + 59 * 60 + 59) v2 (by norm_num) (by norm_num) ey4
  rw [hSY, hSM, hSD, hED, hEY]
  refine ⟨⟨Time_le_of_ext _ _ (by rw [sy3, sm3, sy1, sm1]; omega) sy5,
    Time_le_of_ext _ _ (by rw [sm3, sd3, sm1, sd1]; omega) sm5,
    Time_le_of_ext _ _ (by rw [sd3, ed3, sd1, ed1]; omega) sd5,
    Time_le_of_ext _ _ (by rw [ed3, em3, ed1, em1]; omega) ed5,
    Time_le_of_ext _ _ (by rw [em3, ey3, em1, ey1]; omega) em5⟩,
    ⟨?_, ?_, ?_, ?_, ?_⟩,
    ⟨f1, f2, f3, by rw [f4]; norm_num, by rw [f5]; norm_num, by rw [f6]; norm_num, sy5⟩,
    ⟨g1, g2, g3, by rw [g4]; norm_num, by rw [g5]; norm_num, by rw [g6]; norm_num, ey5⟩⟩
  · unfold Time.Unix; rw [sy2, sm2, sy1, sm1]; omega
  · unfold Time.Unix; rw [sm2, sd2, sm1, sd1]; omega
  · unfold Time.Unix; rw [sd2, ed2, sd1, ed1]; omega
  · unfold Time.Unix; rw [ed2, em2, ed1, em1]; omega
  · unfold Time.Unix; rw [em2, ey2, em1, ey1]; omega

set_option maxRecDepth 100000 in
/-- C20, witness: 28 February 2020, 22:00:00 UTC, with UTC as active Location. -/
theorem boundaries_nest_witness :
    (GetLocation worldUTC).tx = []
    ∧ (-86400 ≤ (GetLocation worldUTC).offset ∧ (GetLocation worldUTC).offset ≤ 86400)
    ∧ minYear ≤ tFeb28.Year ∧ tFeb28.Year ≤ maxYear
    ∧ ((StartOfYear worldUTC [tFeb28]).le (StartOfMonth worldUTC [tFeb28])
      ∧ (StartOfMonth worldUTC [tFeb28]).le (StartOfDay worldUTC [tFeb28])
      ∧ (StartOfDay worldUTC [tFeb28]).le (EndOfDay worldUTC [tFeb28])
      ∧ (EndOfDay worldUTC [tFeb28]).le (EndOfMonth worldUTC [tFeb28])
      ∧ (EndOfMonth worldUTC [tFeb28]).le (EndOfYear worldUTC [tFeb28])) :=
  ⟨by decide, by decide, by decide, by decide,
    (boundaries_nest worldUTC tFeb28 (by decide) (by decide) (by decide) (by decide)).1⟩

set_option maxRecDepth 100000 in
/-- C20 fails as stated, at the ends of the range of the 64-bit counters. For
`time.Unix(math.MaxInt64, 0)`, in the year 292277026596, the Unix seconds of
`EndOfDay` wrap and are below those of `StartOfDay`. For the instant whose counter
`ext` is `math.MaxInt64`, in the year 292277024627, the counter of `EndOfDay` and
of `EndOfYear` wraps, and `EndOfDay` is before `StartOfDay`, `EndOfYear` before
`StartOfYear`, in the order of `Time.Before`. The active Location is UTC. -/
theorem boundaries_nest_counterexample :
    (GetLocation worldUTC).tx = []
    ∧ (tMaxUnix.Year = 292277026596
      ∧ (StartOfDay worldUTC [tMaxUnix]).Unix = 9223372036854720000
      ∧ (EndOfDay worldUTC [tMaxUnix]).Unix = -9223372036854745217
      ∧ ¬ (StartOfDay worldUTC [tMaxUnix]).Unix ≤ (EndOfDay worldUTC [tMaxUnix]).Unix)
    ∧ (tMaxExt.Year = 292277024627
      ∧ (EndOfDay worldUTC [tMaxExt]).Before (StartOfDay worldUTC [tMaxExt])
      ∧ ¬ (StartOfDay worldUTC [tMaxExt]).le (EndOfDay worldUTC [tMaxExt])
      ∧ ¬ (StartOfYear worldUTC [tMaxExt]).le (EndOfYear worldUTC [tMaxExt])) := by
  decide

/-! ## C9, C10: `Parse` of a string -/

/-- C9 (as amended). For every string `s` in the canonical layout `YYYY-MM-DD
HH:MM:SS` that denotes a valid date and time (year 0 to 9999, an existing day, a
time of day), `Parse(s)` returns no error but the instant `time.Date(...)` of
these fields in the active Location; and when the active Location is regular
(offsets of at most 24 hours, transitions at least four days apart) and its clocks
show that date and time at some instant, the `YmdHis` text of the instant returned
is exactly `s`. -/
theorem Parse_canonical_roundtrip (tf : TimeFormat) (w : World) (y m d h mi s : Int)
    (hy0 : 0 ≤ y) (hy1 : y ≤ 9999) (hv : validDate y m d)
    (hh : 0 ≤ h ∧ h ≤ 23) (hmi : 0 ≤ mi ∧ mi ≤ 59) (hs : 0 ≤ s ∧ s ≤ 59) :
    Parse w (.string (canonicalText y m d h mi s))
        = .ok (Date y m d h mi s 0 (GetLocation w))
    ∧ ((GetLocation w).regular → (GetLocation w).shows (wallSec y m d h mi s) →
        YmdHis tf (Date y m d h mi s 0 (GetLocation w)) = canonicalText y m d h mi s) := by
  constructor
  · rw [Parse_string, parse_canonicalText y m d h mi s (GetLocation w) hy0 hy1 hv hh hmi hs]
  · intro hr hsh
    have sf := year_safe y m d (h * 3600 + mi * 60 + s) (by unfold minYear; omega)
      (by unfold maxYear; omega) hv (by omega) (by omega)
    obtain ⟨_, _, _, a4, _, _⟩ := Date_reading y m d h mi s (GetLocation w) hr
      ⟨hv.1, hv.2.1⟩ ⟨hh.1, by omega⟩ ⟨hmi.1, by omega⟩ ⟨hs.1, by omega⟩ sf.1 sf.2 hsh
    obtain ⟨f1, f2, f3, f4, f5, f6⟩ :=
      fields_of_abs _ y m d (h * 3600 + mi * 60 + s) hv (by omega) (by omega) a4
    have g4 : (Date y m d h mi s 0 (GetLocation w)).Hour = h := by rw [f4]; omega
    have g5 : (Date y m d h mi s 0 (GetLocation w)).Minute = mi := by rw [f5]; omega
    have g6 : (Date y m d h mi s 0 (GetLocation w)).Second = s := by rw [f6]; omega
    unfold YmdHis
    rw [tf.format_YmdHis]
    unfold Time.textYmdHis Time.textYmd canonicalText
    rw [f1, f2, f3, g4, g5, g6]

set_option maxRecDepth 100000 in
/-- C9, witness: the string of the test of the package, on a host in `zoneBerlin`,
a zone with transitions, where `SetLocation` was never called. -/
theorem Parse_canonical_roundtrip_witness :
    canonicalText 2020 1 1 0 0 1 = "2020-01-01 00:00:01".toList
    ∧ validDate 2020 1 1 ∧ (GetLocation worldBerlin).regular
    ∧ (GetLocation worldBerlin).showsAt 1577833201 (wallSec 2020 1 1 0 0 1)
    ∧ Parse worldBerlin (.string (canonicalText 2020 1 1 0 0 1))
        = .ok (Date 2020 1 1 0 0 1 0 (GetLocation worldBerlin))
    ∧ YmdHis plainFormat (Date 2020 1 1 0 0 1 0 (GetLocation worldBerlin))
        = canonicalText 2020 1 1 0 0 1 :=
  ⟨by decide, by decide, by decide, by decide,
    (Parse_canonical_roundtrip plainFormat worldBerlin 2020 1 1 0 0 1 (by decide) (by decide)
      (by decide) (by decide) (by decide) (by decide)).1,
    (Parse_canonical_roundtrip plainFormat worldBerlin 2020 1 1 0 0 1 (by decide) (by decide)
      (by decide) (by decide) (by decide) (by decide)).2 (by decide)
      ⟨1577833201, by decide⟩⟩

set_option maxRecDepth 100000 in
/-- C9 fails as stated. With `zoneDST` as active Location, whose clocks skip the
hour from 00:00:00 of 1 October 2017, `Parse("2017-10-01 00:30:00")` returns no
error, and the `YmdHis` text of the instant returned is `2017-09-30 23:30:00`. -/
theorem Parse_roundtrip_counterexample :
    canonicalText 2017 10 1 0 30 0 = "2017-10-01 00:30:00".toList
    ∧ validDate 2017 10 1
    ∧ Parse worldDST (.string "2017-10-01 00:30:00".toList)
        = .ok ⟨1506828600, 0, zoneDST⟩
    ∧ YmdHis plainFormat ⟨1506828600, 0, zoneDST⟩ = "2017-09-30 23:30:00".toList := by
  decide

theorem atoiDigits_eq (ds : List Char) (hne : ds ≠ []) (hd : ∀ x ∈ ds, isDig x) :
    atoiDigits ds = some (numeral ds) := by
  cases ds with
  | nil => exact absurd rfl hne
  | cons c cs =>
    have hall : (c :: cs).all (fun c => isDigit [c]) = true := by
      rw [List.all_eq_true]
      intro x hx
      exact (isDigit_cons x []).mpr (hd x hx)
    unfold atoiDigits
    simp only [hall, if_true]
    rfl

/-- The nanoseconds that `time.ParseInLocation` reads after the seconds. -/
theorem getFraction_value (F : List Char)
    (hF : F = [] ∨ ∃ c ds, F = c :: ds ∧ (c = '.' ∨ c = ',') ∧ ds ≠ [] ∧ ∀ x ∈ ds, isDig x) :
    getFraction F = some (fractionNanos F, []) := by
  rcases hF with rfl | ⟨c, ds, rfl, hc, hne, hall⟩
  · rfl
  · have hd : isDigit ds = true := by
      cases ds with
      | nil => exact absurd rfl hne
      | cons a as => exact (isDigit_cons a as).mpr (hall a (List.mem_cons_self _ _))
    have htw : List.takeWhile (fun c => isDigit [c]) ds = ds := by
      rw [List.takeWhile_eq_self_iff]
      intro x hx
      exact (isDigit_cons x []).mpr (hall x hx)
    have hdw : List.dropWhile (fun c => isDigit [c]) ds = [] := by
      rw [List.dropWhile_eq_nil_iff]
      intro x hx
      exact (isDigit_cons x []).mpr (hall x hx)
    have hne9 : List.take 9 ds ≠ [] := by
      cases ds with
      | nil => exact absurd rfl hne
      | cons a as => simp
    have ha := atoiDigits_eq (List.take 9 ds) hne9 (fun x hx => hall x (List.mem_of_mem_take hx))
    unfold getFraction fractionNanos
    simp only
    rw [if_pos ⟨hc, hd⟩, htw, hdw, ha]

theorem acceptedText_iff (s : List Char) :
    acceptedText s ↔ ∃ (y1 y2 y3 y4 m1 m2 d1 d2 : Char) (k : Nat) (H : List Char)
      (i1 i2 s1 s2 : Char) (F : List Char),
      s = textLayout y1 y2 y3 y4 m1 m2 d1 d2 k H i1 i2 s1 s2 F
      ∧ acceptedParts y1 y2 y3 y4 m1 m2 d1 d2 H i1 i2 s1 s2 F := Iff.rfl

/-- `time.ParseInLocation` on an accepted text: the instant `time.Date` of the
numbers that the characters denote. -/
theorem parse_of_accepted (y1 y2 y3 y4 m1 m2 d1 d2 : Char) (k : Nat) (H : List Char)
    (i1 i2 s1 s2 : Char) (F : List Char) (L : Location)
    (h : acceptedParts y1 y2 y3 y4 m1 m2 d1 d2 H i1 i2 s1 s2 F) :
    parseInLocationYmdHis (textLayout y1 y2 y3 y4 m1 m2 d1 d2 k H i1 i2 s1 s2 F) L
      = some (Date (numeral [y1, y2, y3, y4]) (numeral [m1, m2]) (numeral [d1, d2])
          (numeral H) (numeral [i1, i2]) (numeral [s1, s2]) (fractionNanos F) L) := by
  obtain ⟨dy, dm, dd, di, ds, hH, hF, rm, rd, rh, ri, rs⟩ := h
  exact parse_of_parts y1 y2 y3 y4 m1 m2 d1 d2 k H i1 i2 s1 s2 F L _ dy dm dd di ds hH
    (getFraction_value F hF) rm rd rh ri rs

/-- C10 (as amended). For every string `s`, `Parse(s)` returns an error, the parse
error, if and only if `s` is not an accepted text: a four-digit year, `-`, a
two-digit month 01 to 12, `-`, a two-digit day that exists in that month, one or
more spaces, an hour 0 to 23 of one or two digits, `:`, a two-digit minute and `:`,
a two-digit second, 00 to 59 each, optionally followed by `.` or `,` and one or
more digits, and nothing before or after. A string that is accepted is
interpreted in the active Location: the instant returned is `time.Date` of the
year, month, day, hour, minute and second that the digits of `s` denote and of the
nanoseconds of its fraction, in the active Location, whichever way `s` is read as
an accepted text. -/
theorem Parse_string_error_iff (w : World) (s : List Char) :
    (Parse w (.string s) = .error .parseError ↔ ¬ acceptedText s)
    ∧ ((∃ t, Parse w (.string s) = .ok t) ↔ acceptedText s)
    ∧ (∀ t, Parse w (.string s) = .ok t →
        ∃ (y1 y2 y3 y4 m1 m2 d1 d2 : Char) (k : Nat) (H : List Char) (i1 i2 s1 s2 : Char)
          (F : List Char),
          s = textLayout y1 y2 y3 y4 m1 m2 d1 d2 k H i1 i2 s1 s2 F
          ∧ acceptedParts y1 y2 y3 y4 m1 m2 d1 d2 H i1 i2 s1 s2 F
          ∧ t = Date (numeral [y1, y2, y3, y4]) (numeral [m1, m2]) (numeral [d1, d2])
              (numeral H) (numeral [i1, i2]) (numeral [s1, s2]) (fractionNanos F)
              (GetLocation w))
    ∧ (∀ (y1 y2 y3 y4 m1 m2 d1 d2 : Char) (k : Nat) (H : List Char) (i1 i2 s1 s2 : Char)
        (F : List Char),
        s = textLayout y1 y2 y3 y4 m1 m2 d1 d2 k H i1 i2 s1 s2 F →
        acceptedParts y1 y2 y3 y4 m1 m2 d1 d2 H i1 i2 s1 s2 F →
        Parse w (.string s)
          = .ok (Date (numeral [y1, y2, y3, y4]) (numeral [m1, m2]) (numeral [d1, d2])
              (numeral H) (numeral [i1, i2]) (numeral [s1, s2]) (fractionNanos F)
              (GetLocation w))) := by
  have hiff := parse_some_iff s (GetLocation w)
  have hall : ∀ (y1 y2 y3 y4 m1 m2 d1 d2 : Char) (k : Nat) (H : List Char)
      (i1 i2 s1 s2 : Char) (F : List Char),
      s = textLayout y1 y2 y3 y4 m1 m2 d1 d2 k H i1 i2 s1 s2 F →
      acceptedParts y1 y2 y3 y4 m1 m2 d1 d2 H i1 i2 s1 s2 F →
      Parse w (.string s)
        = .ok (Date (numeral [y1, y2, y3, y4]) (numeral [m1, m2]) (numeral [d1, d2])
            (numeral H) (numeral [i1, i2]) (numeral [s1, s2]) (fractionNanos F)
            (GetLocation w)) := by
    intro y1 y2 y3 y4 m1 m2 d1 d2 k H i1 i2 s1 s2 F hs hp
    rw [Parse_string, hs, parse_of_accepted y1 y2 y3 y4 m1 m2 d1 d2 k H i1 i2 s1 s2 F _ hp]
  refine ⟨?_, ?_, ?_, hall⟩
  · rw [Parse_string]
    cases hp : parseInLocationYmdHis s (GetLocation w) with
    | none =>
      refine ⟨fun _ ha => ?_, fun _ => rfl⟩
      obtain ⟨t, ht⟩ := hiff.mpr ha
      rw [hp] at ht
      exact absurd ht (by simp)
    | some t0 =>
      exact ⟨fun h => absurd h (by simp), fun hn => absurd (hiff.mp ⟨t0, hp⟩) hn⟩
  · rw [Parse_string]
    cases hp : parseInLocationYmdHis s (GetLocation w) with
    | none =>
      refine ⟨?_, fun ha => ?_⟩
      · rintro ⟨t, ht⟩
        exact absurd ht (by simp)
      · obtain ⟨t, ht⟩ := hiff.mpr ha
        rw [hp] at ht
        exact absurd ht (by simp)
    | some t0 =>
      exact ⟨fun _ => hiff.mp ⟨t0, hp⟩, fun _ => ⟨t0, rfl⟩⟩
  · intro t ht
    have ha : acceptedText s := by
      rw [Parse_string] at ht
      cases hp : parseInLocationYmdHis s (GetLocation w) with
      | none =>
        rw [hp] at ht
        exact absurd ht (by simp)
      | some t0 => exact hiff.mp ⟨t0, hp⟩
    obtain ⟨y1, y2, y3, y4, m1, m2, d1, d2, k, H, i1, i2, s1, s2, F, hs, hp⟩ :=
      (acceptedText_iff s).mp ha
    refine ⟨y1, y2, y3, y4, m1, m2, d1, d2, k, H, i1, i2, s1, s2, F, hs, hp, ?_⟩
    have := hall y1 y2 y3 y4 m1 m2 d1 d2 k H i1 i2 s1 s2 F hs hp
    rw [this] at ht
    exact (Except.ok.inj ht).symm

set_option maxRecDepth 100000 in
/-- C10 fails as stated, in both directions. `Parse` accepts an hour of one digit,
several spaces between date and time, and a fraction after the seconds, none of
which is in the exact layout; and it rejects `2020-02-30 00:00:00`, which is in
the exact layout. -/
theorem Parse_string_counterexample :
    (exactLayout "2020-01-01 1:02:03".toList = false
      ∧ Parse worldUTC (.string "2020-01-01 1:02:03".toList) = .ok ⟨1577840523, 0, UTC⟩)
    ∧ (exactLayout "2020-01-01   00:00:01".toList = false
      ∧ Parse worldUTC (.string "2020-01-01   00:00:01".toList) = .ok ⟨1577836801, 0, UTC⟩)
    ∧ (exactLayout "2020-01-01 00:00:01.5".toList = false
      ∧ Parse worldUTC (.string "2020-01-01 00:00:01.5".toList)
          = .ok ⟨1577836801, 500000000, UTC⟩)
    ∧ (exactLayout "2020-02-30 00:00:00".toList = true
      ∧ Parse worldUTC (.string "2020-02-30 00:00:00".toList) = .error .parseError) := by
  decide

/-! ## C12: `Parse` of an integer -/

/-- C12 (as amended). For every integer `N` of the 64-bit range that is passed as
a Go `int` or `int64`, the two integer types of the type switch of `Parse`,
`Parse(N)` does not fail and returns the instant `time.Unix(N, 0)`, without
nanoseconds, whose `Unix()` is `N` again, for negative `N` and at both ends of the
64-bit range as anywhere else. An integer of another type, the 32-bit `int32`, is
not accepted: `Parse` returns the error "type not support". -/
theorem Parse_integer_roundtrip (w : World) (N : Int) (h0 : -(2 ^ 63) ≤ N)
    (h1 : N < 2 ^ 63) :
    (Parse w (.int N) = .ok (timeUnix w.timeLocal N 0)
      ∧ Parse w (.int64 N) = .ok (timeUnix w.timeLocal N 0))
    ∧ ((timeUnix w.timeLocal N 0).Unix = N ∧ (timeUnix w.timeLocal N 0).nsec = 0)
    ∧ (∀ n : Int, Parse w (.int32 n) = .error .typeNotSupport) := by
  refine ⟨⟨rfl, rfl⟩, ⟨?_, ?_⟩, fun _ => rfl⟩
  · rw [timeUnix_zero]
    unfold Time.Unix Time.unixSec
    simp only
    rw [wrap64_of_range _ h0 h1, wrap64_of_range _ h0 h1]
  · rw [timeUnix_zero]

/-- C12, witness: the largest and the smallest 64-bit integer. -/
theorem Parse_integer_roundtrip_witness :
    ((-(2 ^ 63) : Int) ≤ 9223372036854775807 ∧ (9223372036854775807 : Int) < 2 ^ 63
      ∧ (timeUnix worldUTC.timeLocal 9223372036854775807 0).Unix = 9223372036854775807)
    ∧ ((-(2 ^ 63) : Int) ≤ -9223372036854775808 ∧ (-9223372036854775808 : Int) < 2 ^ 63
      ∧ (timeUnix worldUTC.timeLocal (-9223372036854775808) 0).Unix = -9223372036854775808) :=
  ⟨⟨by norm_num, by norm_num,
    (Parse_integer_roundtrip worldUTC 9223372036854775807 (by norm_num) (by norm_num)).2.1.1⟩,
    ⟨by norm_num, by norm_num,
    (Parse_integer_roundtrip worldUTC (-9223372036854775808) (by norm_num)
      (by norm_num)).2.1.1⟩⟩

/-- C12 fails as stated: the 32-bit integer 5, passed as an `int32`, is not
accepted. -/
theorem Parse_int32_counterexample :
    (-(2 ^ 31) : Int) ≤ 5 ∧ (5 : Int) < 2 ^ 31
    ∧ Parse worldUTC (.int32 5) = .error .typeNotSupport
    ∧ ¬ ∃ t, Parse worldUTC (.int32 5) = .ok t := by
  refine ⟨by norm_num, by norm_num, rfl, ?_⟩
  rintro ⟨t, ht⟩
  exact absurd ht (by simp [Parse])

/-! ## C1, C2: the boundaries of the month -/

set_option maxRecDepth 100000 in
/-- C1, the code at two instants. On a host in `zoneBerlin`, for 15 October 2020,
12:00:00: 31 days of 24 hours after 1 October 00:00:00 is 31 October 23:00:00,
still October, because of the day of 25 hours; so `EndOfMonth` is one second
before the start of October, 23:59:59 on 30 September, before `StartOfMonth` of the
same instant. And on a host in UTC+8 with UTC as active Location, for 15 January
2016: the value returned is presented in `time.Local` and reads 07:59:59 on
1 February; only read in the active Location is it 23:59:59 on 31 January. -/
theorem EndOfMonth_wrong_month :
    ((tOct2020.Year, tOct2020.Month, tOct2020.Day) = (2020, 10, 15)
      ∧ ((StartOfMonth worldBerlin [tOct2020]).Add (31 * 24 * timeHour)).Month = 10
      ∧ ((EndOfMonth worldBerlin [tOct2020]).Year, (EndOfMonth worldBerlin [tOct2020]).Month,
          (EndOfMonth worldBerlin [tOct2020]).Day, (EndOfMonth worldBerlin [tOct2020]).Hour,
          (EndOfMonth worldBerlin [tOct2020]).Minute,
          (EndOfMonth worldBerlin [tOct2020]).Second) = (2020, 9, 30, 23, 59, 59)
      ∧ (EndOfMonth worldBerlin [tOct2020]).Before (StartOfMonth worldBerlin [tOct2020]))
    ∧ ((tJan2016.Year, tJan2016.Month, tJan2016.Day) = (2016, 1, 15)
      ∧ GetLocation worldHostPlus8 = UTC
      ∧ ((EndOfMonth worldHostPlus8 [tJan2016]).Year, (EndOfMonth worldHostPlus8 [tJan2016]).Month,
          (EndOfMonth worldHostPlus8 [tJan2016]).Day, (EndOfMonth worldHostPlus8 [tJan2016]).Hour,
          (EndOfMonth worldHostPlus8 [tJan2016]).Minute,
          (EndOfMonth worldHostPlus8 [tJan2016]).Second) = (2016, 2, 1, 7, 59, 59)
      ∧ (((EndOfMonth worldHostPlus8 [tJan2016]).In UTC).Month,
          ((EndOfMonth worldHostPlus8 [tJan2016]).In UTC).Day,
          ((EndOfMonth worldHostPlus8 [tJan2016]).In UTC).Hour) = (1, 31, 23)) := by
  decide

set_option maxRecDepth 100000 in
/-- C2, the code at two instants. The month of `EndOfMonth(t)` is not the month of
`t`: on a host in `zoneBerlin` it is September for an instant of October 2020, and
on a host in UTC+8 with UTC as active Location it is February for an instant of
January 2016. `StartOfMonth(t)` is day 1 at 00:00:00 of the month of `t` in both
cases. -/
theorem month_boundaries_other_month :
    (tOct2020.Month = 10
      ∧ ((StartOfMonth worldBerlin [tOct2020]).Year, (StartOfMonth worldBerlin [tOct2020]).Month,
          (StartOfMonth worldBerlin [tOct2020]).Day, (StartOfMonth worldBerlin [tOct2020]).Hour)
          = (2020, 10, 1, 0)
      ∧ ((EndOfMonth worldBerlin [tOct2020]).Year, (EndOfMonth worldBerlin [tOct2020]).Month)
          = (2020, 9)
      ∧ (EndOfMonth worldBerlin [tOct2020]).Month ≠ tOct2020.Month)
    ∧ (tJan2016.Month = 1
      ∧ ((StartOfMonth worldHostPlus8 [tJan2016]).Year,
          (StartOfMonth worldHostPlus8 [tJan2016]).Month,
          (StartOfMonth worldHostPlus8 [tJan2016]).Day) = (2016, 1, 1)
      ∧ ((EndOfMonth worldHostPlus8 [tJan2016]).Year,
          (EndOfMonth worldHostPlus8 [tJan2016]).Month) = (2016, 2)
      ∧ (EndOfMonth worldHostPlus8 [tJan2016]).Month ≠ tJan2016.Month) := by
  decide

/-! ## C14: `Tomorrow` and `Yesterday` -/

set_option maxRecDepth 100000 in
/-- C14, the code across a transition of the zone of `t`. On a host in UTC where
`SetLocation` was never called, for 30 September 2017, 23:30:00, in `zoneDST`:
24 hours later the clocks of that zone show 2 October 00:30:00, and `Tomorrow` is
2 October 00:00:00 UTC, two days after the date of `t` and 48 hours after
`StartOfDay(t)`. On a host in `zoneBerlin`, for 25 October 2020, 00:30:00, on the
day of 25 hours: 24 hours later it is 23:30:00 of the same day, and `Tomorrow` is
00:00:00 of 25 October, the start of the day of `t` itself. -/
theorem Tomorrow_not_next_day :
    ((tSepLast2017.Year, tSepLast2017.Month, tSepLast2017.Day) = (2017, 9, 30)
      ∧ ((Tomorrow worldUTC [tSepLast2017]).Year, (Tomorrow worldUTC [tSepLast2017]).Month,
          (Tomorrow worldUTC [tSepLast2017]).Day, (Tomorrow worldUTC [tSepLast2017]).Hour)
          = (2017, 10, 2, 0)
      ∧ (Tomorrow worldUTC [tSepLast2017]).Unix
          = (StartOfDay worldUTC [tSepLast2017]).Unix + 48 * 3600)
    ∧ ((tOct25.Year, tOct25.Month, tOct25.Day) = (2020, 10, 25)
      ∧ ((Tomorrow worldBerlin [tOct25]).Year, (Tomorrow worldBerlin [tOct25]).Month,
          (Tomorrow worldBerlin [tOct25]).Day, (Tomorrow worldBerlin [tOct25]).Hour)
          = (2020, 10, 25, 0)
      ∧ Tomorrow worldBerlin [tOct25] = StartOfDay worldBerlin [tOct25]
      ∧ (Tomorrow worldBerlin [tOct25]).Before tOct25) := by
  decide

/-! ## C17, C19: the week -/

set_option maxRecDepth 100000 in
/-- C17, the code at a Saturday before a transition of the zone of `t`. On a host
in UTC where `SetLocation` was never called, for Saturday 30 September 2017,
23:30:00, in `zoneDST`: the weekday ordinal is 6, the date `7 - 6 = 1` day after
the date of `t` is 1 October, and `EndOfWeek` is 23:59:59 of 2 October, because 24
hours after `t` the clocks of the zone show 2 October. -/
theorem EndOfWeek_saturday :
    tSepLast2017.Weekday = 6
    ∧ (tSepLast2017.Year, tSepLast2017.Month, tSepLast2017.Day) = (2017, 9, 30)
    ∧ ((tSepLast2017.Add ((7 - tSepLast2017.Weekday) * 24 * timeHour)).Month,
        (tSepLast2017.Add ((7 - tSepLast2017.Weekday) * 24 * timeHour)).Day) = (10, 2)
    ∧ ((EndOfWeek worldUTC [tSepLast2017]).Year, (EndOfWeek worldUTC [tSepLast2017]).Month,
        (EndOfWeek worldUTC [tSepLast2017]).Day, (EndOfWeek worldUTC [tSepLast2017]).Hour,
        (EndOfWeek worldUTC [tSepLast2017]).Minute, (EndOfWeek worldUTC [tSepLast2017]).Second)
        = (2017, 10, 2, 23, 59, 59)
    ∧ EndOfWeek worldUTC [tSepLast2017]
        ≠ Date tSepLast2017.Year tSepLast2017.Month
            (tSepLast2017.Day + (7 - tSepLast2017.Weekday)) 23 59 59 0 (GetLocation worldUTC) := by
  decide

set_option maxRecDepth 100000 in
/-- C19, the code with the fixed zone UTC as active Location, for Saturday
30 September 2017, 23:30:00, presented in `zoneDST`: `StartOfWeek` is Monday
25 September 00:00:00, `EndOfWeek` falls on a Monday, 2 October, 23:59:59, and is
8 days less 1 second after `StartOfWeek`. -/
theorem EndOfWeek_on_monday :
    (GetLocation worldUTC).tx = []
    ∧ (StartOfWeek worldUTC [tSepLast2017]).Weekday = 1
    ∧ ((StartOfWeek worldUTC [tSepLast2017]).Month, (StartOfWeek worldUTC [tSepLast2017]).Day)
        = (9, 25)
    ∧ (EndOfWeek worldUTC [tSepLast2017]).Weekday = 1
    ∧ (EndOfWeek worldUTC [tSepLast2017]).Unix
        = (StartOfWeek worldUTC [tSepLast2017]).Unix + 8 * 86400 - 1
    ∧ (EndOfWeek worldUTC [tSepLast2017]).Unix
        ≠ (StartOfWeek worldUTC [tSepLast2017]).Unix + 7 * 86400 - 1 := by
  decide

end XTime
